import Mathlib

/-!
Verification of the symbolic transition-decomposition engine of
`pygom/model/_ode_composition.py`.

The source manipulates sympy expressions that are sums of product/power terms
with integer coefficients over named symbols (states and parameters).  We embed
that fragment shallowly:

* a symbol is identified by a numeric id (numeric ids);
* a monomial is a list of `(symbol, exponent)` factors, canonically sorted
  by symbol id with positive exponents (sympy's auto-evaluated `Mul`/`Pow`);
* a `Term` is an integer coefficient times a monomial (one additive term of
  an expanded expression);
* an `Expr` is a list of terms; `norm` is the canonical expanded form
  (sympy's `expand` together with its automatic collection of like terms),
  and structural equality of sympy objects is equality of canonical forms.

Every function of the source file that the claims touch is translated below,
keeping the source's loop structure (folds over the same iteration order).
-/

set_option maxRecDepth 10000

namespace Pygom

/-- A monomial: `(symbol, exponent)` factors, canonically sorted by symbol id. -/
abbrev Monomial := List (Nat × Nat)

/-- One additive term of an expanded expression:
an integer coefficient times a monomial. -/
structure Term where
  coeff : Int
  mono : Monomial
deriving DecidableEq, Repr

/-- An expression in expanded sum-of-terms form.  The canonical representative
(sorted, nonzero coefficients, canonical monomials) is produced by `norm`. -/
abbrev Expr := List Term

/-- Comparison of numeric ids. -/
def cmpN (a b : Nat) : Ordering := if a < b then .lt else if b < a then .gt else .eq

/-- Comparison of monomial factors: by symbol, then by exponent. -/
def cmpFactor (f g : Nat × Nat) : Ordering :=
  match cmpN f.1 g.1 with
  | .eq => cmpN f.2 g.2
  | o => o

/-- Lexicographic comparison of monomials. -/
def cmpMono : Monomial → Monomial → Ordering
  | [], [] => .eq
  | [], _ :: _ => .lt
  | _ :: _, [] => .gt
  | f :: fs, g :: gs =>
    match cmpFactor f g with
    | .eq => cmpMono fs gs
    | o => o

/-- Ordered insertion of a factor into a monomial, merging exponents of equal
symbols (sympy's automatic `x * x = x ^ 2`). -/
def insFactor (f : Nat × Nat) : Monomial → Monomial
  | [] => [f]
  | g :: gs =>
    match cmpN f.1 g.1 with
    | .lt => f :: g :: gs
    | .eq => (g.1, f.2 + g.2) :: gs
    | .gt => g :: insFactor f gs

/-- Canonical form of a monomial: zero exponents dropped, equal symbols merged,
factors sorted by symbol id. -/
def normMono (m : Monomial) : Monomial := (m.filter (fun f => f.2 ≠ 0)).foldr insFactor []

/-- Canonicalise the monomial of a term. -/
def normTerm (t : Term) : Term := ⟨t.coeff, normMono t.mono⟩

/-- Ordered insertion of a term into an expression, merging coefficients of
equal monomials and dropping a cancelled term (sympy's automatic collection
of like terms by `Add`). -/
def insertTerm (t : Term) : Expr → Expr
  | [] => [t]
  | u :: us =>
    match cmpMono t.mono u.mono with
    | .lt => t :: u :: us
    | .eq => if t.coeff + u.coeff = 0 then us else ⟨t.coeff + u.coeff, u.mono⟩ :: us
    | .gt => u :: insertTerm t us

/-- Canonical expanded form of an expression: sympy's `expand` plus automatic
evaluation.  Structural equality of sympy objects is equality of `norm`s. -/
def norm (e : Expr) : Expr :=
  ((e.map normTerm).filter (fun t => t.coeff ≠ 0)).foldr insertTerm []

/-- Negation of a term. -/
def negTerm (t : Term) : Term := ⟨-t.coeff, t.mono⟩

/-- sympy `a + b`. -/
def addE (a b : Expr) : Expr := norm (a ++ b)

/-- sympy `-a`. -/
def negE (a : Expr) : Expr := norm (a.map negTerm)

/-- sympy `a - b`. -/
def subE (a b : Expr) : Expr := norm (a ++ b.map negTerm)

/-- The zero expression `Integer(0)`. -/
def zeroE : Expr := []

/-- An integer constant expression. -/
def intE (c : Int) : Expr := [⟨c, []⟩]

/-- A bare symbol expression. -/
def symE (s : Nat) : Expr := [⟨1, [(s, 1)]⟩]

/-- Whether a single term renders as an atomic sympy object (a number, a symbol
or a power) rather than a `Mul`; these are exactly the nodes for which the
source's `_expressionLength` returns zero. -/
def isLeafAtom (t : Term) : Bool :=
  decide (t.mono = [] ∨ (t.coeff = 1 ∧ t.mono.length = 1))

/-- `getExpressions` (driving `_getExpression`): the additive terms recovered
from an expanded expression.  A sum all of whose addends are atomic is kept
whole (all children have `_expressionLength` zero, so the node itself is
recorded); otherwise atomic addends are recorded individually and each `Mul`
or `Pow` addend is recorded whole. -/
def getExpressions (e : Expr) : List Expr :=
  match norm e with
  | [] => [zeroE]
  | [t] => [[t]]
  | ts => if ts.all isLeafAtom then [ts] else ts.map (fun t => [t])

/-- The sympy `.args` of a single expanded term: the factors of a `Mul`
(including the literal integer coefficient when it is not one), the
`(base, exponent)` pair of a `Pow`, and nothing for an atom. -/
def termFactors (t : Term) : List Expr :=
  if t.mono = [] then []
  else if t.coeff = 1 ∧ t.mono.length = 1 then
    match t.mono with
    | [(s, k)] => if k = 1 then [] else [symE s, intE (Int.ofNat k)]
    | _ => []
  else (if t.coeff = 1 then [] else [intE t.coeff]) ++ t.mono.map (fun f => [⟨1, [f]⟩])

/-- The sympy `.args` of an expanded expression: its addends when it is a sum,
and the factors/components of its unique term otherwise. -/
def addArgs (e : Expr) : List Expr :=
  match norm e with
  | [] => []
  | [t] => termFactors t
  | ts => ts.map (fun t => [t])

/-- The leafs contributed by one addend of a sum (`_getLeaf`): an atomic addend
is itself a leaf; a `Mul` addend contributes its factors. -/
def addendLeafs (t : Term) : List Expr :=
  if isLeafAtom t then [[t]] else termFactors t

/-- `getLeafs` of the source: full descent into leaf factors. -/
def getLeafs (e : Expr) : List Expr :=
  match norm e with
  | [] => []
  | [t] => termFactors t
  | ts => (ts.map addendLeafs).flatten

/-- `sympy.Integer(-1) in getLeafs(e)`. -/
def hasNegOneLeaf (e : Expr) : Bool := decide (intE (-1) ∈ getLeafs e)

/-- `_hasExpression eq expr`: the equation's expanded form equals the
expression, or contains it among its top-level `.args`. -/
def hasExpression (a : Expr) (expr : Expr) : Bool :=
  decide (norm expr = norm a ∨ norm expr ∈ addArgs a)

/-- `_findMatchingExpression`: for every pair `i < j` whose sum is zero, both
terms are appended to the output, in iteration order. -/
def findMatchingExpression : List Expr → List Expr
  | [] => []
  | x :: xs =>
    ((xs.map (fun y => if addE x y = [] then [x, y] else [])).flatten)
      ++ findMatchingExpression xs

/-- `_transitionListToMatchedTuple`: orient each cancelling pair so that the
term with a literal `-1` among its leafs comes second. -/
def transitionListToMatchedTuple : List Expr → List (Expr × Expr)
  | [] => []
  | x :: xs =>
    ((xs.map (fun y =>
        if addE x y = [] then
          [if hasNegOneLeaf x then (y, x) else (x, y)]
        else [])).flatten)
      ++ transitionListToMatchedTuple xs

/-- Helper for `dedupFirst`. -/
def dedupFirstAux {α : Type} [DecidableEq α] (seen : List α) : List α → List α
  | [] => []
  | x :: xs => if x ∈ seen then dedupFirstAux seen xs else x :: dedupFirstAux (x :: seen) xs

/-- Deterministic model of the source's `list(set(xs))`: keeps the first
occurrence of each element. -/
def dedupFirst {α : Type} [DecidableEq α] (l : List α) : List α := dedupFirstAux [] l

/-- `getUnmatchedExpressionVector` with `full_output=True`: the unmatched
(birth/death) terms of a vector of equations, together with the matched
tuples computed from the (not de-duplicated) matched list. -/
def getUnmatchedExpressionVector (exprVec : List Expr) :
    List Expr × List (Expr × Expr) :=
  let transitionList := (exprVec.map getExpressions).flatten
  let matched := findMatchingExpression transitionList
  (dedupFirst (transitionList.filter (fun t => decide (¬ t ∈ matched))),
   transitionListToMatchedTuple matched)

/-- `getMatchingExpressionVector` with `outTuple=True`. -/
def getMatchingExpressionVector (exprVec : List Expr) : List (Expr × Expr) :=
  transitionListToMatchedTuple
    (dedupFirst (findMatchingExpression ((exprVec.map getExpressions).flatten)))

/-- `generateDirectedDependencyGraph`: the signed incidence matrix; entry
`(i, j)` accumulates `-1` when equation `i` contains the first (positive)
term of tuple `j` and `+1` when it contains the second (negative) term. -/
def generateDirectedDependencyGraph (odeMatrix : List Expr)
    (transitionList : List (Expr × Expr)) : List (List Int) :=
  odeMatrix.map (fun a =>
    transitionList.map (fun tp =>
      (if hasExpression a tp.1 then (-1 : Int) else 0)
        + (if hasExpression a tp.2 then 1 else 0)))

/-- `generateDirectedDependencyGraph` with the default transition list. -/
def generateDirectedDependencyGraphD (odeMatrix : List Expr) : List (List Int) :=
  generateDirectedDependencyGraph odeMatrix (getMatchingExpressionVector odeMatrix)

/-- A matrix of expressions. -/
abbrev Mat := List (List Expr)

/-- Apply a function at one position of a list (out of range: unchanged). -/
def listModify {α : Type} (f : α → α) : Nat → List α → List α
  | _, [] => []
  | 0, x :: xs => f x :: xs
  | n + 1, x :: xs => x :: listModify f n xs

/-- Matrix cell access. -/
def cell (A : Mat) (i j : Nat) : Expr := (A.getD i []).getD j []

/-- `A[i, j] += e`. -/
def matAdd (A : Mat) (i j : Nat) (e : Expr) : Mat :=
  listModify (fun row => listModify (fun c => addE c e) j row) i A

/-- `sympy.zeros n n`. -/
def zerosMat (n : Nat) : Mat := List.replicate n (List.replicate n zeroE)

/-- `sum(A[:, i])`. -/
def colSum (A : Mat) (i : Nat) : Expr :=
  A.foldl (fun acc row => addE acc (row.getD i zeroE)) zeroE

/-- `sum(A[i, :])`. -/
def rowSum (A : Mat) (i : Nat) : Expr :=
  (A.getD i []).foldl (fun acc c => addE acc c) zeroE

/-- Body of `pureTransitionToOde` (inbound column sum minus outbound row sum,
simplified), used once squareness is known. -/
def pureTransitionToOdeAux (A : Mat) : List Expr :=
  (List.range A.length).map (fun i => subE (colSum A i) (rowSum A i))

/-- `pureTransitionToOde`: the shape assertion fails on a non-square input. -/
def pureTransitionToOde (A : Mat) : Option (List Expr) :=
  if A.all (fun row => decide (row.length = A.length)) then
    some (pureTransitionToOdeAux A)
  else none

/-- `stripBDFromOde`: subtract each birth/death term from every equation whose
expanded `.args` contain it (the test uses the original entry, the subtraction
accumulates on the copy), then simplify and expand. -/
def stripBDFromOde (fx : List Expr) (bdList : List Expr) : List Expr :=
  (fx.map (fun fxi =>
    bdList.foldl (fun acc t => if norm t ∈ addArgs fxi then subE acc t else acc) fxi)).map
    norm

/-- `s in e.atoms()` for a symbol `s`. -/
def symInAtoms (s : Nat) (e : Expr) : Bool :=
  (norm e).any (fun t => t.mono.any (fun f => decide (f.1 = s)))

/-- The candidate origins of `_singleOriginTransition`: indices of the states
whose symbol occurs among the atoms of the term. -/
def originCandidates (states : List Nat) (t1 : Expr) : List Nat :=
  (states.enum.filter (fun p => symInAtoms p.2 t1)).map (fun p => p.1)

/-- One iteration of `_singleOriginTransition`'s loop: with a unique candidate
origin, add the positive term at `(origin, j)` for every other equation `j`
containing it; otherwise defer the tuple to the remainder list. -/
def singleOriginStep (fx : List Expr) (states : List Nat)
    (acc : Mat × List (Expr × Expr)) (tp : Expr × Expr) : Mat × List (Expr × Expr) :=
  let possibleOrigin := originCandidates states tp.1
  if possibleOrigin.length = 1 then
    (fx.enum.foldl (fun B q =>
        if possibleOrigin.headD 0 ≠ q.1 ∧ hasExpression q.2 tp.1 then
          matAdd B (possibleOrigin.headD 0) q.1 tp.1
        else B) acc.1,
     acc.2)
  else (acc.1, acc.2 ++ [tp])

/-- `_singleOriginTransition` (pass 1 of the origin resolver). -/
def singleOriginTransition (fx : List Expr) (termList : List (Expr × Expr))
    (states : List Nat) (A : Mat) : Mat × List (Expr × Expr) :=
  termList.foldl (singleOriginStep fx states) (A, [])

/-- One iteration of `_odeToPureTransition`'s loop: for every equation `i`
containing the negative term and every equation `j` containing the positive
term, add the positive term at `(i, j)`; a tuple placed nowhere is kept in
the remainder list. -/
def pureTransitionStep (fx : List Expr) (acc : Mat × List (Expr × Expr))
    (tp : Expr × Expr) : Mat × List (Expr × Expr) :=
  let st :=
    fx.enum.foldl (fun st p =>
      if hasExpression p.2 tp.2 then
        fx.enum.foldl (fun st2 q =>
          if hasExpression q.2 tp.1 then (matAdd st2.1 p.1 q.1 tp.1, false) else st2) st
      else st) (acc.1, true)
  (st.1, if st.2 then acc.2 ++ [tp] else acc.2)

/-- `_odeToPureTransition` (pass 2 of the origin resolver). -/
def odeToPureTransitionSub (fx : List Expr) (termList : List (Expr × Expr))
    (A : Mat) : Mat × List (Expr × Expr) :=
  termList.foldl (pureTransitionStep fx) (A, [])

/-- The first stage of `odeToPureTransition`: strip birth/death terms, then run
pass 1 and pass 2.  Returns the stripped vector with the matrix and remainder. -/
def decomposeStage (fx : List Expr) (states : List Nat) :
    List Expr × (Mat × List (Expr × Expr)) :=
  let bt := getUnmatchedExpressionVector fx
  let fxs := stripBDFromOde fx bt.1
  let p1 := singleOriginTransition fxs bt.2 states (zerosMat fxs.length)
  (fxs, odeToPureTransitionSub fxs p1.2 p1.1)

/-- `sympy.simplify(fx - pureTransitionToOde(A))`, the reconstruction residual. -/
def residualOde (fxs : List Expr) (A : Mat) : List Expr :=
  List.zipWith subE fxs (pureTransitionToOdeAux A)

/-- `odeToPureTransition` with `output_remain=True`: the full decomposition.
If the residual is zero the matrix and remainder are returned; otherwise the
matched tuples of the nonzero residual entries are recomputed, swapped, and
pass 2 is re-run once on the residual (the source computes `fx2` afterwards
but neither checks nor returns it). -/
def odeToPureTransition (fx : List Expr) (states : List Nat) :
    Mat × List (Expr × Expr) :=
  let st := decomposeStage fx states
  let fxs := st.1
  let A := st.2.1
  let remainTermList := st.2.2
  let diffOde := residualOde fxs A
  if diffOde.all (fun x => decide (x = [])) then (A, remainTermList)
  else
    let diffTermList :=
      (getMatchingExpressionVector (diffOde.filter (fun x => decide (¬ x = [])))).map
        (fun p => (p.2, p.1))
    odeToPureTransitionSub diffOde diffTermList A

/-! ### A heap model for the frame property of `stripBDFromOde`

The source copies its input (`fxCopy = fx.copy()`) and subtracts only on the
copy.  To state that the input object is not mutated we make the object store
explicit: a list of matrix objects addressed by reference. -/

/-- Write one entry of one heap object. -/
def heapModify (objs : List (List Expr)) (r i : Nat) (f : Expr → Expr) :
    List (List Expr) :=
  listModify (fun o => listModify f i o) r objs

/-- The mutation loop of `stripBDFromOde` on the object store: for each entry
`i` of the input vector and each birth/death term contained in that (original)
entry, subtract the term in place on the copy object `copyRef`. -/
def stripHeapLoop (bdList : List Expr) (copyRef : Nat) (fx : List Expr)
    (objs1 : List (List Expr)) : List (List Expr) :=
  fx.enum.foldl (fun os p =>
    bdList.foldl (fun os2 t =>
      if norm t ∈ addArgs p.2 then heapModify os2 copyRef p.1 (fun c => subE c t)
      else os2) os) objs1

/-- `stripBDFromOde` acting on an explicit object store: `fxRef` is the
reference of the input vector; a copy is allocated, mutated in place by the
loop, and a fresh simplified/expanded result object is returned (store and
result reference). -/
def stripBDHeap (objs : List (List Expr)) (fxRef : Nat) (bdList : List Expr) :
    List (List Expr) × Nat :=
  let fx := objs.getD fxRef []
  let copyRef := objs.length
  let objs2 := stripHeapLoop bdList copyRef fx (objs ++ [fx])
  (objs2 ++ [(objs2.getD copyRef []).map norm], objs2.length)

/-! ### Concrete scenario material -/

/-- State symbol `S`. -/
def sS : Nat := 0
/-- State symbol `I`. -/
def sI : Nat := 1
/-- State symbol `R`. -/
def sR : Nat := 2
/-- Parameter `beta`. -/
def sBeta : Nat := 10
/-- Parameter `gamma`. -/
def sGamma : Nat := 11
/-- Parameter `mu`. -/
def sMu : Nat := 12
/-- A symbol that is not a state. -/
def sX : Nat := 20

/-- The term `beta * S * I`. -/
def tBSI : Term := ⟨1, [(sS, 1), (sI, 1), (sBeta, 1)]⟩
/-- The term `gamma * I`. -/
def tGI : Term := ⟨1, [(sI, 1), (sGamma, 1)]⟩
/-- The term `mu`. -/
def tMu : Term := ⟨1, [(sMu, 1)]⟩
/-- The term `x`. -/
def tX : Term := ⟨1, [(sX, 1)]⟩
/-- The term `gamma * S`. -/
def tGS : Term := ⟨1, [(sS, 1), (sGamma, 1)]⟩

/-- Scenario A (SIR): `[-beta*S*I, beta*S*I - gamma*I, gamma*I]`. -/
def fxSIR : List Expr := [[negTerm tBSI], [tBSI, negTerm tGI], [tGI]]

/-- The expected SIR transition matrix: `beta*S*I` at `(S, I)`,
`gamma*I` at `(I, R)`. -/
def matSIR : Mat :=
  [[zeroE, [tBSI], zeroE], [zeroE, zeroE, [tGI]], [zeroE, zeroE, zeroE]]

/-- Scenario B: `[mu - beta*S*I, beta*S*I - gamma*I]` over states `[S, I]`. -/
def fxB : List Expr := [[tMu, negTerm tBSI], [tBSI, negTerm tGI]]

/-- The expected scenario-B transition matrix: only `beta*S*I` at `(S, I)`. -/
def matB : Mat := [[zeroE, [tBSI]], [zeroE, zeroE]]

/-- Input for which the refinement residual never reaches zero:
`[-gamma*S, gamma*S, gamma*S]` over states `[S, I, R]`. -/
def fxC3 : List Expr := [[negTerm tGS], [tGS], [tGS]]

/-- Input on which pass 2 records a self-transition: `[-x, x]`. -/
def fxC6 : List Expr := [[negTerm tX], [tX]]

/-- A diagonal-zero transition matrix on which the round trip loses both
cells: the two off-diagonal cells hold the same expression. -/
def matC2 : Mat := [[zeroE, [tX]], [[tX], zeroE]]

/-- ODE vector `[x, -x, x]`: the same matched pair occurs in three equations,
so its incidence column is unbalanced. -/
def fxC4 : List Expr := [[tX], [negTerm tX], [tX]]

/-! ### Semantic layer

`coeffOf e m` is the coefficient of the (canonical) monomial `m` in `e`; two
expressions denote the same polynomial iff their coefficient functions agree.
`MonoCanon`/`ExprCanon` characterise the canonical representatives produced by
`normMono`/`norm`. -/

/-- The coefficient of monomial `m` (canonical) in the expression `e`. -/
def coeffOf (e : Expr) (m : Monomial) : Int :=
  e.foldr (fun t acc => if normMono t.mono = m then t.coeff + acc else acc) 0

/-- A monomial is canonical: symbols strictly increasing, exponents nonzero. -/
def MonoCanon (m : Monomial) : Prop :=
  List.Pairwise (fun f g => f.1 < g.1) m ∧ ∀ f ∈ m, f.2 ≠ 0

/-- An expression is canonical: terms sorted by strictly increasing monomial,
nonzero coefficients, canonical monomials. -/
def ExprCanon (e : Expr) : Prop :=
  List.Pairwise (fun t u => cmpMono t.mono u.mono = .lt) e ∧
  ∀ t ∈ e, t.coeff ≠ 0 ∧ MonoCanon t.mono

/-- Sum of the entries of column `k` of an integer matrix. -/
def colSumInt (B : List (List Int)) (k : Nat) : Int :=
  (B.map (fun row => row.getD k 0)).sum

/-- The entries of column `k` of an integer matrix. -/
def colInt (B : List (List Int)) (k : Nat) : List Int :=
  B.map (fun row => row.getD k 0)

/-- Row `k` of the ODE vector reconstructed from a transition matrix: the
inbound column sum minus the outbound row sum (the entries produced by
`pureTransitionToOdeAux`). -/
def reconRow (A : Mat) (k : Nat) : Expr := subE (colSum A k) (rowSum A k)

/-- The `transitionList` built by `getUnmatchedExpressionVector`: the recovered
additive terms of every equation, concatenated. -/
def transList (fx : List Expr) : List Expr := (fx.map getExpressions).flatten

/-- A matrix is an `n` by `n` block (every in-range row has length `n`). -/
def Dims (B : Mat) (n : Nat) : Prop :=
  B.length = n ∧ ∀ r, r < n → (B.getD r []).length = n

/-- The hypotheses of the amended round-trip claim: a square matrix whose
diagonal is zero, whose cells each hold at most one term that is a genuine
product (coefficient one, canonical monomial with at least two factors), with
pairwise distinct monomials across cells, such that the candidate-origin scan
of pass 1 either finds exactly the source row of the cell or defers the tuple
to pass 2, and no state is isolated (every index is incident to some nonzero
cell). -/
def GoodMat (A : Mat) (states : List Nat) : Prop :=
  (∀ r ∈ A, r.length = A.length)
  ∧ (∀ i, i < A.length → cell A i i = [])
  ∧ (∀ i, i < A.length → ∀ j, j < A.length →
      (cell A i j).length ≤ 1 ∧ ∀ t ∈ cell A i j,
        t.coeff = 1 ∧ MonoCanon t.mono ∧ 2 ≤ t.mono.length)
  ∧ (∀ i, i < A.length → ∀ j, j < A.length → ∀ i2, i2 < A.length →
      ∀ j2, j2 < A.length → (i ≠ i2 ∨ j ≠ j2) →
      ∀ t ∈ cell A i j, ∀ t2 ∈ cell A i2 j2, t.mono ≠ t2.mono)
  ∧ (∀ i, i < A.length → ∀ j, j < A.length → ∀ t ∈ cell A i j,
      originCandidates states [t] = [i] ∨ (originCandidates states [t]).length ≠ 1)
  ∧ (∀ k, k < A.length →
      (∃ i, i < A.length ∧ cell A i k ≠ []) ∨ (∃ j, j < A.length ∧ cell A k j ≠ []))

instance decMonoCanon (m : Monomial) : Decidable (MonoCanon m) := by
  unfold MonoCanon
  infer_instance

instance decExprCanon (e : Expr) : Decidable (ExprCanon e) := by
  unfold ExprCanon
  infer_instance

set_option synthInstance.maxSize 2000 in
set_option synthInstance.maxHeartbeats 1000000 in
set_option maxHeartbeats 1000000 in
instance decGoodMat (A : Mat) (states : List Nat) : Decidable (GoodMat A states) := by
  unfold GoodMat
  infer_instance

/-! ### Order lemmas -/

theorem cmpN_refl {a : Nat} : cmpN a a = .eq := by
  unfold cmpN; simp

theorem cmpN_eq_iff {a b : Nat} : cmpN a b = .eq ↔ a = b := by
  unfold cmpN
  by_cases h1 : a < b
  · simp [h1]; omega
  · by_cases h2 : b < a
    · simp [h1, h2]; omega
    · simp [h1, h2]; omega

theorem cmpN_lt_iff {a b : Nat} : cmpN a b = .lt ↔ a < b := by
  unfold cmpN
  by_cases h1 : a < b
  · simp [h1]
  · by_cases h2 : b < a <;> simp [h1, h2]

theorem cmpN_gt_iff {a b : Nat} : cmpN a b = .gt ↔ b < a := by
  unfold cmpN
  by_cases h1 : a < b
  · simp [h1]; omega
  · by_cases h2 : b < a <;> simp [h1, h2]

theorem cmpFactor_eq_iff {f g : Nat × Nat} : cmpFactor f g = .eq ↔ f = g := by
  cases h : cmpN f.1 g.1 <;> simp [cmpFactor, h]
  · intro hfg; rw [hfg, cmpN_refl] at h; cases h
  · rw [cmpN_eq_iff] at h
    rw [cmpN_eq_iff, Prod.ext_iff]
    constructor
    · intro h2; exact ⟨h, h2⟩
    · intro h2; exact h2.2
  · intro hfg; rw [hfg, cmpN_refl] at h; cases h

theorem cmpFactor_refl {f : Nat × Nat} : cmpFactor f f = .eq :=
  cmpFactor_eq_iff.mpr rfl

theorem cmpFactor_lt_iff {f g : Nat × Nat} :
    cmpFactor f g = .lt ↔ f.1 < g.1 ∨ (f.1 = g.1 ∧ f.2 < g.2) := by
  simp only [cmpFactor]
  cases h : cmpN f.1 g.1 with
  | lt =>
    rw [cmpN_lt_iff] at h
    exact ⟨fun _ => Or.inl h, fun _ => rfl⟩
  | eq =>
    rw [cmpN_eq_iff] at h
    have key : cmpN f.2 g.2 = Ordering.lt ↔ f.1 < g.1 ∨ (f.1 = g.1 ∧ f.2 < g.2) := by
      rw [cmpN_lt_iff]
      constructor
      · intro h2
        exact Or.inr ⟨h, h2⟩
      · intro h2
        rcases h2 with h2 | h2
        · omega
        · exact h2.2
    exact key
  | gt =>
    rw [cmpN_gt_iff] at h
    exact ⟨fun hh => Ordering.noConfusion hh, fun hP => absurd hP (by omega)⟩

theorem cmpFactor_gt_iff {f g : Nat × Nat} :
    cmpFactor f g = .gt ↔ cmpFactor g f = .lt := by
  rw [cmpFactor_lt_iff]
  simp only [cmpFactor]
  cases h : cmpN f.1 g.1 with
  | lt =>
    rw [cmpN_lt_iff] at h
    exact ⟨fun hh => Ordering.noConfusion hh, fun hP => absurd hP (by omega)⟩
  | eq =>
    rw [cmpN_eq_iff] at h
    have key : cmpN f.2 g.2 = Ordering.gt ↔ g.1 < f.1 ∨ (g.1 = f.1 ∧ g.2 < f.2) := by
      rw [cmpN_gt_iff]
      omega
    exact key
  | gt =>
    rw [cmpN_gt_iff] at h
    exact ⟨fun _ => Or.inl h, fun _ => rfl⟩

theorem cmpFactor_trans {f g h : Nat × Nat} (h1 : cmpFactor f g = .lt)
    (h2 : cmpFactor g h = .lt) : cmpFactor f h = .lt := by
  rw [cmpFactor_lt_iff] at h1 h2 ⊢
  omega

theorem cmpMono_eq_iff {m₁ m₂ : Monomial} : cmpMono m₁ m₂ = .eq ↔ m₁ = m₂ := by
  induction m₁ generalizing m₂ with
  | nil => cases m₂ <;> simp [cmpMono]
  | cons f fs ih =>
    cases m₂ with
    | nil => simp [cmpMono]
    | cons g gs =>
      simp only [cmpMono]
      cases h : cmpFactor f g with
      | lt =>
        constructor
        · intro hh
          exact Ordering.noConfusion hh
        · intro hh
          rw [List.cons.injEq] at hh
          rw [hh.1, cmpFactor_refl] at h
          exact Ordering.noConfusion h
      | eq =>
        have h2 := cmpFactor_eq_iff.mp h
        subst h2
        have key : cmpMono fs gs = Ordering.eq ↔ f :: fs = f :: gs := by
          rw [ih]
          simp
        exact key
      | gt =>
        constructor
        · intro hh
          exact Ordering.noConfusion hh
        · intro hh
          rw [List.cons.injEq] at hh
          rw [hh.1, cmpFactor_refl] at h
          exact Ordering.noConfusion h

theorem cmpMono_refl {m : Monomial} : cmpMono m m = .eq := cmpMono_eq_iff.mpr rfl

theorem cmpMono_gt_iff {m₁ m₂ : Monomial} : cmpMono m₁ m₂ = .gt ↔ cmpMono m₂ m₁ = .lt := by
  induction m₁ generalizing m₂ with
  | nil => cases m₂ <;> simp [cmpMono]
  | cons f fs ih =>
    cases m₂ with
    | nil => simp [cmpMono]
    | cons g gs =>
      simp only [cmpMono]
      cases h : cmpFactor f g with
      | lt =>
        have hgf : cmpFactor g f = .gt := cmpFactor_gt_iff.mpr h
        rw [hgf]
        exact ⟨fun hh => Ordering.noConfusion hh, fun hh => Ordering.noConfusion hh⟩
      | eq =>
        have h2 := cmpFactor_eq_iff.mp h
        subst h2
        rw [cmpFactor_refl]
        exact ih
      | gt =>
        have hgf : cmpFactor g f = .lt := cmpFactor_gt_iff.mp h
        rw [hgf]
        exact ⟨fun _ => rfl, fun _ => rfl⟩

theorem cmpMono_lt_trans {m₁ m₂ m₃ : Monomial} (h1 : cmpMono m₁ m₂ = .lt)
    (h2 : cmpMono m₂ m₃ = .lt) : cmpMono m₁ m₃ = .lt := by
  induction m₁ generalizing m₂ m₃ with
  | nil =>
    cases m₃ with
    | nil =>
      cases m₂ with
      | nil => exact Ordering.noConfusion h1
      | cons g gs => exact Ordering.noConfusion h2
    | cons h hs => rfl
  | cons f fs ih =>
    cases m₂ with
    | nil => exact Ordering.noConfusion h1
    | cons g gs =>
      cases m₃ with
      | nil => exact Ordering.noConfusion h2
      | cons h hs =>
        simp only [cmpMono] at h1 h2 ⊢
        cases hfg : cmpFactor f g <;> rw [hfg] at h1
        · cases hgh : cmpFactor g h <;> rw [hgh] at h2
          · rw [cmpFactor_trans hfg hgh]
          · have h3 := cmpFactor_eq_iff.mp hgh
            subst h3
            rw [hfg]
          · exact Ordering.noConfusion h2
        · have h3 := cmpFactor_eq_iff.mp hfg
          subst h3
          cases hgh : cmpFactor f h with
          | lt => rfl
          | eq =>
            rw [hgh] at h2
            exact ih h1 h2
          | gt =>
            rw [hgh] at h2
            exact Ordering.noConfusion h2
        · exact Ordering.noConfusion h1
/-! ### Canonical monomials -/

theorem syms_insFactor {f g : Nat × Nat} {m : Monomial} (h : g ∈ insFactor f m) :
    g.1 = f.1 ∨ g.1 ∈ m.map Prod.fst := by
  induction m with
  | nil =>
    rw [insFactor, List.mem_singleton] at h
    exact Or.inl (by rw [h])
  | cons p ps ih =>
    rw [insFactor] at h
    cases hc : cmpN f.1 p.1 <;> rw [hc] at h
    · rcases List.mem_cons.mp h with h | h
      · exact Or.inl (by rw [h])
      · exact Or.inr (List.mem_map_of_mem Prod.fst h)
    · rcases List.mem_cons.mp h with h | h
      · refine Or.inr ?_
        rw [List.map_cons]
        exact List.mem_cons.mpr (Or.inl (by rw [h]))
      · refine Or.inr ?_
        rw [List.map_cons]
        exact List.mem_cons.mpr (Or.inr (List.mem_map_of_mem Prod.fst h))
    · rcases List.mem_cons.mp h with h | h
      · refine Or.inr ?_
        rw [List.map_cons]
        exact List.mem_cons.mpr (Or.inl (by rw [h]))
      · rcases ih h with h2 | h2
        · exact Or.inl h2
        · refine Or.inr ?_
          rw [List.map_cons]
          exact List.mem_cons.mpr (Or.inr h2)

theorem insFactor_pairwise {f : Nat × Nat} {m : Monomial}
    (hm : List.Pairwise (fun a b => a.1 < b.1) m) :
    List.Pairwise (fun a b => a.1 < b.1) (insFactor f m) := by
  induction m with
  | nil => simp [insFactor]
  | cons p ps ih =>
    rw [List.pairwise_cons] at hm
    rw [insFactor]
    cases hc : cmpN f.1 p.1 with
    | lt =>
      rw [cmpN_lt_iff] at hc
      rw [List.pairwise_cons]
      constructor
      · intro b hb
        rcases List.mem_cons.mp hb with hb | hb
        · rw [hb]; exact hc
        · exact lt_trans hc (hm.1 b hb)
      · exact List.pairwise_cons.mpr hm
    | eq =>
      rw [List.pairwise_cons]
      exact ⟨hm.1, hm.2⟩
    | gt =>
      rw [cmpN_gt_iff] at hc
      rw [List.pairwise_cons]
      constructor
      · intro b hb
        rcases syms_insFactor hb with h | h
        · omega
        · rcases List.mem_map.mp h with ⟨c, hc2, hc3⟩
          have := hm.1 c hc2
          omega
      · exact ih hm.2
    
theorem insFactor_exps {f : Nat × Nat} {m : Monomial} (hf : f.2 ≠ 0)
    (hm : ∀ g ∈ m, g.2 ≠ 0) : ∀ g ∈ insFactor f m, g.2 ≠ 0 := by
  induction m with
  | nil =>
    intro g hg
    rw [insFactor, List.mem_singleton] at hg
    rw [hg]; exact hf
  | cons p ps ih =>
    intro g hg
    rw [insFactor] at hg
    cases hc : cmpN f.1 p.1 <;> rw [hc] at hg
    · rcases List.mem_cons.mp hg with h | h
      · rw [h]; exact hf
      · exact hm g h
    · rcases List.mem_cons.mp hg with h | h
      · rw [h]
        have := hm p (List.mem_cons_self p ps)
        simp
        omega
      · exact hm g (List.mem_cons_of_mem p h)
    · rcases List.mem_cons.mp hg with h | h
      · rw [h]; exact hm p (List.mem_cons_self p ps)
      · exact ih (fun g2 hg2 => hm g2 (List.mem_cons_of_mem p hg2)) g h

theorem foldr_insFactor_canon {l : Monomial} (h : ∀ f ∈ l, f.2 ≠ 0) :
    MonoCanon (l.foldr insFactor []) := by
  induction l with
  | nil => exact ⟨List.Pairwise.nil, by intro f hf; cases hf⟩
  | cons p ps ih =>
    have ih2 := ih (fun f hf => h f (List.mem_cons_of_mem p hf))
    constructor
    · exact insFactor_pairwise ih2.1
    · exact insFactor_exps (h p (List.mem_cons_self p ps)) ih2.2

theorem normMono_canon (m : Monomial) : MonoCanon (normMono m) := by
  unfold normMono
  apply foldr_insFactor_canon
  intro f hf
  have := List.mem_filter.mp hf
  simpa using this.2

theorem insFactor_front {f : Nat × Nat} {m : Monomial} (h : ∀ g ∈ m, f.1 < g.1) :
    insFactor f m = f :: m := by
  cases m with
  | nil => rfl
  | cons p ps =>
    rw [insFactor]
    have := h p (List.mem_cons_self p ps)
    rw [cmpN_lt_iff.mpr this]

theorem monoCanon_id {m : Monomial} (h : MonoCanon m) : normMono m = m := by
  induction m with
  | nil => rfl
  | cons p ps ih =>
    rcases h with ⟨hp, he⟩
    rw [List.pairwise_cons] at hp
    have htail : normMono ps = ps := ih ⟨hp.2, fun g hg => he g (List.mem_cons_of_mem p hg)⟩
    unfold normMono at htail ⊢
    rw [List.filter_cons_of_pos (by simpa using he p (List.mem_cons_self p ps))]
    rw [List.foldr_cons, htail, insFactor_front hp.1]

theorem normMono_idem (m : Monomial) : normMono (normMono m) = normMono m :=
  monoCanon_id (normMono_canon m)

/-! ### Canonical expressions -/

theorem mono_mem_insertTerm {t v : Term} {e : Expr} (h : v ∈ insertTerm t e) :
    v.mono = t.mono ∨ v.mono ∈ e.map Term.mono := by
  induction e with
  | nil =>
    rw [insertTerm, List.mem_singleton] at h
    exact Or.inl (by rw [h])
  | cons u us ih =>
    rw [insertTerm] at h
    cases hc : cmpMono t.mono u.mono <;> rw [hc] at h
    · rcases List.mem_cons.mp h with h | h
      · exact Or.inl (by rw [h])
      · exact Or.inr (List.mem_map_of_mem Term.mono h)
    · by_cases hz : t.coeff + u.coeff = 0
      · rw [if_pos hz] at h
        refine Or.inr ?_
        rw [List.map_cons]
        exact List.mem_cons.mpr (Or.inr (List.mem_map_of_mem Term.mono h))
      · rw [if_neg hz] at h
        rcases List.mem_cons.mp h with h | h
        · refine Or.inr ?_
          rw [List.map_cons]
          exact List.mem_cons.mpr (Or.inl (by rw [h]))
        · refine Or.inr ?_
          rw [List.map_cons]
          exact List.mem_cons.mpr (Or.inr (List.mem_map_of_mem Term.mono h))
    · rcases List.mem_cons.mp h with h | h
      · refine Or.inr ?_
        rw [List.map_cons]
        exact List.mem_cons.mpr (Or.inl (by rw [h]))
      · rcases ih h with h2 | h2
        · exact Or.inl h2
        · refine Or.inr ?_
          rw [List.map_cons]
          exact List.mem_cons.mpr (Or.inr h2)

theorem insertTerm_pairwise {t : Term} {e : Expr}
    (he : List.Pairwise (fun a b => cmpMono a.mono b.mono = .lt) e) :
    List.Pairwise (fun a b => cmpMono a.mono b.mono = .lt) (insertTerm t e) := by
  induction e with
  | nil => simp [insertTerm]
  | cons u us ih =>
    rw [List.pairwise_cons] at he
    rw [insertTerm]
    cases hc : cmpMono t.mono u.mono with
    | lt =>
      rw [List.pairwise_cons]
      constructor
      · intro b hb
        rcases List.mem_cons.mp hb with hb | hb
        · rw [hb]; exact hc
        · exact cmpMono_lt_trans hc (he.1 b hb)
      · exact List.pairwise_cons.mpr he
    | eq =>
      by_cases hz : t.coeff + u.coeff = 0
      · rw [if_pos hz]
        exact he.2
      · rw [if_neg hz]
        rw [List.pairwise_cons]
        exact ⟨he.1, he.2⟩
    | gt =>
      rw [List.pairwise_cons]
      constructor
      · intro b hb
        rcases mono_mem_insertTerm hb with h2 | h2
        · rw [h2]
          exact cmpMono_gt_iff.mp hc
        · rcases List.mem_map.mp h2 with ⟨c, hc2, hc3⟩
          rw [← hc3]
          exact he.1 c hc2
      · exact ih he.2

theorem insertTerm_props {t : Term} {e : Expr} (h1 : t.coeff ≠ 0) (h2 : MonoCanon t.mono)
    (he : ∀ v ∈ e, v.coeff ≠ 0 ∧ MonoCanon v.mono) :
    ∀ v ∈ insertTerm t e, v.coeff ≠ 0 ∧ MonoCanon v.mono := by
  induction e with
  | nil =>
    intro v hv
    rw [insertTerm, List.mem_singleton] at hv
    rw [hv]; exact ⟨h1, h2⟩
  | cons u us ih =>
    intro v hv
    rw [insertTerm] at hv
    cases hc : cmpMono t.mono u.mono <;> rw [hc] at hv
    · rcases List.mem_cons.mp hv with h | h
      · rw [h]; exact ⟨h1, h2⟩
      · exact he v h
    · by_cases hz : t.coeff + u.coeff = 0
      · rw [if_pos hz] at hv
        exact he v (List.mem_cons_of_mem u hv)
      · rw [if_neg hz] at hv
        rcases List.mem_cons.mp hv with h | h
        · rw [h]
          exact ⟨hz, (he u (List.mem_cons_self u us)).2⟩
        · exact he v (List.mem_cons_of_mem u h)
    · rcases List.mem_cons.mp hv with h | h
      · rw [h]; exact he u (List.mem_cons_self u us)
      · exact ih (fun w hw => he w (List.mem_cons_of_mem u hw)) v h

theorem exprCanon_nil : ExprCanon [] :=
  ⟨List.Pairwise.nil, fun t ht => absurd ht (List.not_mem_nil t)⟩

theorem foldr_insertTerm_canon {l : List Term}
    (h : ∀ t ∈ l, t.coeff ≠ 0 ∧ MonoCanon t.mono) :
    ExprCanon (l.foldr insertTerm []) := by
  induction l with
  | nil => exact exprCanon_nil
  | cons t ts ih =>
    have ih2 := ih (fun u hu => h u (List.mem_cons_of_mem t hu))
    have hh := h t (List.mem_cons_self t ts)
    rw [List.foldr_cons]
    exact ⟨insertTerm_pairwise ih2.1, insertTerm_props hh.1 hh.2 ih2.2⟩

theorem norm_canon (e : Expr) : ExprCanon (norm e) := by
  unfold norm
  apply foldr_insertTerm_canon
  intro t ht
  rcases List.mem_filter.mp ht with ⟨ht1, ht2⟩
  constructor
  · simpa using ht2
  · rcases List.mem_map.mp ht1 with ⟨u, hu1, hu2⟩
    rw [← hu2]
    exact normMono_canon u.mono

/-! ### The coefficient function -/

theorem coeffOf_nil {m : Monomial} : coeffOf [] m = 0 := rfl

theorem coeffOf_cons {t : Term} {e : Expr} {m : Monomial} :
    coeffOf (t :: e) m = (if normMono t.mono = m then t.coeff else 0) + coeffOf e m := by
  unfold coeffOf
  rw [List.foldr_cons]
  by_cases h : normMono t.mono = m
  · rw [if_pos h, if_pos h]
  · rw [if_neg h, if_neg h, zero_add]

theorem coeffOf_append {a b : Expr} {m : Monomial} :
    coeffOf (a ++ b) m = coeffOf a m + coeffOf b m := by
  induction a with
  | nil => rw [List.nil_append, coeffOf_nil, zero_add]
  | cons t ts ih => rw [List.cons_append, coeffOf_cons, coeffOf_cons, ih, add_assoc]

theorem coeffOf_insertTerm {t : Term} {e : Expr} {m : Monomial} :
    coeffOf (insertTerm t e) m
      = (if normMono t.mono = m then t.coeff else 0) + coeffOf e m := by
  induction e with
  | nil => rw [insertTerm]; exact coeffOf_cons
  | cons u us ih =>
    cases hc : cmpMono t.mono u.mono with
    | lt =>
      have hred : insertTerm t (u :: us) = t :: u :: us := by rw [insertTerm, hc]
      rw [hred, coeffOf_cons]
    | eq =>
      have hm : t.mono = u.mono := cmpMono_eq_iff.mp hc
      have hred : insertTerm t (u :: us)
          = if t.coeff + u.coeff = 0 then us else ⟨t.coeff + u.coeff, u.mono⟩ :: us := by
        rw [insertTerm, hc]
      rw [hred]
      by_cases hz : t.coeff + u.coeff = 0
      · rw [if_pos hz, coeffOf_cons, hm]
        by_cases hmm : normMono u.mono = m
        · rw [if_pos hmm, if_pos hmm]; omega
        · rw [if_neg hmm, if_neg hmm]; omega
      · rw [if_neg hz, coeffOf_cons, coeffOf_cons, hm]
        by_cases hmm : normMono u.mono = m
        · rw [if_pos hmm, if_pos hmm, if_pos hmm]
          show t.coeff + u.coeff + coeffOf us m = t.coeff + (u.coeff + coeffOf us m)
          omega
        · rw [if_neg hmm, if_neg hmm, if_neg hmm]; omega
    | gt =>
      have hred : insertTerm t (u :: us) = u :: insertTerm t us := by rw [insertTerm, hc]
      rw [hred, coeffOf_cons, coeffOf_cons, ih]
      ring

theorem coeffOf_foldr {l : List Term} {m : Monomial} :
    coeffOf (l.foldr insertTerm []) m = coeffOf l m := by
  induction l with
  | nil => rfl
  | cons t ts ih => rw [List.foldr_cons, coeffOf_insertTerm, ih, coeffOf_cons]

theorem coeffOf_filter {l : List Term} {m : Monomial} :
    coeffOf (l.filter (fun t => t.coeff ≠ 0)) m = coeffOf l m := by
  induction l with
  | nil => rfl
  | cons t ts ih =>
    by_cases h : t.coeff = 0
    · rw [List.filter_cons, if_neg (by simp [h]), ih, coeffOf_cons, h]
      simp
    · rw [List.filter_cons, if_pos (by simp [h]), coeffOf_cons, ih, coeffOf_cons]

theorem coeffOf_map_normTerm {l : List Term} {m : Monomial} :
    coeffOf (l.map normTerm) m = coeffOf l m := by
  induction l with
  | nil => rfl
  | cons t ts ih =>
    rw [List.map_cons, coeffOf_cons, coeffOf_cons, ih]
    simp only [normTerm, normMono_idem]

theorem coeffOf_norm (e : Expr) (m : Monomial) : coeffOf (norm e) m = coeffOf e m := by
  unfold norm
  rw [coeffOf_foldr, coeffOf_filter, coeffOf_map_normTerm]

theorem coeffOf_not_mem {e : Expr} {m : Monomial}
    (hcanon : ∀ t ∈ e, normMono t.mono = t.mono)
    (h : ¬ m ∈ e.map Term.mono) : coeffOf e m = 0 := by
  induction e with
  | nil => rfl
  | cons t ts ih =>
    rw [coeffOf_cons]
    rw [List.map_cons, List.mem_cons] at h
    push_neg at h
    rw [hcanon t (List.mem_cons_self t ts), if_neg (fun hh => h.1 hh.symm), zero_add]
    exact ih (fun u hu => hcanon u (List.mem_cons_of_mem t hu)) h.2

theorem canon_coeffOf_mem {e : Expr} (he : ExprCanon e) {t : Term} (ht : t ∈ e) :
    coeffOf e t.mono = t.coeff := by
  induction e with
  | nil => cases ht
  | cons u us ih =>
    rcases he with ⟨hp, hprops⟩
    rw [List.pairwise_cons] at hp
    rcases List.mem_cons.mp ht with h | h
    · subst h
      rw [coeffOf_cons, monoCanon_id (hprops t (List.mem_cons_self t us)).2, if_pos rfl]
      have hz : coeffOf us t.mono = 0 := by
        apply coeffOf_not_mem
          (fun v hv => monoCanon_id (hprops v (List.mem_cons_of_mem t hv)).2)
        intro hmem
        rcases List.mem_map.mp hmem with ⟨b, hb1, hb2⟩
        have hlt := hp.1 b hb1
        rw [hb2, cmpMono_refl] at hlt
        exact Ordering.noConfusion hlt
      rw [hz, add_zero]
    · rw [coeffOf_cons, monoCanon_id (hprops u (List.mem_cons_self u us)).2]
      have hlt := hp.1 t h
      have hne : u.mono ≠ t.mono := by
        intro hh
        rw [hh, cmpMono_refl] at hlt
        exact Ordering.noConfusion hlt
      rw [if_neg hne, zero_add]
      exact ih ⟨hp.2, fun v hv => hprops v (List.mem_cons_of_mem u hv)⟩ h

theorem canon_coeffOf_ne_zero_mem {e : Expr} (he : ExprCanon e) {m : Monomial}
    (h : coeffOf e m ≠ 0) : (⟨coeffOf e m, m⟩ : Term) ∈ e := by
  induction e with
  | nil => exact absurd rfl h
  | cons u us ih =>
    rcases he with ⟨hp, hprops⟩
    rw [List.pairwise_cons] at hp
    have hu := hprops u (List.mem_cons_self u us)
    rw [coeffOf_cons, monoCanon_id hu.2] at h ⊢
    by_cases hm : u.mono = m
    · have hz : coeffOf us m = 0 := by
        apply coeffOf_not_mem
          (fun v hv => monoCanon_id (hprops v (List.mem_cons_of_mem u hv)).2)
        intro hmem
        rcases List.mem_map.mp hmem with ⟨b, hb1, hb2⟩
        have hlt := hp.1 b hb1
        rw [hb2, ← hm, cmpMono_refl] at hlt
        exact Ordering.noConfusion hlt
      rw [if_pos hm, hz, add_zero]
      subst hm
      exact List.mem_cons.mpr (Or.inl rfl)
    · rw [if_neg hm, zero_add] at h ⊢
      exact List.mem_cons.mpr (Or.inr
        (ih ⟨hp.2, fun v hv => hprops v (List.mem_cons_of_mem u hv)⟩ h))

theorem canon_ext {e₁ e₂ : Expr} (h1 : ExprCanon e₁) (h2 : ExprCanon e₂)
    (h : ∀ m, coeffOf e₁ m = coeffOf e₂ m) : e₁ = e₂ := by
  induction e₁ generalizing e₂ with
  | nil =>
    cases e₂ with
    | nil => rfl
    | cons u us =>
      have hu := canon_coeffOf_mem h2 (List.mem_cons_self u us)
      have hc := (h2.2 u (List.mem_cons_self u us)).1
      rw [← h u.mono, coeffOf_nil] at hu
      exact absurd hu.symm hc
  | cons t ts ih =>
    cases e₂ with
    | nil =>
      have ht := canon_coeffOf_mem h1 (List.mem_cons_self t ts)
      have hc := (h1.2 t (List.mem_cons_self t ts)).1
      rw [h t.mono, coeffOf_nil] at ht
      exact absurd ht.symm hc
    | cons u us =>
      have head_eq : t = u := by
        have ht2 : (⟨t.coeff, t.mono⟩ : Term) ∈ u :: us := by
          have hh : coeffOf (u :: us) t.mono = t.coeff := by
            rw [← h t.mono]
            exact canon_coeffOf_mem h1 (List.mem_cons_self t ts)
          have := canon_coeffOf_ne_zero_mem h2 (m := t.mono)
            (by rw [hh]; exact (h1.2 t (List.mem_cons_self t ts)).1)
          rw [hh] at this
          exact this
        have hu1 : (⟨u.coeff, u.mono⟩ : Term) ∈ t :: ts := by
          have hh : coeffOf (t :: ts) u.mono = u.coeff := by
            rw [h u.mono]
            exact canon_coeffOf_mem h2 (List.mem_cons_self u us)
          have := canon_coeffOf_ne_zero_mem h1 (m := u.mono)
            (by rw [hh]; exact (h2.2 u (List.mem_cons_self u us)).1)
          rw [hh] at this
          exact this
        rcases List.mem_cons.mp ht2 with hA | hA
        · exact hA
        · rcases List.mem_cons.mp hu1 with hB | hB
          · exact (congrArg (fun v => (⟨v.coeff, v.mono⟩ : Term)) hB).symm
          · have hlt1 : cmpMono u.mono t.mono = .lt := by
              have := (List.pairwise_cons.mp h2.1).1 _ hA
              exact this
            have hlt2 : cmpMono t.mono u.mono = .lt := by
              have := (List.pairwise_cons.mp h1.1).1 _ hB
              exact this
            have := cmpMono_lt_trans hlt1 hlt2
            rw [cmpMono_refl] at this
            exact absurd this (by intro hh; exact Ordering.noConfusion hh)
      subst head_eq
      have tail_eq : ts = us := by
        apply ih
          ⟨(List.pairwise_cons.mp h1.1).2, fun v hv => h1.2 v (List.mem_cons_of_mem t hv)⟩
          ⟨(List.pairwise_cons.mp h2.1).2, fun v hv => h2.2 v (List.mem_cons_of_mem t hv)⟩
        intro m
        have := h m
        rw [coeffOf_cons, coeffOf_cons] at this
        exact add_left_cancel this
      rw [tail_eq]

theorem norm_ext_iff {a b : Expr} : norm a = norm b ↔ ∀ m, coeffOf a m = coeffOf b m := by
  constructor
  · intro h m
    rw [← coeffOf_norm a, h, coeffOf_norm]
  · intro h
    exact canon_ext (norm_canon a) (norm_canon b)
      (fun m => by rw [coeffOf_norm, coeffOf_norm]; exact h m)

theorem norm_id {e : Expr} (he : ExprCanon e) : norm e = e :=
  canon_ext (norm_canon e) he (fun m => coeffOf_norm e m)

theorem norm_norm (e : Expr) : norm (norm e) = norm e := norm_id (norm_canon e)

theorem norm_nil_iff {e : Expr} : norm e = [] ↔ ∀ m, coeffOf e m = 0 := by
  constructor
  · intro h m
    rw [← coeffOf_norm e, h, coeffOf_nil]
  · intro h
    exact canon_ext (norm_canon e) exprCanon_nil
      (fun m => by rw [coeffOf_norm, coeffOf_nil]; exact h m)

theorem coeffOf_map_negTerm {e : Expr} {m : Monomial} :
    coeffOf (e.map negTerm) m = - coeffOf e m := by
  induction e with
  | nil => rfl
  | cons t ts ih =>
    rw [List.map_cons, coeffOf_cons, coeffOf_cons, ih]
    simp only [negTerm]
    by_cases h : normMono t.mono = m
    · rw [if_pos h, if_pos h]
      omega
    · rw [if_neg h, if_neg h]
      omega

theorem addE_coeff (a b : Expr) (m : Monomial) :
    coeffOf (addE a b) m = coeffOf a m + coeffOf b m := by
  unfold addE
  rw [coeffOf_norm, coeffOf_append]

theorem negE_coeff (a : Expr) (m : Monomial) : coeffOf (negE a) m = - coeffOf a m := by
  unfold negE
  rw [coeffOf_norm, coeffOf_map_negTerm]

theorem subE_coeff (a b : Expr) (m : Monomial) :
    coeffOf (subE a b) m = coeffOf a m - coeffOf b m := by
  unfold subE
  rw [coeffOf_norm, coeffOf_append, coeffOf_map_negTerm]
  omega

/-! ### Claim C1: scenario A (SIR) -/

/-- C1: for states `[S, I, R]` and ODE `[-beta*S*I, beta*S*I - gamma*I, gamma*I]`,
the full decomposition `odeToPureTransition` returns the 3 by 3 matrix whose only
nonzero entries are `beta*S*I` at `(S, I)` and `gamma*I` at `(I, R)`, with an
empty remainder, and the (birth/death) unmatched-term list is empty. -/
theorem C1_sir_full_decomposition :
    odeToPureTransition fxSIR [sS, sI, sR] = (matSIR, [])
      ∧ (getUnmatchedExpressionVector fxSIR).1 = [] := by
  constructor
  · decide
  · decide

/-! ### Claim C7: scenario B (birth/death) -/

/-- C7: for states `[S, I]` and ODE `[mu - beta*S*I, beta*S*I - gamma*I]`, the
unmatched (birth/death) terms are exactly `mu` and `-gamma*I`, the only matched
tuple is `(beta*S*I, -beta*S*I)`, and the decomposition's transition matrix has
`beta*S*I` at `(S, I)` as its only nonzero entry (empty remainder). -/
theorem C7_scenario_b :
    getUnmatchedExpressionVector fxB
        = ([[tMu], [negTerm tGI]], [([tBSI], [negTerm tBSI])])
      ∧ odeToPureTransition fxB [sS, sI] = (matB, []) := by
  constructor
  · decide
  · decide

/-! ### Claim C9: ODE reconstruction from a pure transition matrix -/

theorem getD_map_range {n i : Nat} {f : Nat → Expr} (h : i < n) :
    ((List.range n).map f).getD i [] = f i := by
  rw [List.getD_eq_getElem?_getD, List.getElem?_map, List.getElem?_range h]
  rfl

/-- C9: on a square matrix `pureTransitionToOde` returns the vector whose
`i`-th entry is the simplified difference of the inbound column sum and the
outbound row sum; a non-square matrix fails the shape assertion instead of
returning a vector. -/
theorem C9_pure_transition_to_ode (A : Mat) :
    ((A.all fun row => decide (row.length = A.length)) = true →
      ∃ b, pureTransitionToOde A = some b ∧ b.length = A.length ∧
        ∀ i, i < A.length → b.getD i [] = subE (colSum A i) (rowSum A i))
    ∧ ((A.all fun row => decide (row.length = A.length)) = false →
      pureTransitionToOde A = none) := by
  constructor
  · intro h
    refine ⟨pureTransitionToOdeAux A, ?_, ?_, ?_⟩
    · unfold pureTransitionToOde
      rw [if_pos h]
    · unfold pureTransitionToOdeAux
      rw [List.length_map, List.length_range]
    · intro i hi
      unfold pureTransitionToOdeAux
      exact getD_map_range hi
  · intro h
    unfold pureTransitionToOde
    rw [if_neg]
    rw [h]
    exact Bool.false_ne_true

/-- Witness for C9: a concrete square and a concrete non-square input. -/
theorem C9_pure_transition_to_ode_witness :
    (∃ b, pureTransitionToOde [[[tX]]] = some b ∧ b.length = 1 ∧
        ∀ i, i < 1 → b.getD i [] = subE (colSum [[[tX]]] i) (rowSum [[[tX]]] i))
      ∧ pureTransitionToOde [[zeroE, zeroE]] = none :=
  ⟨(C9_pure_transition_to_ode [[[tX]]]).1 (by decide),
   (C9_pure_transition_to_ode [[zeroE, zeroE]]).2 (by decide)⟩

/-! ### Claim C3: behaviour when the reconstruction residual stays nonzero -/

/-- Counterexample to C3: on `[-gamma*S, gamma*S, gamma*S]` the residual is
still nonzero after the single refinement pass, yet `odeToPureTransition`
returns a matrix (with an empty remainder) whose reconstruction differs from
the stripped input; no error of any kind is raised. -/
theorem C3_residual_counterexample :
    (odeToPureTransition fxC3 [sS, sI, sR]).2 = []
      ∧ pureTransitionToOdeAux (odeToPureTransition fxC3 [sS, sI, sR]).1
          ≠ stripBDFromOde fxC3 (getUnmatchedExpressionVector fxC3).1 := by
  constructor
  · decide
  · decide

/-- C3 amended: `odeToPureTransition` runs exactly one refinement pass on a
nonzero residual (re-matching the residual's nonzero entries with swapped
tuples) and returns that pass's matrix and remainder unconditionally — no
error is raised even when the refined reconstruction still mismatches. -/
theorem C3_refinement_amended (fx : List Expr) (states : List Nat)
    (h : ¬ ((residualOde (decomposeStage fx states).1
        (decomposeStage fx states).2.1).all (fun x => decide (x = [])) = true)) :
    odeToPureTransition fx states
      = odeToPureTransitionSub
          (residualOde (decomposeStage fx states).1 (decomposeStage fx states).2.1)
          ((getMatchingExpressionVector
              ((residualOde (decomposeStage fx states).1
                  (decomposeStage fx states).2.1).filter
                (fun x => decide (¬ x = [])))).map (fun p => (p.2, p.1)))
          (decomposeStage fx states).2.1 := by
  unfold odeToPureTransition
  simp only []
  rw [if_neg h]

/-- Witness for C3 amended at the concrete nonzero-residual input. -/
theorem C3_refinement_amended_witness :
    odeToPureTransition fxC3 [sS, sI, sR]
      = odeToPureTransitionSub
          (residualOde (decomposeStage fxC3 [sS, sI, sR]).1
            (decomposeStage fxC3 [sS, sI, sR]).2.1)
          ((getMatchingExpressionVector
              ((residualOde (decomposeStage fxC3 [sS, sI, sR]).1
                  (decomposeStage fxC3 [sS, sI, sR]).2.1).filter
                (fun x => decide (¬ x = [])))).map (fun p => (p.2, p.1)))
          (decomposeStage fxC3 [sS, sI, sR]).2.1 :=
  C3_refinement_amended fxC3 [sS, sI, sR] (by decide)

/-! ### Matrix cell lemmas -/

theorem length_listModify {α : Type} (f : α → α) (i : Nat) (l : List α) :
    (listModify f i l).length = l.length := by
  induction l generalizing i with
  | nil => cases i <;> rfl
  | cons x xs ih =>
    cases i with
    | zero => rfl
    | succ n => simp only [listModify, List.length_cons, ih]

theorem getD_listModify_ne {α : Type} (f : α → α) {i k : Nat} (l : List α) (d : α)
    (h : k ≠ i) : (listModify f i l).getD k d = l.getD k d := by
  induction l generalizing i k with
  | nil => cases i <;> rfl
  | cons x xs ih =>
    cases i with
    | zero =>
      cases k with
      | zero => exact absurd rfl h
      | succ kk => rfl
    | succ n =>
      cases k with
      | zero => rfl
      | succ kk =>
        simp only [listModify]
        rw [List.getD_cons_succ, List.getD_cons_succ]
        exact ih (fun hh => h (by rw [hh]))

theorem getD_listModify_eq {α : Type} (f : α → α) {i : Nat} (l : List α) (d : α)
    (h : i < l.length) : (listModify f i l).getD i d = f (l.getD i d) := by
  induction l generalizing i with
  | nil => exact absurd h (Nat.not_lt_zero i)
  | cons x xs ih =>
    cases i with
    | zero => rfl
    | succ n =>
      simp only [listModify]
      rw [List.getD_cons_succ, List.getD_cons_succ]
      exact ih (Nat.lt_of_succ_lt_succ h)

theorem cell_matAdd_ne {A : Mat} {i j k l : Nat} {e : Expr}
    (h : ¬ (k = i ∧ l = j)) : cell (matAdd A i j e) k l = cell A k l := by
  unfold cell matAdd
  by_cases hk : k = i
  · subst hk
    have hl : l ≠ j := fun hh => h ⟨rfl, hh⟩
    by_cases hr : k < A.length
    · rw [getD_listModify_eq _ _ _ hr]
      exact getD_listModify_ne _ _ _ hl
    · have hge : A.length ≤ k := Nat.le_of_not_lt hr
      have h1 : (listModify (fun row => listModify (fun c => addE c e) j row) k A).getD k
          ([] : List Expr) = [] :=
        List.getD_eq_default _ _ (by rw [length_listModify]; exact hge)
      have h2 : A.getD k ([] : List Expr) = [] := List.getD_eq_default _ _ hge
      rw [h1, h2]
  · have h1 : (listModify (fun row => listModify (fun c => addE c e) j row) i A).getD k
        ([] : List Expr) = A.getD k [] := getD_listModify_ne _ _ _ hk
    rw [h1]

theorem cell_matAdd_eq {A : Mat} {i j : Nat} {e : Expr}
    (hi : i < A.length) (hj : j < (A.getD i []).length) :
    cell (matAdd A i j e) i j = addE (cell A i j) e := by
  unfold cell matAdd
  rw [getD_listModify_eq _ _ _ hi, getD_listModify_eq _ _ _ hj]

theorem foldl_inv {α β : Type} (P : β → Prop) {f : β → α → β}
    (h : ∀ b a, P b → P (f b a)) :
    ∀ (l : List α) (b : β), P b → P (l.foldl f b) := by
  intro l
  induction l with
  | nil => intro b hb; exact hb
  | cons x xs ih =>
    intro b hb
    rw [List.foldl_cons]
    exact ih (f b x) (h b x hb)

theorem getD_replicate {α : Type} {n k : Nat} {a d : α} :
    (List.replicate n a).getD k d = if k < n then a else d := by
  induction n generalizing k with
  | zero => simp
  | succ m ih =>
    cases k with
    | zero => simp [List.replicate_succ]
    | succ kk =>
      rw [List.replicate_succ, List.getD_cons_succ, ih]
      simp [Nat.succ_lt_succ_iff]

theorem cell_zerosMat (n k l : Nat) : cell (zerosMat n) k l = [] := by
  unfold cell zerosMat
  rw [getD_replicate]
  by_cases h : k < n
  · rw [if_pos h, getD_replicate]
    by_cases h2 : l < n
    · rw [if_pos h2]; rfl
    · rw [if_neg h2]
  · rw [if_neg h]
    rfl

/-! ### Claim C6: diagonal entries of produced transition matrices -/

/-- Counterexample to C6: on the ODE `[-x, x]` (matched tuple `(x, -x)`),
pass 2 finds the negative term (by equality) and the positive term (as a
multiplicative factor) in the same single-term equation `-x`, and records the
self-transition `x` at `(0, 0)`; the full decomposition returns that matrix. -/
theorem C6_diagonal_counterexample :
    (getUnmatchedExpressionVector fxC6).2 = [([tX], [negTerm tX])]
      ∧ cell (odeToPureTransitionSub fxC6 [([tX], [negTerm tX])] (zerosMat 2)).1 0 0 ≠ []
      ∧ cell (odeToPureTransition fxC6 [sS, sI]).1 0 0 ≠ [] := by
  exact ⟨by decide, by decide, by decide⟩

/-- C6 amended: pass 1 (`_singleOriginTransition`) never records a
self-transition — from the all-zero matrix every diagonal entry of its output
is zero, thanks to the guard `possibleOrigin[0] != j`; the exhaustive pass 2
has no such guard and can fill the diagonal (see the counterexample). -/
theorem C6_diagonal_amended (fx : List Expr) (termList : List (Expr × Expr))
    (states : List Nat) (k : Nat) :
    cell (singleOriginTransition fx termList states (zerosMat fx.length)).1 k k = [] := by
  unfold singleOriginTransition
  have base : cell (zerosMat fx.length) k k = [] := cell_zerosMat _ _ _
  refine foldl_inv (fun acc : Mat × List (Expr × Expr) => cell acc.1 k k = []) ?_ termList
    (zerosMat fx.length, []) base
  intro b a hb
  unfold singleOriginStep
  by_cases hlen : (originCandidates states a.1).length = 1
  · rw [if_pos hlen]
    refine foldl_inv (fun B : Mat => cell B k k = []) ?_ fx.enum b.1 hb
    intro B q hB
    by_cases hq : (originCandidates states a.1).headD 0 ≠ q.1
        ∧ hasExpression q.2 a.1 = true
    · rw [if_pos hq]
      rw [cell_matAdd_ne (fun hh => hq.1 (by rw [← hh.1, hh.2]))]
      exact hB
    · rw [if_neg hq]
      exact hB
  · rw [if_neg hlen]
    exact hb

/-! ### Claim C8: orientation of matched tuples -/

theorem add_eq_nil_norms {x y : Expr} (h : addE x y = []) :
    norm x = negE y ∧ norm y = negE x := by
  unfold addE at h
  rw [norm_nil_iff] at h
  constructor
  · unfold negE
    rw [norm_ext_iff]
    intro m
    have := h m
    rw [coeffOf_append] at this
    rw [coeffOf_map_negTerm]
    omega
  · unfold negE
    rw [norm_ext_iff]
    intro m
    have := h m
    rw [coeffOf_append] at this
    rw [coeffOf_map_negTerm]
    omega

/-- C8: every tuple produced by `_transitionListToMatchedTuple` from a
cancelling pair of which exactly one member carries a literal `-1` leaf has
the `-1`-free (positive) term first, and its second component is the algebraic
negation of the first. -/
theorem C8_matched_tuple_orientation (L : List Expr) (a b : Expr)
    (hmem : (a, b) ∈ transitionListToMatchedTuple L)
    (hx : hasNegOneLeaf a ≠ hasNegOneLeaf b) :
    hasNegOneLeaf a = false ∧ hasNegOneLeaf b = true ∧ norm b = negE a := by
  induction L with
  | nil => cases hmem
  | cons x xs ih =>
    rw [transitionListToMatchedTuple] at hmem
    rcases List.mem_append.mp hmem with h | h
    · rcases List.mem_flatten.mp h with ⟨l, hl, hab⟩
      rcases List.mem_map.mp hl with ⟨y, hy, hly⟩
      by_cases hzero : addE x y = []
      · rw [if_pos hzero] at hly
        rw [← hly, List.mem_singleton] at hab
        by_cases hneg : hasNegOneLeaf x = true
        · rw [if_pos hneg] at hab
          have ha : a = y := congrArg Prod.fst hab
          have hb : b = x := congrArg Prod.snd hab
          subst ha
          subst hb
          rw [hneg] at hx ⊢
          refine ⟨?_, rfl, (add_eq_nil_norms hzero).1⟩
          cases hya : hasNegOneLeaf a
          · rfl
          · rw [hya] at hx
            exact absurd rfl hx
        · rw [if_neg hneg] at hab
          have ha : a = x := congrArg Prod.fst hab
          have hb : b = y := congrArg Prod.snd hab
          subst ha
          subst hb
          have hax : hasNegOneLeaf a = false := Bool.eq_false_iff.mpr hneg
          rw [hax] at hx
          refine ⟨hax, ?_, (add_eq_nil_norms hzero).2⟩
          cases hyb : hasNegOneLeaf b
          · rw [hyb] at hx
            exact absurd rfl hx
          · rfl
      · rw [if_neg hzero] at hly
        rw [← hly] at hab
        cases hab
    · exact ih h

/-! ### Claim C5: pass 1 of the origin resolver -/

theorem mem_enum_getD {l : List Expr} {p : Nat × Expr} (h : p ∈ l.enum) :
    p.1 < l.length ∧ l.getD p.1 [] = p.2 := by
  have h2 := List.mem_enum_iff_getElem?.mp h
  rcases List.getElem?_eq_some.mp h2 with ⟨hlt, hget⟩
  refine ⟨hlt, ?_⟩
  rw [List.getD_eq_getElem?_getD, h2]
  rfl

theorem enum_mem_of_lt {l : List Expr} {j : Nat} (h : j < l.length) :
    (j, l.getD j []) ∈ l.enum := by
  apply List.mem_enum_iff_getElem?.mpr
  have h1 : l[j]? = some l[j] := List.getElem?_eq_getElem h
  have h2 : l.getD j [] = l[j] := by
    rw [List.getD_eq_getElem?_getD, h1]
    rfl
  rw [h1, h2]

theorem negE_eq_map (e : Expr) : negE e = (norm e).map negTerm := by
  apply canon_ext (norm_canon (e.map negTerm))
  · constructor
    · exact List.Pairwise.map negTerm (fun a b hab => hab) (norm_canon e).1
    · intro t ht
      rcases List.mem_map.mp ht with ⟨u, hu, hut⟩
      have := (norm_canon e).2 u hu
      rw [← hut]
      refine ⟨?_, this.2⟩
      simp only [negTerm]
      omega
  · intro m
    rw [coeffOf_norm, coeffOf_map_negTerm, coeffOf_map_negTerm, coeffOf_norm]

theorem symInAtoms_matched {t1 t2 : Expr} (h : addE t1 t2 = []) (s : Nat) :
    symInAtoms s t1 = symInAtoms s t2 := by
  have h1 : norm t1 = negE t2 := (add_eq_nil_norms h).1
  unfold symInAtoms
  rw [h1, negE_eq_map, List.any_map]
  rfl

theorem length_matAdd {A : Mat} {i j : Nat} {e : Expr} :
    (matAdd A i j e).length = A.length := length_listModify _ _ _

theorem row_length_matAdd {A : Mat} {i j r : Nat} {e : Expr} :
    ((matAdd A i j e).getD r []).length = (A.getD r []).length := by
  unfold matAdd
  by_cases hr : r = i
  · subst hr
    by_cases hlt : r < A.length
    · rw [getD_listModify_eq _ _ _ hlt, length_listModify]
    · have hge := Nat.le_of_not_lt hlt
      rw [List.getD_eq_default _ _ (by rw [length_listModify]; exact hge),
          List.getD_eq_default _ _ hge]
  · rw [getD_listModify_ne _ _ _ hr]

theorem fold_place_cell (t1 : Expr) (o : Nat) (l : List (Nat × Expr)) (B : Mat)
    (hnodup : (l.map Prod.fst).Nodup)
    (ho : o < B.length)
    (hrow : ∀ p ∈ l, p.1 < (B.getD o []).length) (i j : Nat) :
    cell (l.foldl (fun B2 q =>
        if o ≠ q.1 ∧ hasExpression q.2 t1 = true then matAdd B2 o q.1 t1 else B2) B) i j
      = if i = o ∧ ∃ p ∈ l, p.1 = j ∧ o ≠ j ∧ hasExpression p.2 t1 = true
          then addE (cell B i j) t1 else cell B i j := by
  induction l generalizing B with
  | nil =>
    rw [List.foldl_nil, if_neg]
    intro hh
    rcases hh.2 with ⟨p, hp, _⟩
    cases hp
  | cons q rest ih =>
    rw [List.foldl_cons]
    rw [List.map_cons, List.nodup_cons] at hnodup
    by_cases hguard : o ≠ q.1 ∧ hasExpression q.2 t1 = true
    · rw [if_pos hguard]
      have hB1len : o < (matAdd B o q.1 t1).length := by rw [length_matAdd]; exact ho
      have hB1row : ∀ p ∈ rest, p.1 < ((matAdd B o q.1 t1).getD o []).length := by
        intro p hp
        rw [row_length_matAdd]
        exact hrow p (List.mem_cons_of_mem q hp)
      rw [ih _ hnodup.2 hB1len hB1row]
      by_cases hio : i = o
      · subst hio
        by_cases hrest : ∃ p ∈ rest, p.1 = j ∧ i ≠ j ∧ hasExpression p.2 t1 = true
        · rcases hrest with ⟨p, hp, hpj, hoj, hpt⟩
          rw [if_pos ⟨rfl, ⟨p, hp, hpj, hoj, hpt⟩⟩,
            if_pos ⟨rfl, ⟨p, List.mem_cons_of_mem q hp, hpj, hoj, hpt⟩⟩]
          have hjq : j ≠ q.1 := by
            intro hh
            apply hnodup.1
            rw [← hh, ← hpj]
            exact List.mem_map_of_mem Prod.fst hp
          rw [cell_matAdd_ne (fun hh => hjq hh.2)]
        · rw [if_neg (fun hh => hrest hh.2)]
          by_cases hq : q.1 = j ∧ i ≠ j ∧ hasExpression q.2 t1 = true
          · rw [if_pos ⟨rfl, ⟨q, List.mem_cons_self q rest, hq.1, hq.2.1, hq.2.2⟩⟩]
            have hj : j = q.1 := hq.1.symm
            subst hj
            exact cell_matAdd_eq ho (hrow q (List.mem_cons_self q rest))
          · rw [if_neg]
            · apply cell_matAdd_ne
              intro hh
              apply hq
              refine ⟨hh.2.symm, ?_, hguard.2⟩
              rw [hh.2]
              exact hguard.1
            · intro hh
              rcases hh.2 with ⟨p, hp, h3⟩
              rcases List.mem_cons.mp hp with hpq | hpr
              · subst hpq
                exact hq h3
              · exact hrest ⟨p, hpr, h3⟩
      · rw [if_neg (fun hh => hio hh.1), if_neg (fun hh => hio hh.1)]
        exact cell_matAdd_ne (fun hh => hio hh.1)
    · rw [if_neg hguard]
      rw [ih _ hnodup.2 ho (fun p hp => hrow p (List.mem_cons_of_mem q hp))]
      by_cases hio : i = o
      · subst hio
        by_cases hrest : ∃ p ∈ rest, p.1 = j ∧ i ≠ j ∧ hasExpression p.2 t1 = true
        · rcases hrest with ⟨p, hp, h3⟩
          rw [if_pos ⟨rfl, ⟨p, hp, h3⟩⟩, if_pos ⟨rfl, ⟨p, List.mem_cons_of_mem q hp, h3⟩⟩]
        · rw [if_neg (fun hh => hrest hh.2), if_neg]
          intro hh
          rcases hh.2 with ⟨p, hp, h3⟩
          rcases List.mem_cons.mp hp with hpq | hpr
          · subst hpq
            apply hguard
            constructor
            · rw [h3.1]
              exact h3.2.1
            · exact h3.2.2
          · exact hrest ⟨p, hpr, h3⟩
      · rw [if_neg (fun hh => hio hh.1), if_neg (fun hh => hio hh.1)]

/-- Witness for C8 at the SIR infection pair. -/
theorem C8_matched_tuple_orientation_witness :
    hasNegOneLeaf [tBSI] = false ∧ hasNegOneLeaf [negTerm tBSI] = true
      ∧ norm [negTerm tBSI] = negE [tBSI] :=
  C8_matched_tuple_orientation [[negTerm tBSI], [tBSI]] [tBSI] [negTerm tBSI]
    (by decide) (by decide)

/-- C5: one step of `_singleOriginTransition` on a matched pair `(t1, t2)`
(with `t1 + t2 = 0`): the candidate origins are exactly the states whose
symbol occurs among the algebraic atoms of the negative term `t2`; with zero
or several candidates the pair is deferred to the remainder and the matrix is
unchanged; with a unique candidate `o`, the positive term is added at `(o, j)`
exactly for the equations `j ≠ o` that contain it, and the remainder is
untouched. -/
theorem C5_single_origin_step (fx : List Expr) (states : List Nat) (A : Mat)
    (rem : List (Expr × Expr)) (t1 t2 : Expr) (hmatch : addE t1 t2 = []) :
    (originCandidates states t1
        = (states.enum.filter (fun p => symInAtoms p.2 t2)).map (fun p => p.1))
    ∧ ((originCandidates states t1).length ≠ 1 →
        singleOriginStep fx states (A, rem) (t1, t2) = (A, rem ++ [(t1, t2)]))
    ∧ (∀ o, originCandidates states t1 = [o] → o < A.length →
        (A.getD o []).length = fx.length →
        (singleOriginStep fx states (A, rem) (t1, t2)).2 = rem
        ∧ ∀ i j, cell (singleOriginStep fx states (A, rem) (t1, t2)).1 i j
            = if i = o ∧ j ≠ o ∧ j < fx.length
                  ∧ hasExpression (fx.getD j []) t1 = true
              then addE (cell A i j) t1 else cell A i j) := by
  refine ⟨?_, ?_, ?_⟩
  · unfold originCandidates
    have hcong : ∀ p ∈ states.enum, symInAtoms p.2 t1 = symInAtoms p.2 t2 :=
      fun p _ => symInAtoms_matched hmatch p.2
    rw [List.filter_congr hcong]
  · intro hlen
    unfold singleOriginStep
    simp only []
    rw [if_neg hlen]
  · intro o horig hoA hrow
    unfold singleOriginStep
    simp only []
    rw [horig]
    rw [if_pos (List.length_singleton o)]
    simp only [List.headD_cons]
    refine ⟨trivial, ?_⟩
    intro i j
    rw [fold_place_cell t1 o fx.enum A (List.nodup_enum_map_fst fx) hoA
      (fun p hp => by rw [hrow]; exact (mem_enum_getD hp).1) i j]
    by_cases hcond : i = o ∧ j ≠ o ∧ j < fx.length
        ∧ hasExpression (fx.getD j []) t1 = true
    · rw [if_pos hcond, if_pos]
      exact ⟨hcond.1, ⟨(j, fx.getD j []), enum_mem_of_lt hcond.2.2.1, rfl,
        Ne.symm hcond.2.1, hcond.2.2.2⟩⟩
    · rw [if_neg hcond, if_neg]
      intro hh
      rcases hh.2 with ⟨p, hp, hpj, hoj, hpt⟩
      rcases mem_enum_getD hp with ⟨hlt, hgd⟩
      apply hcond
      refine ⟨hh.1, Ne.symm hoj, ?_, ?_⟩
      · rw [← hpj]; exact hlt
      · rw [← hpj, hgd]; exact hpt

/-- Witness for C5: the SIR recovery pair `(gamma*I, -gamma*I)` has the unique
origin `I`; the step places `gamma*I` at `(I, R)`, leaves `(I, S)` untouched
and defers nothing. -/
theorem C5_single_origin_step_witness :
    (singleOriginStep fxSIR [sS, sI, sR] (zerosMat 3, []) ([tGI], [negTerm tGI])).2 = []
      ∧ cell (singleOriginStep fxSIR [sS, sI, sR] (zerosMat 3, [])
          ([tGI], [negTerm tGI])).1 1 2 = addE (cell (zerosMat 3) 1 2) [tGI]
      ∧ cell (singleOriginStep fxSIR [sS, sI, sR] (zerosMat 3, [])
          ([tGI], [negTerm tGI])).1 1 0 = cell (zerosMat 3) 1 0 := by
  obtain ⟨h1, h2⟩ := (C5_single_origin_step fxSIR [sS, sI, sR] (zerosMat 3) []
    [tGI] [negTerm tGI] (by decide)).2.2 1 (by decide) (by decide) (by decide)
  refine ⟨h1, ?_, ?_⟩
  · rw [h2 1 2, if_pos]
    exact ⟨rfl, by decide, by decide, by decide⟩
  · rw [h2 1 0, if_neg]
    intro hh
    exact absurd hh.2.2.2 (by decide)

/-! ### Claim C4: incidence matrix columns -/

theorem sum_map_add (l : List Nat) (F G : Nat → Int) :
    (l.map (fun p => F p + G p)).sum = (l.map F).sum + (l.map G).sum := by
  induction l with
  | nil => rfl
  | cons x xs ih =>
    rw [List.map_cons, List.map_cons, List.map_cons, List.sum_cons, List.sum_cons,
      List.sum_cons, ih]
    ring

theorem sum_single (n i : Nat) (c : Int) :
    ((List.range n).map (fun p => if p = i then c else 0)).sum
      = if i < n then c else 0 := by
  induction n with
  | zero => simp
  | succ m ih =>
    rw [List.range_succ, List.map_append, List.sum_append, ih]
    by_cases h1 : i < m
    · rw [if_pos h1, if_pos (by omega), List.map_singleton, if_neg (by omega)]
      simp
    · by_cases h2 : m = i
      · rw [if_neg h1, List.map_singleton, if_pos h2, if_pos (by omega)]
        simp
      · rw [if_neg h1, List.map_singleton, if_neg h2, if_neg (by omega)]
        simp

theorem count_single (n i : Nat) (c : Int) (F : Nat → Int)
    (hF : ∀ p, F p = c ↔ p = i) :
    ((List.range n).map F).count c = if i < n then 1 else 0 := by
  induction n with
  | zero => simp
  | succ m ih =>
    rw [List.range_succ, List.map_append, List.count_append, ih, List.map_singleton]
    by_cases h2 : m = i
    · have hFm : F m = c := (hF m).mpr h2
      have hcnt : List.count c [F m] = 1 := by simp [List.count_cons, hFm]
      rw [hcnt]
      split_ifs <;> omega
    · have hne : F m ≠ c := fun hh => h2 ((hF m).mp hh)
      have hcnt : List.count c [F m] = 0 := by simp [List.count_cons, hne]
      rw [hcnt]
      split_ifs <;> omega

/-- Counterexample to C4.  On the SIR system the column of the infection pair
`(beta*S*I, -beta*S*I)` is `[+1, -1, 0]`: the `+1` sits on the row holding the
negative (outgoing) term and the `-1` on the row holding the positive
(incoming) term — the opposite of the claimed placement.  And on `[x, -x, x]`
the single column is `[-1, 0, -1]`: its sum is `-2`, with two `-1` entries and
no `+1`. -/
theorem C4_incidence_counterexample :
    generateDirectedDependencyGraphD fxSIR = [[1, 0], [-1, 1], [0, -1]]
      ∧ generateDirectedDependencyGraphD fxC4 = [[-1], [0], [-1]] := by
  exact ⟨by decide, by decide⟩

/-- C4 amended: if the positive term of the matched tuple in column `k`
appears (in the `_hasExpression` sense) in exactly one equation `i` and the
negative term in exactly one different equation `j`, then column `k` is the
signed indicator with `-1` at row `i` (the positive-term row) and `+1` at row
`j` (the negative-term row): it sums to zero and has exactly one `-1` and one
`+1`. -/
theorem C4_incidence_amended (ode : List Expr) (tList : List (Expr × Expr))
    (k i j : Nat) (t1 t2 : Expr)
    (hklt : k < tList.length)
    (hk : tList.getD k ([], []) = (t1, t2))
    (hij : i ≠ j) (hi : i < ode.length) (hj : j < ode.length)
    (ht1 : ∀ p, p < ode.length → (hasExpression (ode.getD p []) t1 = true ↔ p = i))
    (ht2 : ∀ p, p < ode.length → (hasExpression (ode.getD p []) t2 = true ↔ p = j)) :
    colInt (generateDirectedDependencyGraph ode tList) k
        = (List.range ode.length).map
            (fun p => if p = i then (-1 : Int) else if p = j then 1 else 0)
      ∧ (colInt (generateDirectedDependencyGraph ode tList) k).sum = 0
      ∧ (colInt (generateDirectedDependencyGraph ode tList) k).count (-1) = 1
      ∧ (colInt (generateDirectedDependencyGraph ode tList) k).count 1 = 1 := by
  have hk2 : tList[k] = (t1, t2) := by
    rw [← hk, List.getD_eq_getElem?_getD, List.getElem?_eq_getElem hklt]
    rfl
  have hcol : colInt (generateDirectedDependencyGraph ode tList) k
      = (List.range ode.length).map
          (fun p => if p = i then (-1 : Int) else if p = j then 1 else 0) := by
    unfold colInt generateDirectedDependencyGraph
    rw [List.map_map]
    apply List.ext_getElem
    · rw [List.length_map, List.length_map, List.length_range]
    · intro p hp1 hp2
      have hpn : p < ode.length := by
        rw [List.length_map] at hp1
        exact hp1
      rw [List.getElem_map, List.getElem_map, List.getElem_range]
      have hgd : ode.getD p [] = ode[p] := by
        rw [List.getD_eq_getElem?_getD, List.getElem?_eq_getElem hpn]
        rfl
      simp only [Function.comp]
      have hrow : (tList.map (fun tp =>
            (if hasExpression ode[p] tp.1 then (-1 : Int) else 0)
              + (if hasExpression ode[p] tp.2 then 1 else 0))).getD k 0
          = (if hasExpression ode[p] t1 then (-1 : Int) else 0)
              + (if hasExpression ode[p] t2 then 1 else 0) := by
        rw [List.getD_eq_getElem?_getD, List.getElem?_map,
          List.getElem?_eq_getElem hklt, hk2]
        rfl
      rw [hrow]
      have e1 : hasExpression ode[p] t1 = true ↔ p = i := by
        rw [← hgd]
        exact ht1 p hpn
      have e2 : hasExpression ode[p] t2 = true ↔ p = j := by
        rw [← hgd]
        exact ht2 p hpn
      by_cases hpi : p = i
      · rw [if_pos (e1.mpr hpi), if_pos hpi,
          if_neg (fun hh => absurd (e2.mp hh) (by omega))]
        omega
      · rw [if_neg (fun hh => hpi (e1.mp hh)), if_neg hpi]
        by_cases hpj : p = j
        · rw [if_pos (e2.mpr hpj), if_pos hpj]
          omega
        · rw [if_neg (fun hh => hpj (e2.mp hh)), if_neg hpj]
          omega
  refine ⟨hcol, ?_, ?_, ?_⟩
  · rw [hcol]
    have hfun : ∀ p ∈ List.range ode.length,
        (if p = i then (-1 : Int) else if p = j then 1 else 0)
          = (if p = i then (-1 : Int) else 0) + (if p = j then 1 else 0) := by
      intro p _
      by_cases h1 : p = i
      · rw [if_pos h1, if_pos h1, if_neg (by omega)]
        omega
      · rw [if_neg h1, if_neg h1, zero_add]
    rw [List.map_congr_left hfun, sum_map_add, sum_single, sum_single,
      if_pos hi, if_pos hj]
    omega
  · rw [hcol, count_single ode.length i (-1)
      (fun p => if p = i then (-1 : Int) else if p = j then 1 else 0) ?_, if_pos hi]
    intro p
    simp only []
    by_cases h1 : p = i
    · rw [if_pos h1]
      exact ⟨fun _ => h1, fun _ => rfl⟩
    · rw [if_neg h1]
      by_cases h2 : p = j
      · rw [if_pos h2]
        exact ⟨fun hh => absurd hh (by decide), fun hh => absurd hh h1⟩
      · rw [if_neg h2]
        exact ⟨fun hh => absurd hh (by decide), fun hh => absurd hh h1⟩
  · rw [hcol, count_single ode.length j 1
      (fun p => if p = i then (-1 : Int) else if p = j then 1 else 0) ?_, if_pos hj]
    intro p
    simp only []
    by_cases h1 : p = i
    · rw [if_pos h1]
      refine ⟨fun hh => absurd hh (by decide), fun hh => absurd h1 (by omega)⟩
    · rw [if_neg h1]
      by_cases h2 : p = j
      · rw [if_pos h2]
        exact ⟨fun _ => h2, fun _ => rfl⟩
      · rw [if_neg h2]
        exact ⟨fun hh => absurd hh (by decide), fun hh => absurd hh h2⟩

/-- Witness for C4 amended: the SIR infection column, with the positive term
in row `I = 1` and the negative term in row `S = 0`. -/
theorem C4_incidence_amended_witness :
    colInt (generateDirectedDependencyGraph fxSIR
        (getMatchingExpressionVector fxSIR)) 0
        = (List.range fxSIR.length).map
            (fun p => if p = 1 then (-1 : Int) else if p = 0 then 1 else 0)
      ∧ (colInt (generateDirectedDependencyGraph fxSIR
          (getMatchingExpressionVector fxSIR)) 0).sum = 0
      ∧ (colInt (generateDirectedDependencyGraph fxSIR
          (getMatchingExpressionVector fxSIR)) 0).count (-1) = 1
      ∧ (colInt (generateDirectedDependencyGraph fxSIR
          (getMatchingExpressionVector fxSIR)) 0).count 1 = 1 :=
  C4_incidence_amended fxSIR (getMatchingExpressionVector fxSIR) 0 1 0
    [tBSI] [negTerm tBSI] (by decide) (by decide) (by decide) (by decide) (by decide)
    (by decide) (by decide)

/-! ### Claim C10: `stripBDFromOde` does not mutate its input -/

theorem listModify_id {α : Type} (i : Nat) (l : List α) :
    listModify (fun x => x) i l = l := by
  induction l generalizing i with
  | nil => cases i <;> rfl
  | cons x xs ih =>
    cases i with
    | zero => rfl
    | succ n =>
      simp only [listModify]
      rw [ih]

theorem listModify_comp {α : Type} (f g : α → α) (i : Nat) (l : List α) :
    listModify g i (listModify f i l) = listModify (fun x => g (f x)) i l := by
  induction l generalizing i with
  | nil => cases i <;> rfl
  | cons x xs ih =>
    cases i with
    | zero => rfl
    | succ n =>
      simp only [listModify]
      rw [ih]

theorem heapModify_id (os : List (List Expr)) (r i : Nat) :
    heapModify os r i (fun c => c) = os := by
  unfold heapModify
  have : (fun o => listModify (fun c => c) i o) = fun o : List Expr => o := by
    funext o
    exact listModify_id i o
  rw [this, listModify_id]

theorem heapModify_comp (os : List (List Expr)) (r i : Nat) (f g : Expr → Expr) :
    heapModify (heapModify os r i f) r i g = heapModify os r i (fun c => g (f c)) := by
  unfold heapModify
  rw [listModify_comp]
  congr 1
  funext o
  rw [listModify_comp]

theorem length_heapModify {os : List (List Expr)} {r i : Nat} {f : Expr → Expr} :
    (heapModify os r i f).length = os.length := length_listModify _ _ _

theorem getD_heapModify_ne {os : List (List Expr)} {r i k : Nat} {f : Expr → Expr}
    (h : k ≠ r) : (heapModify os r i f).getD k [] = os.getD k [] :=
  getD_listModify_ne _ _ _ h

theorem row_length_heapModify {os : List (List Expr)} {r i k : Nat} {f : Expr → Expr} :
    ((heapModify os r i f).getD k []).length = (os.getD k []).length := by
  unfold heapModify
  by_cases hk : k = r
  · subst hk
    by_cases hlt : k < os.length
    · rw [getD_listModify_eq _ _ _ hlt, length_listModify]
    · have hge := Nat.le_of_not_lt hlt
      rw [List.getD_eq_default _ _ (by rw [length_listModify]; exact hge),
          List.getD_eq_default _ _ hge]
  · rw [getD_listModify_ne _ _ _ hk]

theorem cell_heapModify_ne {os : List (List Expr)} {r i k l : Nat} {f : Expr → Expr}
    (h : ¬ (k = r ∧ l = i)) : cell (heapModify os r i f) k l = cell os k l := by
  unfold cell heapModify
  by_cases hk : k = r
  · subst hk
    have hl : l ≠ i := fun hh => h ⟨rfl, hh⟩
    by_cases hlt : k < os.length
    · rw [getD_listModify_eq _ _ _ hlt]
      exact getD_listModify_ne _ _ _ hl
    · have hge := Nat.le_of_not_lt hlt
      have h1 : (listModify (fun o => listModify f i o) k os).getD k ([] : List Expr)
          = [] := List.getD_eq_default _ _ (by rw [length_listModify]; exact hge)
      have h2 : os.getD k ([] : List Expr) = [] := List.getD_eq_default _ _ hge
      rw [h1, h2]
  · have h1 : (listModify (fun o => listModify f i o) r os).getD k ([] : List Expr)
        = os.getD k [] := getD_listModify_ne _ _ _ hk
    rw [h1]

theorem cell_heapModify_eq {os : List (List Expr)} {r i : Nat} {f : Expr → Expr}
    (hr : r < os.length) (hi : i < (os.getD r []).length) :
    cell (heapModify os r i f) r i = f (cell os r i) := by
  unfold cell heapModify
  rw [getD_listModify_eq _ _ _ hr, getD_listModify_eq _ _ _ hi]

theorem inner_strip (bd : List Expr) (copyRef idx : Nat) (a : Expr) (os : List (List Expr)) :
    bd.foldl (fun os2 t => if norm t ∈ addArgs a
        then heapModify os2 copyRef idx (fun c => subE c t) else os2) os
      = heapModify os copyRef idx
          (fun c => bd.foldl (fun acc t =>
            if norm t ∈ addArgs a then subE acc t else acc) c) := by
  induction bd generalizing os with
  | nil =>
    rw [List.foldl_nil]
    exact (heapModify_id os copyRef idx).symm
  | cons t ts ih =>
    rw [List.foldl_cons]
    by_cases hc : norm t ∈ addArgs a
    · rw [if_pos hc, ih, heapModify_comp]
      congr 1
      funext c
      rw [List.foldl_cons, if_pos hc]
    · rw [if_neg hc, ih]
      congr 1
      funext c
      rw [List.foldl_cons, if_neg hc]

theorem outer_strip_cell (bd : List Expr) (copyRef : Nat) (l : List (Nat × Expr))
    (os : List (List Expr)) (hnodup : (l.map Prod.fst).Nodup)
    (hr : copyRef < os.length)
    (hrow : ∀ p ∈ l, p.1 < (os.getD copyRef []).length) (idx : Nat) (a : Expr)
    (hmem : (idx, a) ∈ l ∨ ¬ idx ∈ l.map Prod.fst) :
    cell (l.foldl (fun os2 p => bd.foldl (fun os3 t => if norm t ∈ addArgs p.2
        then heapModify os3 copyRef p.1 (fun c => subE c t) else os3) os2) os)
        copyRef idx
      = if (idx, a) ∈ l
        then bd.foldl (fun acc t => if norm t ∈ addArgs a then subE acc t else acc)
          (cell os copyRef idx)
        else cell os copyRef idx := by
  induction l generalizing os with
  | nil =>
    rw [List.foldl_nil, if_neg (by intro hh; cases hh)]
  | cons q rest ih =>
    rw [List.foldl_cons, inner_strip]
    rw [List.map_cons, List.nodup_cons] at hnodup
    have hr2 : copyRef < (heapModify os copyRef q.1 (fun c => bd.foldl (fun acc t =>
        if norm t ∈ addArgs q.2 then subE acc t else acc) c)).length := by
      rw [length_heapModify]
      exact hr
    have hrow2 : ∀ p ∈ rest, p.1 < ((heapModify os copyRef q.1 (fun c =>
        bd.foldl (fun acc t => if norm t ∈ addArgs q.2 then subE acc t else acc) c)).getD
          copyRef []).length := by
      intro p hp
      rw [row_length_heapModify]
      exact hrow p (List.mem_cons_of_mem q hp)
    by_cases hq : (idx, a) = q
    · -- the head writes this cell; the tail never touches it again
      have hidx : idx = q.1 := by rw [← hq]
      have hrest : ¬ idx ∈ rest.map Prod.fst := by
        rw [hidx]
        exact hnodup.1
      have hmem2 : (idx, a) ∈ rest ∨ ¬ idx ∈ rest.map Prod.fst := Or.inr hrest
      rw [ih _ hnodup.2 hr2 hrow2 hmem2]
      rw [if_neg (fun hh => hrest (List.mem_map_of_mem Prod.fst hh)),
        if_pos (List.mem_cons.mpr (Or.inl hq))]
      have ha : a = q.2 := by rw [← hq]
      have hcell : cell (heapModify os copyRef q.1 (fun c => bd.foldl (fun acc t =>
          if norm t ∈ addArgs q.2 then subE acc t else acc) c)) copyRef idx
          = bd.foldl (fun acc t => if norm t ∈ addArgs q.2 then subE acc t else acc)
            (cell os copyRef idx) := by
        rw [hidx]
        exact cell_heapModify_eq hr (hrow q (List.mem_cons_self q rest))
      rw [hcell, ha]
    · -- the head touches a different cell (or same index cannot happen twice)
      by_cases hqidx : idx = q.1
      · -- same index, different pair: then idx is not hit in rest either, and
        -- membership of (idx, a) in the cons fails
        have hrest : ¬ idx ∈ rest.map Prod.fst := by
          rw [hqidx]
          exact hnodup.1
        have hmem2 : (idx, a) ∈ rest ∨ ¬ idx ∈ rest.map Prod.fst := Or.inr hrest
        rw [ih _ hnodup.2 hr2 hrow2 hmem2]
        rw [if_neg (fun hh => hrest (List.mem_map_of_mem Prod.fst hh))]
        rw [if_neg]
        · -- the cell (copyRef, idx) was overwritten by the head... it was:
          -- contradiction: hmem says (idx,a) ∈ cons or idx unmapped, but idx = q.1
          rcases hmem with hm | hm
          · rcases List.mem_cons.mp hm with hm2 | hm2
            · exact absurd hm2 hq
            · exact absurd (List.mem_map_of_mem Prod.fst hm2) hrest
          · exact absurd (by rw [hqidx]; exact List.mem_cons.mpr (Or.inl rfl)) hm
        · intro hh
          rcases List.mem_cons.mp hh with hm2 | hm2
          · exact hq hm2
          · exact hrest (List.mem_map_of_mem Prod.fst hm2)
      · -- different index: the head write does not affect (copyRef, idx)
        have hm2 : (idx, a) ∈ rest ∨ ¬ idx ∈ rest.map Prod.fst := by
          rcases hmem with hm | hm
          · rcases List.mem_cons.mp hm with hm3 | hm3
            · exact absurd hm3 hq
            · exact Or.inl hm3
          · refine Or.inr (fun hh => hm ?_)
            rw [List.map_cons]
            exact List.mem_cons.mpr (Or.inr hh)
        rw [ih _ hnodup.2 hr2 hrow2 hm2]
        have hcell : cell (heapModify os copyRef q.1 (fun c => bd.foldl (fun acc t =>
            if norm t ∈ addArgs q.2 then subE acc t else acc) c)) copyRef idx
            = cell os copyRef idx :=
          cell_heapModify_ne (fun hh => hqidx hh.2)
        rw [hcell]
        by_cases hfin : (idx, a) ∈ rest
        · rw [if_pos hfin, if_pos (List.mem_cons.mpr (Or.inr hfin))]
        · rw [if_neg hfin, if_neg]
          intro hh
          rcases List.mem_cons.mp hh with hm3 | hm3
          · exact hq hm3
          · exact hfin hm3

/-- C10: run on an explicit object store, `stripBDFromOde` never mutates the
input vector object: after the call the entry at the input reference is
exactly what it was before — the subtraction loop writes only to the freshly
allocated copy — and the returned object is the pure `stripBDFromOde` of the
input. -/
theorem C10_strip_bd_no_mutation (objs : List (List Expr)) (fxRef : Nat)
    (bdList : List Expr) (h : fxRef < objs.length) :
    (stripBDHeap objs fxRef bdList).1.getD fxRef [] = objs.getD fxRef []
      ∧ (stripBDHeap objs fxRef bdList).1.getD (stripBDHeap objs fxRef bdList).2 []
          = stripBDFromOde (objs.getD fxRef []) bdList := by
  have hred : stripBDHeap objs fxRef bdList
      = (stripHeapLoop bdList objs.length (objs.getD fxRef [])
            (objs ++ [objs.getD fxRef []])
          ++ [((stripHeapLoop bdList objs.length (objs.getD fxRef [])
              (objs ++ [objs.getD fxRef []])).getD objs.length []).map norm],
         (stripHeapLoop bdList objs.length (objs.getD fxRef [])
            (objs ++ [objs.getD fxRef []])).length) := rfl
  rw [hred]
  have hinv : (stripHeapLoop bdList objs.length (objs.getD fxRef [])
        (objs ++ [objs.getD fxRef []])).length = objs.length + 1
      ∧ (stripHeapLoop bdList objs.length (objs.getD fxRef [])
          (objs ++ [objs.getD fxRef []])).getD fxRef [] = objs.getD fxRef []
      ∧ ((stripHeapLoop bdList objs.length (objs.getD fxRef [])
          (objs ++ [objs.getD fxRef []])).getD objs.length []).length
          = (objs.getD fxRef []).length := by
    unfold stripHeapLoop
    refine foldl_inv (fun os : List (List Expr) =>
        os.length = objs.length + 1
          ∧ os.getD fxRef [] = objs.getD fxRef []
          ∧ (os.getD objs.length []).length = (objs.getD fxRef []).length)
      ?_ _ _ ?_
    · intro os p hos
      rw [inner_strip]
      refine ⟨?_, ?_, ?_⟩
      · rw [length_heapModify]; exact hos.1
      · rw [getD_heapModify_ne (Nat.ne_of_lt h)]; exact hos.2.1
      · rw [row_length_heapModify]; exact hos.2.2
    · refine ⟨?_, ?_, ?_⟩
      · rw [List.length_append]; rfl
      · exact List.getD_append _ _ _ _ h
      · rw [List.getD_append_right _ _ _ _ (le_refl _)]
        simp
  constructor
  · simp only []
    rw [List.getD_append _ _ _ _ (by rw [hinv.1]; omega)]
    exact hinv.2.1
  · simp only []
    rw [List.getD_append_right _ _ _ _ (le_refl _)]
    simp only [Nat.sub_self, List.getD_cons_zero]
    unfold stripBDFromOde
    congr 1
    apply List.ext_getElem
    · rw [hinv.2.2, List.length_map]
    · intro idx h1 h2
      have hidxfx : idx < (objs.getD fxRef []).length := by
        rw [← hinv.2.2]
        exact h1
      rw [List.getElem_map]
      have hconv : (objs.getD fxRef []).getD idx [] = (objs.getD fxRef [])[idx] :=
        List.getD_eq_getElem _ _ hidxfx
      have hcell : cell (stripHeapLoop bdList objs.length (objs.getD fxRef [])
            (objs ++ [objs.getD fxRef []])) objs.length idx
          = ((stripHeapLoop bdList objs.length (objs.getD fxRef [])
            (objs ++ [objs.getD fxRef []])).getD objs.length [])[idx] :=
        List.getD_eq_getElem _ _ h1
      rw [← hcell]
      unfold stripHeapLoop
      rw [outer_strip_cell bdList objs.length (objs.getD fxRef []).enum
        (objs ++ [objs.getD fxRef []]) (List.nodup_enum_map_fst _)
        (by rw [List.length_append, List.length_singleton]; omega)
        ?rowbound idx ((objs.getD fxRef []).getD idx [])
        (Or.inl (enum_mem_of_lt hidxfx))]
      case rowbound =>
        intro p hp
        have hmem := mem_enum_getD hp
        have hrow : (objs ++ [objs.getD fxRef []]).getD objs.length ([] : List Expr)
            = objs.getD fxRef [] := by
          rw [List.getD_append_right _ _ _ _ (le_refl _)]
          simp only [Nat.sub_self, List.getD_cons_zero]
        rw [hrow]
        exact hmem.1
      rw [if_pos (enum_mem_of_lt hidxfx)]
      have hstart : cell (objs ++ [objs.getD fxRef []]) objs.length idx
          = (objs.getD fxRef []).getD idx [] := by
        unfold cell
        rw [List.getD_append_right _ _ _ _ (le_refl _)]
        simp only [Nat.sub_self, List.getD_cons_zero]
      rw [hstart, hconv]

/-- Witness for C10: a concrete two-object store and a birth/death list. -/
theorem C10_strip_bd_no_mutation_witness :
    (stripBDHeap [fxB, fxSIR] 0 [[tMu]]).1.getD 0 [] = [fxB, fxSIR].getD 0 []
      ∧ (stripBDHeap [fxB, fxSIR] 0 [[tMu]]).1.getD
          (stripBDHeap [fxB, fxSIR] 0 [[tMu]]).2 []
          = stripBDFromOde ([fxB, fxSIR].getD 0 []) [[tMu]] :=
  C10_strip_bd_no_mutation [fxB, fxSIR] 0 [[tMu]] (by decide)

/-! ### Claim C2: the round trip `decompose (reconstruct A)`

The analysis proceeds in layers: counting occurrences in the matched list and
the matched-tuple list produced by the quadratic scans, the coefficient
structure of the reconstructed rows, the behaviour of `_hasExpression` on
them, and finally the two placement passes. -/

theorem addE_nil_comm {x y : Expr} (h : addE x y = []) : addE y x = [] := by
  unfold addE at h ⊢
  rw [norm_nil_iff] at h ⊢
  intro m
  have h2 := h m
  rw [coeffOf_append] at h2 ⊢
  omega

theorem addE_single_neg (u : Term) : addE [u] [negTerm u] = [] := by
  unfold addE
  rw [norm_nil_iff]
  intro m
  rw [coeffOf_append, coeffOf_cons, coeffOf_cons]
  simp only [negTerm, coeffOf_nil]
  by_cases h : normMono u.mono = m
  · rw [if_pos h, if_pos h]
    omega
  · rw [if_neg h, if_neg h]
    omega

theorem canon_single {c : Int} {m : Monomial} (hc : c ≠ 0) (hm : MonoCanon m) :
    ExprCanon [⟨c, m⟩] := by
  constructor
  · exact List.pairwise_singleton _ _
  · intro t ht
    have h2 := List.mem_singleton.mp ht
    subst h2
    exact ⟨hc, hm⟩

theorem norm_single {c : Int} {m : Monomial} (hc : c ≠ 0) (hm : MonoCanon m) :
    norm [⟨c, m⟩] = [⟨c, m⟩] := norm_id (canon_single hc hm)

theorem canon_nodup {e : Expr} (he : ExprCanon e) : e.Nodup := by
  apply List.Pairwise.imp ?_ he.1
  intro a b hab hEq
  rw [hEq, cmpMono_refl] at hab
  exact Ordering.noConfusion hab

theorem count_pair_left {a b : Expr} (h : a ≠ b) : List.count a [a, b] = 1 := by
  simp [List.count_cons, h]

theorem count_pair_right {a b : Expr} (h : a ≠ b) : List.count b [a, b] = 1 := by
  have h2 : b ≠ a := fun hh => h hh.symm
  simp [List.count_cons, h2]

theorem count_pair_none {a b x : Expr} (h1 : x ≠ a) (h2 : x ≠ b) :
    List.count x [a, b] = 0 := by
  simp [List.count_cons, h1, h2]

theorem matchBlock_none (z : Expr) (l : List Expr)
    (h : ∀ y ∈ l, ¬ addE z y = []) :
    (l.map (fun y => if addE z y = [] then [z, y] else [])).flatten = [] := by
  induction l with
  | nil => rfl
  | cons w ws ih =>
    rw [List.map_cons, List.flatten_cons, if_neg (h w (List.mem_cons_self w ws)),
      List.nil_append]
    exact ih (fun y hy => h y (List.mem_cons_of_mem w hy))

theorem matchBlock_eq (z y₀ : Expr) (l : List Expr) (hnd : l.Nodup) (hy : y₀ ∈ l)
    (hzy : addE z y₀ = []) (hu : ∀ y ∈ l, addE z y = [] → y = y₀) :
    (l.map (fun y => if addE z y = [] then [z, y] else [])).flatten = [z, y₀] := by
  induction l with
  | nil => cases hy
  | cons w ws ih =>
    rw [List.map_cons, List.flatten_cons]
    rw [List.nodup_cons] at hnd
    by_cases hw : w = y₀
    · subst hw
      rw [if_pos hzy]
      have hnone : (ws.map (fun y => if addE z y = [] then [z, y] else [])).flatten
          = [] := by
        apply matchBlock_none
        intro y hyw hEq
        exact hnd.1 ((hu y (List.mem_cons_of_mem w hyw) hEq) ▸ hyw)
      rw [hnone, List.append_nil]
    · have hyw : y₀ ∈ ws := by
        rcases List.mem_cons.mp hy with h1 | h1
        · exact absurd h1.symm hw
        · exact h1
      have hnw : ¬ addE z w = [] := fun hEq => hw (hu w (List.mem_cons_self w ws) hEq)
      rw [if_neg hnw, List.nil_append]
      exact ih hnd.2 hyw (fun y hyy hEq => hu y (List.mem_cons_of_mem w hyy) hEq)

theorem tupleBlock_none (z : Expr) (l : List Expr)
    (h : ∀ y ∈ l, ¬ addE z y = []) :
    (l.map (fun y => if addE z y = [] then
        [if hasNegOneLeaf z then (y, z) else (z, y)] else [])).flatten = [] := by
  induction l with
  | nil => rfl
  | cons w ws ih =>
    rw [List.map_cons, List.flatten_cons, if_neg (h w (List.mem_cons_self w ws)),
      List.nil_append]
    exact ih (fun y hy => h y (List.mem_cons_of_mem w hy))

theorem tupleBlock_eq (z y₀ : Expr) (l : List Expr) (hnd : l.Nodup) (hy : y₀ ∈ l)
    (hzy : addE z y₀ = []) (hu : ∀ y ∈ l, addE z y = [] → y = y₀) :
    (l.map (fun y => if addE z y = [] then
        [if hasNegOneLeaf z then (y, z) else (z, y)] else [])).flatten
      = [if hasNegOneLeaf z then (y₀, z) else (z, y₀)] := by
  induction l with
  | nil => cases hy
  | cons w ws ih =>
    rw [List.map_cons, List.flatten_cons]
    rw [List.nodup_cons] at hnd
    by_cases hw : w = y₀
    · subst hw
      rw [if_pos hzy]
      have hnone : (ws.map (fun y => if addE z y = [] then
          [if hasNegOneLeaf z then (y, z) else (z, y)] else [])).flatten = [] := by
        apply tupleBlock_none
        intro y hyw hEq
        exact hnd.1 ((hu y (List.mem_cons_of_mem w hyw) hEq) ▸ hyw)
      rw [hnone, List.append_nil]
    · have hyw : y₀ ∈ ws := by
        rcases List.mem_cons.mp hy with h1 | h1
        · exact absurd h1.symm hw
        · exact h1
      have hnw : ¬ addE z w = [] := fun hEq => hw (hu w (List.mem_cons_self w ws) hEq)
      rw [if_neg hnw, List.nil_append]
      exact ih hnd.2 hyw (fun y hyy hEq => hu y (List.mem_cons_of_mem w hyy) hEq)

theorem findMatching_count (L : List Expr) (hnd : L.Nodup)
    (hself : ∀ x ∈ L, ¬ addE x x = [])
    (huniq : ∀ x ∈ L, ∀ y1 ∈ L, ∀ y2 ∈ L,
      addE x y1 = [] → addE x y2 = [] → y1 = y2)
    (x : Expr) :
    (findMatchingExpression L).count x
      = if x ∈ L ∧ ∃ y ∈ L, addE x y = [] then 1 else 0 := by
  induction L with
  | nil =>
    rw [if_neg (fun h => (List.not_mem_nil x) h.1)]
    rfl
  | cons z rest ih =>
    simp only [findMatchingExpression]
    rw [List.count_append]
    rw [List.nodup_cons] at hnd
    have hz_notin := hnd.1
    have hzL : z ∈ z :: rest := List.mem_cons_self z rest
    have ihv := ih hnd.2 (fun a ha => hself a (List.mem_cons_of_mem z ha))
      (fun a ha y1 h1 y2 h2 hA hB => huniq a (List.mem_cons_of_mem z ha) y1
        (List.mem_cons_of_mem z h1) y2 (List.mem_cons_of_mem z h2) hA hB)
    by_cases hp : ∃ y ∈ rest, addE z y = []
    · rcases hp with ⟨y₀, hy₀, hzy₀⟩
      have hy₀L : y₀ ∈ z :: rest := List.mem_cons_of_mem z hy₀
      have huz : ∀ y ∈ rest, addE z y = [] → y = y₀ :=
        fun y hy hEq => huniq z hzL y (List.mem_cons_of_mem z hy) y₀ hy₀L hEq hzy₀
      rw [matchBlock_eq z y₀ rest hnd.2 hy₀ hzy₀ huz]
      have hzy₀ne : z ≠ y₀ := by
        intro h
        rw [← h] at hzy₀
        exact hself z hzL hzy₀
      by_cases hxz : x = z
      · subst hxz
        rw [count_pair_left hzy₀ne, ihv, if_neg (fun h => hz_notin h.1),
          if_pos ⟨hzL, ⟨y₀, hy₀L, hzy₀⟩⟩]
      · by_cases hxy₀ : x = y₀
        · subst hxy₀
          have hnor : ¬ (x ∈ rest ∧ ∃ y ∈ rest, addE x y = []) := by
            intro h
            rcases h.2 with ⟨y, hyr, hEq⟩
            have hyz : y = z := huniq x hy₀L y (List.mem_cons_of_mem z hyr) z hzL
              hEq (addE_nil_comm hzy₀)
            exact hz_notin (hyz ▸ hyr)
          rw [count_pair_right hzy₀ne, ihv, if_neg hnor,
            if_pos ⟨hy₀L, ⟨z, hzL, addE_nil_comm hzy₀⟩⟩]
        · rw [count_pair_none hxz hxy₀, ihv]
          by_cases hxr : x ∈ rest
          · have hiff : (∃ y ∈ rest, addE x y = []) ↔
                (∃ y ∈ z :: rest, addE x y = []) := by
              constructor
              · rintro ⟨y, hy, hEq⟩
                exact ⟨y, List.mem_cons_of_mem z hy, hEq⟩
              · rintro ⟨y, hy, hEq⟩
                rcases List.mem_cons.mp hy with h1 | h1
                · subst h1
                  exact absurd (huz x hxr (addE_nil_comm hEq)) hxy₀
                · exact ⟨y, h1, hEq⟩
            by_cases hex : ∃ y ∈ rest, addE x y = []
            · rw [if_pos ⟨hxr, hex⟩, if_pos ⟨List.mem_cons_of_mem z hxr, hiff.mp hex⟩]
            · rw [if_neg (fun h => hex h.2), if_neg (fun h => hex (hiff.mpr h.2))]
          · rw [if_neg (fun h => hxr h.1), if_neg]
            intro h
            rcases List.mem_cons.mp h.1 with h1 | h1
            · exact hxz h1
            · exact hxr h1
    · push_neg at hp
      rw [matchBlock_none z rest hp, List.count_nil, ihv]
      by_cases hxz : x = z
      · subst hxz
        rw [if_neg (fun h => hz_notin h.1), if_neg]
        intro h
        rcases h.2 with ⟨y, hy, hEq⟩
        rcases List.mem_cons.mp hy with h1 | h1
        · exact hself x hzL (h1 ▸ hEq)
        · exact hp y h1 hEq
      · by_cases hxr : x ∈ rest
        · have hiff : (∃ y ∈ rest, addE x y = []) ↔
              (∃ y ∈ z :: rest, addE x y = []) := by
            constructor
            · rintro ⟨y, hy, hEq⟩
              exact ⟨y, List.mem_cons_of_mem z hy, hEq⟩
            · rintro ⟨y, hy, hEq⟩
              rcases List.mem_cons.mp hy with h1 | h1
              · subst h1
                exact absurd (addE_nil_comm hEq) (hp x hxr)
              · exact ⟨y, h1, hEq⟩
          by_cases hex : ∃ y ∈ rest, addE x y = []
          · rw [if_pos ⟨hxr, hex⟩, if_pos ⟨List.mem_cons_of_mem z hxr, hiff.mp hex⟩]
          · rw [if_neg (fun h => hex h.2), if_neg (fun h => hex (hiff.mpr h.2))]
        · rw [if_neg (fun h => hxr h.1), if_neg]
          intro h
          rcases List.mem_cons.mp h.1 with h1 | h1
          · exact hxz h1
          · exact hxr h1

theorem matchedTuples_count (M : List Expr) (hnd : M.Nodup)
    (hself : ∀ x ∈ M, ¬ addE x x = [])
    (huniq : ∀ x ∈ M, ∀ y1 ∈ M, ∀ y2 ∈ M,
      addE x y1 = [] → addE x y2 = [] → y1 = y2)
    (horient : ∀ x ∈ M, ∀ y ∈ M, addE x y = [] →
      (hasNegOneLeaf x = false ∧ hasNegOneLeaf y = true)
        ∨ (hasNegOneLeaf x = true ∧ hasNegOneLeaf y = false))
    (ab : Expr × Expr) :
    (transitionListToMatchedTuple M).count ab
      = if ab.1 ∈ M ∧ ab.2 ∈ M ∧ addE ab.1 ab.2 = [] ∧ hasNegOneLeaf ab.1 = false
        then 1 else 0 := by
  induction M with
  | nil =>
    rw [if_neg (fun h => (List.not_mem_nil ab.1) h.1)]
    rfl
  | cons z rest ih =>
    simp only [transitionListToMatchedTuple]
    rw [List.count_append]
    rw [List.nodup_cons] at hnd
    have hz_notin := hnd.1
    have hzL : z ∈ z :: rest := List.mem_cons_self z rest
    have ihv := ih hnd.2 (fun a ha => hself a (List.mem_cons_of_mem z ha))
      (fun a ha y1 h1 y2 h2 hA hB => huniq a (List.mem_cons_of_mem z ha) y1
        (List.mem_cons_of_mem z h1) y2 (List.mem_cons_of_mem z h2) hA hB)
      (fun a ha y hy hEq => horient a (List.mem_cons_of_mem z ha) y
        (List.mem_cons_of_mem z hy) hEq)
    by_cases hp : ∃ y ∈ rest, addE z y = []
    · rcases hp with ⟨y₀, hy₀, hzy₀⟩
      have hy₀L : y₀ ∈ z :: rest := List.mem_cons_of_mem z hy₀
      have huz : ∀ y ∈ rest, addE z y = [] → y = y₀ :=
        fun y hy hEq => huniq z hzL y (List.mem_cons_of_mem z hy) y₀ hy₀L hEq hzy₀
      rw [tupleBlock_eq z y₀ rest hnd.2 hy₀ hzy₀ huz]
      have hzy₀ne : z ≠ y₀ := by
        intro h
        rw [← h] at hzy₀
        exact hself z hzL hzy₀
      rcases horient z hzL y₀ hy₀L hzy₀ with hor | hor
      · -- `z` carries no literal -1 leaf: the tuple is `(z, y₀)`
        rw [if_neg (by rw [hor.1]; exact Bool.false_ne_true)]
        by_cases hab : ab = ((z, y₀) : Expr × Expr)
        · subst hab
          have hc1 : List.count ((z, y₀) : Expr × Expr) [(z, y₀)] = 1 := by
            simp
          rw [hc1, ihv, if_neg (fun h => hz_notin h.1),
            if_pos ⟨hzL, hy₀L, hzy₀, hor.1⟩]
        · have hc0 : List.count ab [((z, y₀) : Expr × Expr)] = 0 := by
            simp [List.count_cons, hab]
          have hFR : (ab.1 ∈ z :: rest ∧ ab.2 ∈ z :: rest
                ∧ addE ab.1 ab.2 = [] ∧ hasNegOneLeaf ab.1 = false)
              ↔ (ab.1 ∈ rest ∧ ab.2 ∈ rest
                ∧ addE ab.1 ab.2 = [] ∧ hasNegOneLeaf ab.1 = false) := by
            constructor
            · rintro ⟨h1, h2, h3, h4⟩
              have h1r : ab.1 ∈ rest := by
                rcases List.mem_cons.mp h1 with hz1 | hz1
                · exfalso
                  have h2r : ab.2 ∈ rest := by
                    rcases List.mem_cons.mp h2 with hz2 | hz2
                    · have h3z := h3
                      rw [hz1, hz2] at h3z
                      exact absurd h3z (hself z hzL)
                    · exact hz2
                  have h5 : ab.2 = y₀ := huz ab.2 h2r (hz1 ▸ h3)
                  exact hab (Prod.ext hz1 h5)
                · exact hz1
              have h2r : ab.2 ∈ rest := by
                rcases List.mem_cons.mp h2 with hz2 | hz2
                · exfalso
                  have h6 : addE z ab.1 = [] := addE_nil_comm (hz2 ▸ h3)
                  have h7 : ab.1 = y₀ := huz ab.1 h1r h6
                  rw [h7, hor.2] at h4
                  exact Bool.noConfusion h4
                · exact hz2
              exact ⟨h1r, h2r, h3, h4⟩
            · rintro ⟨h1, h2, h3, h4⟩
              exact ⟨List.mem_cons_of_mem z h1, List.mem_cons_of_mem z h2, h3, h4⟩
          rw [hc0, ihv]
          by_cases hrest : ab.1 ∈ rest ∧ ab.2 ∈ rest
              ∧ addE ab.1 ab.2 = [] ∧ hasNegOneLeaf ab.1 = false
          · rw [if_pos hrest, if_pos (hFR.mpr hrest)]
          · rw [if_neg hrest, if_neg (fun h => hrest (hFR.mp h))]
      · -- `z` carries the literal -1 leaf: the tuple is `(y₀, z)`
        rw [if_pos hor.1]
        by_cases hab : ab = ((y₀, z) : Expr × Expr)
        · subst hab
          have hc1 : List.count ((y₀, z) : Expr × Expr) [(y₀, z)] = 1 := by
            simp
          rw [hc1, ihv, if_neg (fun h => hz_notin h.2.1),
            if_pos ⟨hy₀L, hzL, addE_nil_comm hzy₀, hor.2⟩]
        · have hc0 : List.count ab [((y₀, z) : Expr × Expr)] = 0 := by
            simp [List.count_cons, hab]
          have hFR : (ab.1 ∈ z :: rest ∧ ab.2 ∈ z :: rest
                ∧ addE ab.1 ab.2 = [] ∧ hasNegOneLeaf ab.1 = false)
              ↔ (ab.1 ∈ rest ∧ ab.2 ∈ rest
                ∧ addE ab.1 ab.2 = [] ∧ hasNegOneLeaf ab.1 = false) := by
            constructor
            · rintro ⟨h1, h2, h3, h4⟩
              have h1r : ab.1 ∈ rest := by
                rcases List.mem_cons.mp h1 with hz1 | hz1
                · exfalso
                  rw [hz1, hor.1] at h4
                  exact Bool.noConfusion h4
                · exact hz1
              have h2r : ab.2 ∈ rest := by
                rcases List.mem_cons.mp h2 with hz2 | hz2
                · exfalso
                  have h6 : addE z ab.1 = [] := addE_nil_comm (hz2 ▸ h3)
                  have h7 : ab.1 = y₀ := huz ab.1 h1r h6
                  exact hab (Prod.ext h7 hz2)
                · exact hz2
              exact ⟨h1r, h2r, h3, h4⟩
            · rintro ⟨h1, h2, h3, h4⟩
              exact ⟨List.mem_cons_of_mem z h1, List.mem_cons_of_mem z h2, h3, h4⟩
          rw [hc0, ihv]
          by_cases hrest : ab.1 ∈ rest ∧ ab.2 ∈ rest
              ∧ addE ab.1 ab.2 = [] ∧ hasNegOneLeaf ab.1 = false
          · rw [if_pos hrest, if_pos (hFR.mpr hrest)]
          · rw [if_neg hrest, if_neg (fun h => hrest (hFR.mp h))]
    · push_neg at hp
      rw [tupleBlock_none z rest hp, List.count_nil, ihv]
      have hFR : (ab.1 ∈ z :: rest ∧ ab.2 ∈ z :: rest
            ∧ addE ab.1 ab.2 = [] ∧ hasNegOneLeaf ab.1 = false)
          ↔ (ab.1 ∈ rest ∧ ab.2 ∈ rest
            ∧ addE ab.1 ab.2 = [] ∧ hasNegOneLeaf ab.1 = false) := by
        constructor
        · rintro ⟨h1, h2, h3, h4⟩
          have h1r : ab.1 ∈ rest := by
            rcases List.mem_cons.mp h1 with hz1 | hz1
            · exfalso
              rcases List.mem_cons.mp h2 with hz2 | hz2
              · have h3z := h3
                rw [hz1, hz2] at h3z
                exact absurd h3z (hself z hzL)
              · have h3z := h3
                rw [hz1] at h3z
                exact hp ab.2 hz2 h3z
            · exact hz1
          have h2r : ab.2 ∈ rest := by
            rcases List.mem_cons.mp h2 with hz2 | hz2
            · have h3z := h3
              rw [hz2] at h3z
              exact absurd (addE_nil_comm h3z) (hp ab.1 h1r)
            · exact hz2
          exact ⟨h1r, h2r, h3, h4⟩
        · rintro ⟨h1, h2, h3, h4⟩
          exact ⟨List.mem_cons_of_mem z h1, List.mem_cons_of_mem z h2, h3, h4⟩
      by_cases hrest : ab.1 ∈ rest ∧ ab.2 ∈ rest
          ∧ addE ab.1 ab.2 = [] ∧ hasNegOneLeaf ab.1 = false
      · rw [if_pos hrest, if_pos (hFR.mpr hrest)]
      · rw [if_neg hrest, if_neg (fun h => hrest (hFR.mp h))]

theorem coeffOf_zeroE (m : Monomial) : coeffOf zeroE m = 0 := rfl

theorem coeffOf_foldl_add {β : Type} (l : List β) (F : β → Expr) (init : Expr)
    (m : Monomial) :
    coeffOf (l.foldl (fun acc b => addE acc (F b)) init) m
      = coeffOf init m + (l.map (fun b => coeffOf (F b) m)).sum := by
  induction l generalizing init with
  | nil => rw [List.foldl_nil, List.map_nil, List.sum_nil, add_zero]
  | cons x xs ih =>
    rw [List.foldl_cons, List.map_cons, List.sum_cons, ih, addE_coeff]
    ring

theorem map_eq_range_map {α β : Type} (l : List α) (d : α) (g : α → β) :
    l.map g = (List.range l.length).map (fun p => g (l.getD p d)) := by
  induction l with
  | nil => rfl
  | cons x xs ih =>
    rw [List.map_cons, List.length_cons, List.range_succ_eq_map, List.map_cons,
      List.map_map]
    have htail : xs.map g = (List.range xs.length).map
        ((fun p => g ((x :: xs).getD p d)) ∘ Nat.succ) := by
      rw [ih]
      apply List.map_congr_left
      intro a ha
      rfl
    rw [← htail]
    rfl

theorem sum_map_zero {l : List Nat} {F : Nat → Int} (h : ∀ p ∈ l, F p = 0) :
    (l.map F).sum = 0 := by
  induction l with
  | nil => rfl
  | cons x xs ih =>
    rw [List.map_cons, List.sum_cons, h x (List.mem_cons_self x xs),
      ih (fun p hp => h p (List.mem_cons_of_mem x hp)), add_zero]

theorem coeffOf_colSum (A : Mat) (k : Nat) (m : Monomial) :
    coeffOf (colSum A k) m
      = ((List.range A.length).map (fun p => coeffOf (cell A p k) m)).sum := by
  unfold colSum
  rw [coeffOf_foldl_add A (fun row => row.getD k zeroE) zeroE m, coeffOf_zeroE,
    zero_add, map_eq_range_map A ([] : List Expr)]
  rfl

theorem coeffOf_rowSum (A : Mat) (k : Nat) (m : Monomial) :
    coeffOf (rowSum A k) m
      = ((List.range (A.getD k []).length).map
          (fun q => coeffOf (cell A k q) m)).sum := by
  unfold rowSum
  rw [coeffOf_foldl_add (A.getD k []) (fun c => c) zeroE m, coeffOf_zeroE,
    zero_add, map_eq_range_map (A.getD k []) ([] : Expr)]
  rfl

theorem cell_bounds {A : Mat} {i j : Nat} (h : cell A i j ≠ []) :
    i < A.length ∧ j < (A.getD i []).length := by
  constructor
  · by_contra hlt
    apply h
    unfold cell
    rw [List.getD_eq_default _ _ (Nat.le_of_not_lt hlt)]
    rfl
  · by_contra hlt
    apply h
    unfold cell
    rw [List.getD_eq_default _ _ (Nat.le_of_not_lt hlt)]

theorem cellRow_len {A : Mat} {states : List Nat} (hA : GoodMat A states) {i : Nat}
    (h : i < A.length) : (A.getD i []).length = A.length := by
  have hg : A.getD i [] = A[i] := List.getD_eq_getElem _ _ h
  rw [hg]
  exact hA.1 _ (List.getElem_mem h)

theorem goodDiag {A : Mat} {states : List Nat} (hA : GoodMat A states) (i : Nat) :
    cell A i i = [] := by
  by_cases h : i < A.length
  · exact hA.2.1 i h
  · by_contra hne
    exact absurd (cell_bounds hne).1 h

theorem goodCellShape {A : Mat} {states : List Nat} (hA : GoodMat A states)
    (i j : Nat) :
    cell A i j = [] ∨ ∃ t, cell A i j = [t] ∧ t.coeff = 1 ∧ MonoCanon t.mono
      ∧ 2 ≤ t.mono.length := by
  cases hc : cell A i j with
  | nil => exact Or.inl rfl
  | cons t ts =>
    right
    have hne : cell A i j ≠ [] := by rw [hc]; exact List.cons_ne_nil t ts
    have hb := cell_bounds hne
    have hj : j < A.length := by rw [← cellRow_len hA hb.1]; exact hb.2
    have hcl := hA.2.2.1 i hb.1 j hj
    have hts : ts = [] := by
      have hlen := hcl.1
      rw [hc] at hlen
      cases ts with
      | nil => rfl
      | cons a b =>
        rw [List.length_cons, List.length_cons] at hlen
        omega
    subst hts
    have hprops := hcl.2 t (by rw [hc]; exact List.mem_cons_self t [])
    exact ⟨t, rfl, hprops⟩

theorem goodDistinct {A : Mat} {states : List Nat} (hA : GoodMat A states)
    {i j i2 j2 : Nat} {t t2 : Term}
    (h1 : cell A i j = [t]) (h2 : cell A i2 j2 = [t2]) (hne : i ≠ i2 ∨ j ≠ j2) :
    t.mono ≠ t2.mono := by
  have hb1 := cell_bounds (by rw [h1]; exact List.cons_ne_nil t [])
  have hj1 : j < A.length := by rw [← cellRow_len hA hb1.1]; exact hb1.2
  have hb2 := cell_bounds (by rw [h2]; exact List.cons_ne_nil t2 [])
  have hj2 : j2 < A.length := by rw [← cellRow_len hA hb2.1]; exact hb2.2
  exact hA.2.2.2.1 i hb1.1 j hj1 i2 hb2.1 j2 hj2 hne t
    (by rw [h1]; exact List.mem_cons_self t []) t2
    (by rw [h2]; exact List.mem_cons_self t2 [])

theorem goodOrigin {A : Mat} {states : List Nat} (hA : GoodMat A states)
    {i j : Nat} {t : Term} (h1 : cell A i j = [t]) :
    originCandidates states [t] = [i] ∨ (originCandidates states [t]).length ≠ 1 := by
  have hb := cell_bounds (by rw [h1]; exact List.cons_ne_nil t [])
  have hj : j < A.length := by rw [← cellRow_len hA hb.1]; exact hb.2
  exact hA.2.2.2.2.1 i hb.1 j hj t (by rw [h1]; exact List.mem_cons_self t [])

theorem cellCoeff {A : Mat} {states : List Nat} (hA : GoodMat A states)
    {i j : Nat} {t : Term} (hc : cell A i j = [t]) (p k : Nat) :
    coeffOf (cell A p k) t.mono = if p = i ∧ k = j then 1 else 0 := by
  rcases goodCellShape hA p k with hnil | ⟨u, hu, huc, hum, hul⟩
  · rw [hnil, coeffOf_nil, if_neg]
    intro hh
    rw [hh.1, hh.2] at hnil
    rw [hnil] at hc
    exact List.noConfusion hc
  · rw [hu, coeffOf_cons, coeffOf_nil, add_zero, monoCanon_id hum]
    by_cases hm : u.mono = t.mono
    · have hpk : p = i ∧ k = j := by
        by_contra hh
        have hor : p ≠ i ∨ k ≠ j := by
          by_cases hp : p = i
          · exact Or.inr (fun hk => hh ⟨hp, hk⟩)
          · exact Or.inl hp
        exact goodDistinct hA hu hc hor hm
      rw [if_pos hm, if_pos hpk]
      exact huc
    · rw [if_neg hm, if_neg]
      intro hh
      rw [hh.1, hh.2] at hu
      rw [hu] at hc
      injection hc with hut
      exact hm (by rw [hut])

theorem coeffOf_reconRow {A : Mat} {states : List Nat} (hA : GoodMat A states)
    {i j : Nat} {t : Term} (hc : cell A i j = [t]) (k : Nat) :
    coeffOf (reconRow A k) t.mono
      = (if k = j then 1 else 0) - (if k = i then 1 else 0) := by
  have hb := cell_bounds (by rw [hc]; exact List.cons_ne_nil t [])
  unfold reconRow
  rw [subE_coeff, coeffOf_colSum, coeffOf_rowSum]
  have hcol : ((List.range A.length).map (fun p => coeffOf (cell A p k) t.mono)).sum
      = if k = j then 1 else 0 := by
    by_cases hk : k = j
    · rw [if_pos hk]
      subst hk
      have hmapeq : (List.range A.length).map (fun p => coeffOf (cell A p k) t.mono)
          = (List.range A.length).map (fun p => if p = i then (1 : Int) else 0) := by
        apply List.map_congr_left
        intro p hp
        rw [cellCoeff hA hc p k]
        by_cases hpi : p = i
        · rw [if_pos ⟨hpi, rfl⟩, if_pos hpi]
        · rw [if_neg (fun hh => hpi hh.1), if_neg hpi]
      rw [hmapeq, sum_single, if_pos hb.1]
    · rw [if_neg hk]
      apply sum_map_zero
      intro p hp
      rw [cellCoeff hA hc p k, if_neg (fun hh => hk hh.2)]
  have hrow : ((List.range (A.getD k []).length).map
        (fun q => coeffOf (cell A k q) t.mono)).sum
      = if k = i then 1 else 0 := by
    by_cases hk : k = i
    · rw [if_pos hk]
      subst hk
      have hmapeq : (List.range (A.getD k []).length).map
            (fun q => coeffOf (cell A k q) t.mono)
          = (List.range (A.getD k []).length).map
            (fun q => if q = j then (1 : Int) else 0) := by
        apply List.map_congr_left
        intro q hq
        rw [cellCoeff hA hc k q]
        by_cases hqj : q = j
        · rw [if_pos ⟨rfl, hqj⟩, if_pos hqj]
        · rw [if_neg (fun hh => hqj hh.2), if_neg hqj]
      rw [hmapeq, sum_single, if_pos hb.2]
    · rw [if_neg hk]
      apply sum_map_zero
      intro q hq
      rw [cellCoeff hA hc k q, if_neg (fun hh => hk hh.1)]
  rw [hcol, hrow]

theorem coeffOf_reconRow_unowned {A : Mat} {states : List Nat}
    (hA : GoodMat A states) {m : Monomial}
    (hm : ∀ i j t, cell A i j = [t] → t.mono ≠ m) (k : Nat) :
    coeffOf (reconRow A k) m = 0 := by
  unfold reconRow
  rw [subE_coeff, coeffOf_colSum, coeffOf_rowSum]
  have hcell : ∀ p q, coeffOf (cell A p q) m = 0 := by
    intro p q
    rcases goodCellShape hA p q with hnil | ⟨u, hu, huc, hum, hul⟩
    · rw [hnil, coeffOf_nil]
    · rw [hu, coeffOf_cons, coeffOf_nil, add_zero, monoCanon_id hum,
        if_neg (hm p q u hu)]
  rw [sum_map_zero (fun p hp => hcell p k), sum_map_zero (fun q hq => hcell k q)]
  omega

theorem reconRow_canon (A : Mat) (k : Nat) : ExprCanon (reconRow A k) := by
  unfold reconRow subE
  exact norm_canon _

theorem norm_reconRow (A : Mat) (k : Nat) : norm (reconRow A k) = reconRow A k :=
  norm_id (reconRow_canon A k)

theorem goodCoeff {A : Mat} {states : List Nat} (hA : GoodMat A states)
    {i j : Nat} {t : Term} (hc : cell A i j = [t]) :
    t.coeff = 1 ∧ MonoCanon t.mono ∧ 2 ≤ t.mono.length := by
  rcases goodCellShape hA i j with hnil | ⟨t2, hc2, hp⟩
  · rw [hc] at hnil
    exact List.noConfusion hnil
  · rw [hc] at hc2
    injection hc2 with he
    subst he
    exact hp

theorem cell_off_diag {A : Mat} {states : List Nat} (hA : GoodMat A states)
    {i j : Nat} {t : Term} (hc : cell A i j = [t]) : i ≠ j := by
  intro hh
  rw [hh, goodDiag hA j] at hc
  exact List.noConfusion hc

theorem reconRow_mem_char {A : Mat} {states : List Nat} (hA : GoodMat A states)
    {k : Nat} {u : Term} (hu : u ∈ reconRow A k) :
    ∃ i j t, cell A i j = [t] ∧ i ≠ j ∧ u.mono = t.mono
      ∧ ((k = j ∧ u.coeff = 1) ∨ (k = i ∧ u.coeff = -1)) := by
  have hcanon := reconRow_canon A k
  have hcoeff : coeffOf (reconRow A k) u.mono = u.coeff := canon_coeffOf_mem hcanon hu
  have hne : u.coeff ≠ 0 := (hcanon.2 u hu).1
  have howner : ∃ i j t, cell A i j = [t] ∧ t.mono = u.mono := by
    by_contra hno
    push_neg at hno
    have hz := coeffOf_reconRow_unowned hA hno k
    rw [hcoeff] at hz
    exact hne hz
  rcases howner with ⟨i, j, t, hc, hmono⟩
  have hij : i ≠ j := cell_off_diag hA hc
  have hval := coeffOf_reconRow hA hc k
  rw [hmono, hcoeff] at hval
  refine ⟨i, j, t, hc, hij, hmono.symm, ?_⟩
  by_cases hkj : k = j
  · left
    refine ⟨hkj, ?_⟩
    rw [if_pos hkj, if_neg (fun hh => hij (by rw [← hh]; exact hkj))] at hval
    omega
  · right
    rw [if_neg hkj] at hval
    by_cases hki : k = i
    · refine ⟨hki, ?_⟩
      rw [if_pos hki] at hval
      omega
    · rw [if_neg hki] at hval
      exfalso
      apply hne
      omega

theorem pos_mem_reconRow {A : Mat} {states : List Nat} (hA : GoodMat A states)
    {i j : Nat} {t : Term} (hc : cell A i j = [t]) : t ∈ reconRow A j := by
  have hij : i ≠ j := cell_off_diag hA hc
  have hg := goodCoeff hA hc
  have hval := coeffOf_reconRow hA hc j
  rw [if_pos rfl, if_neg (fun hh => hij hh.symm)] at hval
  have hne1 : coeffOf (reconRow A j) t.mono ≠ 0 := by
    rw [hval]
    omega
  have hmem := canon_coeffOf_ne_zero_mem (reconRow_canon A j) hne1
  have h1 : coeffOf (reconRow A j) t.mono = t.coeff := by
    rw [hval, hg.1]
    omega
  rw [h1] at hmem
  exact hmem

theorem neg_mem_reconRow {A : Mat} {states : List Nat} (hA : GoodMat A states)
    {i j : Nat} {t : Term} (hc : cell A i j = [t]) : negTerm t ∈ reconRow A i := by
  have hij : i ≠ j := cell_off_diag hA hc
  have hg := goodCoeff hA hc
  have hval := coeffOf_reconRow hA hc i
  rw [if_neg hij, if_pos rfl] at hval
  have hne1 : coeffOf (reconRow A i) t.mono ≠ 0 := by
    rw [hval]
    omega
  have hmem := canon_coeffOf_ne_zero_mem (reconRow_canon A i) hne1
  have h1 : coeffOf (reconRow A i) t.mono = -t.coeff := by
    rw [hval, hg.1]
    omega
  rw [h1] at hmem
  exact hmem

theorem reconRow_ne_nil {A : Mat} {states : List Nat} (hA : GoodMat A states)
    {k : Nat} (hk : k < A.length) : reconRow A k ≠ [] := by
  rcases hA.2.2.2.2.2 k hk with ⟨i, hi, hci⟩ | ⟨j, hj, hcj⟩
  · rcases goodCellShape hA i k with hnil | ⟨t, hc, hp⟩
    · exact absurd hnil hci
    · intro hnilrow
      have hval := coeffOf_reconRow hA hc k
      have hik : i ≠ k := cell_off_diag hA hc
      rw [hnilrow, coeffOf_nil, if_pos rfl, if_neg (fun hh => hik hh.symm)] at hval
      omega
  · rcases goodCellShape hA k j with hnil | ⟨t, hc, hp⟩
    · exact absurd hnil hcj
    · intro hnilrow
      have hval := coeffOf_reconRow hA hc k
      have hkj : k ≠ j := cell_off_diag hA hc
      rw [hnilrow, coeffOf_nil, if_neg hkj, if_pos rfl] at hval
      omega

theorem reconRow_no_atoms {A : Mat} {states : List Nat} (hA : GoodMat A states)
    {k : Nat} {u : Term} (hu : u ∈ reconRow A k) : isLeafAtom u = false := by
  rcases reconRow_mem_char hA hu with ⟨i, j, t, hc, hij, hmono, hor⟩
  have hg := goodCoeff hA hc
  have hlen : 2 ≤ u.mono.length := by
    rw [hmono]
    exact hg.2.2
  unfold isLeafAtom
  apply decide_eq_false
  intro hor2
  rcases hor2 with hm | hm
  · rw [hm, List.length_nil] at hlen
    omega
  · have h2 := hm.2
    omega

theorem getExpressions_reconRow {A : Mat} {states : List Nat} (hA : GoodMat A states)
    {k : Nat} (hk : k < A.length) :
    getExpressions (reconRow A k) = (reconRow A k).map (fun u => [u]) := by
  unfold getExpressions
  rw [norm_reconRow]
  cases hsh : reconRow A k with
  | nil => exact absurd hsh (reconRow_ne_nil hA hk)
  | cons u ts =>
    cases ts with
    | nil => rfl
    | cons v ts2 =>
      have hu : isLeafAtom u = false := reconRow_no_atoms hA
        (by rw [hsh]; exact List.mem_cons_self _ _)
      show (if (u :: v :: ts2).all isLeafAtom then [u :: v :: ts2]
          else (u :: v :: ts2).map (fun t => [t])) = (u :: v :: ts2).map (fun t => [t])
      rw [List.all_cons, hu, Bool.false_and, if_neg Bool.false_ne_true]

theorem term_ext {u v : Term} (h1 : u.coeff = v.coeff) (h2 : u.mono = v.mono) :
    u = v := by
  cases u
  cases v
  cases h1
  cases h2
  rfl

theorem addE_single_self_ne {u : Term} (hu : u.coeff ≠ 0) : ¬ addE [u] [u] = [] := by
  intro h
  unfold addE at h
  rw [norm_nil_iff] at h
  have h2 := h (normMono u.mono)
  rw [coeffOf_append, coeffOf_cons, coeffOf_nil, if_pos rfl] at h2
  omega

theorem addE_single_nil {u v : Term} (hu : MonoCanon u.mono) (hv : MonoCanon v.mono)
    (huc : u.coeff ≠ 0) (h : addE [u] [v] = []) : v = negTerm u := by
  unfold addE at h
  rw [norm_nil_iff] at h
  have h2 := h u.mono
  rw [coeffOf_append] at h2
  have ha : coeffOf [u] u.mono = u.coeff := by
    rw [coeffOf_cons, coeffOf_nil, monoCanon_id hu, if_pos rfl, add_zero]
  have hbm : normMono v.mono = v.mono := monoCanon_id hv
  by_cases hvm : v.mono = u.mono
  · have hb : coeffOf [v] u.mono = v.coeff := by
      rw [coeffOf_cons, coeffOf_nil, hbm, if_pos hvm, add_zero]
    rw [ha, hb] at h2
    refine term_ext ?_ ?_
    · simp only [negTerm]
      omega
    · simp only [negTerm]
      exact hvm
  · have hb : coeffOf [v] u.mono = 0 := by
      rw [coeffOf_cons, coeffOf_nil, hbm, if_neg hvm]
      omega
    rw [ha, hb] at h2
    exact absurd (by omega : u.coeff = 0) huc

theorem count_singleton_map (l : List Term) (u : Term) :
    (l.map (fun t => [t])).count [u] = l.count u := by
  induction l with
  | nil => rfl
  | cons t0 rest ih =>
    rw [List.map_cons, List.count_cons, List.count_cons, ih]
    congr 1
    by_cases h : u = t0
    · subst h
      simp
    · have h1 : ¬ ([u] : Expr) = [t0] := by
        intro hh
        injection hh with hh1
        exact h hh1
      simp [h, h1]

theorem nodup_of_count_le_one_e {l : List Expr} (h : ∀ x : Expr, l.count x ≤ 1) :
    l.Nodup := by
  induction l with
  | nil => exact List.nodup_nil
  | cons a rest ih =>
    rw [List.nodup_cons]
    constructor
    · intro hmem
      have h2 := h a
      rw [List.count_cons_self] at h2
      have h3 : 0 < rest.count a := List.count_pos_iff.mpr hmem
      omega
    · apply ih
      intro x
      have h2 := h x
      rw [List.count_cons] at h2
      split_ifs at h2 <;> omega

theorem sum_single_nat (n i c : Nat) :
    ((List.range n).map (fun p => if p = i then c else 0)).sum
      = if i < n then c else 0 := by
  induction n with
  | zero => simp
  | succ m ih =>
    rw [List.range_succ, List.map_append, List.sum_append, ih]
    by_cases h1 : i < m
    · rw [if_pos h1, if_pos (by omega), List.map_singleton, if_neg (by omega)]
      simp
    · by_cases h2 : m = i
      · rw [if_neg h1, List.map_singleton, if_pos h2, if_pos (by omega)]
        simp
      · rw [if_neg h1, List.map_singleton, if_neg h2, if_neg (by omega)]
        simp

theorem pos_mem_iff {A : Mat} {states : List Nat} (hA : GoodMat A states)
    {i j : Nat} {t : Term} (hc : cell A i j = [t]) (k : Nat) :
    t ∈ reconRow A k ↔ k = j := by
  constructor
  · intro hmem
    have hco := canon_coeffOf_mem (reconRow_canon A k) hmem
    have hg := goodCoeff hA hc
    have hval := coeffOf_reconRow hA hc k
    rw [hco, hg.1] at hval
    by_contra hkj
    rw [if_neg hkj] at hval
    by_cases hki : k = i
    · rw [if_pos hki] at hval
      omega
    · rw [if_neg hki] at hval
      omega
  · intro hk
    subst hk
    exact pos_mem_reconRow hA hc

theorem neg_mem_iff {A : Mat} {states : List Nat} (hA : GoodMat A states)
    {i j : Nat} {t : Term} (hc : cell A i j = [t]) (k : Nat) :
    negTerm t ∈ reconRow A k ↔ k = i := by
  constructor
  · intro hmem
    have hco := canon_coeffOf_mem (reconRow_canon A k) hmem
    have hg := goodCoeff hA hc
    have hval := coeffOf_reconRow hA hc k
    simp only [negTerm] at hco
    rw [hco, hg.1] at hval
    by_contra hki
    rw [if_neg hki] at hval
    by_cases hkj : k = j
    · rw [if_pos hkj] at hval
      omega
    · rw [if_neg hkj] at hval
      omega
  · intro hk
    subst hk
    exact neg_mem_reconRow hA hc

theorem TL_eq {A : Mat} {states : List Nat} (hA : GoodMat A states) :
    transList (pureTransitionToOdeAux A)
      = ((List.range A.length).map
          (fun k => (reconRow A k).map (fun u => [u]))).flatten := by
  unfold transList
  have h1 : pureTransitionToOdeAux A
      = (List.range A.length).map (fun k => reconRow A k) := rfl
  rw [h1, List.map_map]
  congr 1
  apply List.map_congr_left
  intro k hk
  exact getExpressions_reconRow hA (List.mem_range.mp hk)

theorem count_TL_pos {A : Mat} {states : List Nat} (hA : GoodMat A states)
    {i j : Nat} {t : Term} (hc : cell A i j = [t]) :
    (transList (pureTransitionToOdeAux A)).count [t] = 1 := by
  have hb := cell_bounds (by rw [hc]; exact List.cons_ne_nil t [])
  have hj : j < A.length := by rw [← cellRow_len hA hb.1]; exact hb.2
  rw [TL_eq hA, List.count_flatten, List.map_map]
  have hmapeq : (List.range A.length).map
        (List.count [t] ∘ fun k => (reconRow A k).map (fun u => [u]))
      = (List.range A.length).map (fun k => if k = j then 1 else 0) := by
    apply List.map_congr_left
    intro k hk
    show ((reconRow A k).map (fun u => [u])).count [t] = if k = j then 1 else 0
    rw [count_singleton_map]
    by_cases hkj : k = j
    · rw [if_pos hkj, hkj]
      exact List.count_eq_one_of_mem (canon_nodup (reconRow_canon A j))
        (pos_mem_reconRow hA hc)
    · rw [if_neg hkj]
      apply List.count_eq_zero_of_not_mem
      intro hmem
      exact hkj ((pos_mem_iff hA hc k).mp hmem)
  rw [hmapeq, sum_single_nat, if_pos hj]

theorem count_TL_neg {A : Mat} {states : List Nat} (hA : GoodMat A states)
    {i j : Nat} {t : Term} (hc : cell A i j = [t]) :
    (transList (pureTransitionToOdeAux A)).count [negTerm t] = 1 := by
  have hb := cell_bounds (by rw [hc]; exact List.cons_ne_nil t [])
  rw [TL_eq hA, List.count_flatten, List.map_map]
  have hmapeq : (List.range A.length).map
        (List.count [negTerm t] ∘ fun k => (reconRow A k).map (fun u => [u]))
      = (List.range A.length).map (fun k => if k = i then 1 else 0) := by
    apply List.map_congr_left
    intro k hk
    show ((reconRow A k).map (fun u => [u])).count [negTerm t]
        = if k = i then 1 else 0
    rw [count_singleton_map]
    by_cases hki : k = i
    · rw [if_pos hki, hki]
      exact List.count_eq_one_of_mem (canon_nodup (reconRow_canon A i))
        (neg_mem_reconRow hA hc)
    · rw [if_neg hki]
      apply List.count_eq_zero_of_not_mem
      intro hmem
      exact hki ((neg_mem_iff hA hc k).mp hmem)
  rw [hmapeq, sum_single_nat, if_pos hb.1]

theorem mem_TL_char {A : Mat} {states : List Nat} (hA : GoodMat A states)
    {x : Expr} (hx : x ∈ transList (pureTransitionToOdeAux A)) :
    ∃ i j t, cell A i j = [t] ∧ (x = [t] ∨ x = [negTerm t]) := by
  rw [TL_eq hA, List.mem_flatten] at hx
  rcases hx with ⟨l, hl, hxl⟩
  rw [List.mem_map] at hl
  rcases hl with ⟨k, hk, hlk⟩
  rw [← hlk, List.mem_map] at hxl
  rcases hxl with ⟨u, hu, hxu⟩
  rcases reconRow_mem_char hA hu with ⟨i, j, t, hc, hij, hmono, hor⟩
  have hg := goodCoeff hA hc
  refine ⟨i, j, t, hc, ?_⟩
  rcases hor with ⟨hkj, hcoe⟩ | ⟨hki, hcoe⟩
  · left
    rw [← hxu]
    have hut : u = t := term_ext (by rw [hcoe, hg.1]) hmono
    rw [hut]
  · right
    rw [← hxu]
    have hut : u = negTerm t := by
      refine term_ext ?_ ?_
      · simp only [negTerm]
        rw [hcoe, hg.1]
      · simp only [negTerm]
        exact hmono
    rw [hut]

theorem TL_elem_props {A : Mat} {states : List Nat} (hA : GoodMat A states)
    {x : Expr} (hx : x ∈ transList (pureTransitionToOdeAux A)) :
    ∃ u, x = [u] ∧ u.coeff ≠ 0 ∧ MonoCanon u.mono := by
  rcases mem_TL_char hA hx with ⟨i, j, t, hc, hor⟩
  have hg := goodCoeff hA hc
  rcases hor with h | h
  · exact ⟨t, h, by rw [hg.1]; omega, hg.2.1⟩
  · refine ⟨negTerm t, h, ?_, ?_⟩
    · simp only [negTerm]
      rw [hg.1]
      omega
    · simp only [negTerm]
      exact hg.2.1

theorem TL_nodup {A : Mat} {states : List Nat} (hA : GoodMat A states) :
    (transList (pureTransitionToOdeAux A)).Nodup := by
  apply nodup_of_count_le_one_e
  intro x
  by_cases hx : x ∈ transList (pureTransitionToOdeAux A)
  · rcases mem_TL_char hA hx with ⟨i, j, t, hc, hor⟩
    rcases hor with h | h
    · rw [h, count_TL_pos hA hc]
    · rw [h, count_TL_neg hA hc]
  · rw [List.count_eq_zero_of_not_mem hx]
    omega

theorem TL_self {A : Mat} {states : List Nat} (hA : GoodMat A states) :
    ∀ x ∈ transList (pureTransitionToOdeAux A), ¬ addE x x = [] := by
  intro x hx
  rcases TL_elem_props hA hx with ⟨u, hxu, huc, hum⟩
  rw [hxu]
  exact addE_single_self_ne huc

theorem TL_uniq {A : Mat} {states : List Nat} (hA : GoodMat A states) :
    ∀ x ∈ transList (pureTransitionToOdeAux A),
    ∀ y1 ∈ transList (pureTransitionToOdeAux A),
    ∀ y2 ∈ transList (pureTransitionToOdeAux A),
      addE x y1 = [] → addE x y2 = [] → y1 = y2 := by
  intro x hx y1 h1 y2 h2 hA1 hA2
  rcases TL_elem_props hA hx with ⟨u, hxu, huc, hum⟩
  rcases TL_elem_props hA h1 with ⟨v1, hy1, hv1c, hv1⟩
  rcases TL_elem_props hA h2 with ⟨v2, hy2, hv2c, hv2⟩
  subst hxu
  subst hy1
  subst hy2
  have e1 : v1 = negTerm u := addE_single_nil hum hv1 huc hA1
  have e2 : v2 = negTerm u := addE_single_nil hum hv2 huc hA2
  rw [e1, e2]

theorem TL_partner {A : Mat} {states : List Nat} (hA : GoodMat A states) :
    ∀ x ∈ transList (pureTransitionToOdeAux A),
      ∃ y ∈ transList (pureTransitionToOdeAux A), addE x y = [] := by
  intro x hx
  rcases mem_TL_char hA hx with ⟨i, j, t, hc, hor⟩
  rcases hor with h | h
  · refine ⟨[negTerm t], ?_, ?_⟩
    · apply List.count_pos_iff.mp
      rw [count_TL_neg hA hc]
      omega
    · rw [h]
      exact addE_single_neg t
  · refine ⟨[t], ?_, ?_⟩
    · apply List.count_pos_iff.mp
      rw [count_TL_pos hA hc]
      omega
    · rw [h]
      exact addE_nil_comm (addE_single_neg t)

theorem negTerm_negTerm (t : Term) : negTerm (negTerm t) = t := by
  cases t
  simp [negTerm]

theorem getLeafs_single {t : Term} (h : norm [t] = [t]) :
    getLeafs [t] = termFactors t := by
  unfold getLeafs
  rw [h]

theorem termFactors_mul {t : Term} (hl : 2 ≤ t.mono.length) :
    termFactors t = (if t.coeff = 1 then [] else [intE t.coeff])
      ++ t.mono.map (fun f => [⟨1, [f]⟩]) := by
  have hmne : ¬ t.mono = [] := by
    intro hh
    rw [hh, List.length_nil] at hl
    omega
  have hc2 : ¬ (t.coeff = 1 ∧ t.mono.length = 1) := by
    intro hh
    omega
  unfold termFactors
  rw [if_neg hmne, if_neg hc2]

theorem hasNegOneLeaf_cell_pos {t : Term} (hc : t.coeff = 1) (hm : MonoCanon t.mono)
    (hl : 2 ≤ t.mono.length) : hasNegOneLeaf [t] = false := by
  have hnt : norm [t] = [t] := norm_id (canon_single (by rw [hc]; omega) hm)
  unfold hasNegOneLeaf
  rw [getLeafs_single hnt, termFactors_mul hl, if_pos hc, List.nil_append]
  apply decide_eq_false
  intro hmem
  rcases List.mem_map.mp hmem with ⟨f, hf, hfe⟩
  have h1 : (⟨1, [f]⟩ : Term) = ⟨-1, []⟩ := by
    injection hfe.symm with h2
    exact h2.symm
  injection h1 with hco
  exact absurd hco (by decide)

theorem hasNegOneLeaf_cell_neg {t : Term} (hc : t.coeff = 1) (hm : MonoCanon t.mono)
    (hl : 2 ≤ t.mono.length) : hasNegOneLeaf [negTerm t] = true := by
  have hcn : (negTerm t).coeff = -1 := by
    simp only [negTerm]
    rw [hc]
  have hmn : (negTerm t).mono = t.mono := rfl
  have hnt : norm [negTerm t] = [negTerm t] :=
    norm_id (canon_single (by rw [hc]; omega) hm)
  unfold hasNegOneLeaf
  rw [getLeafs_single hnt, termFactors_mul (by rw [hmn]; exact hl),
    if_neg (by rw [hcn]; omega)]
  apply decide_eq_true
  apply List.mem_append_left
  rw [hcn]
  exact List.mem_cons_self _ _

theorem TL_orient {A : Mat} {states : List Nat} (hA : GoodMat A states) :
    ∀ x ∈ transList (pureTransitionToOdeAux A),
    ∀ y ∈ transList (pureTransitionToOdeAux A), addE x y = [] →
      (hasNegOneLeaf x = false ∧ hasNegOneLeaf y = true)
        ∨ (hasNegOneLeaf x = true ∧ hasNegOneLeaf y = false) := by
  intro x hx y hy hxy
  rcases mem_TL_char hA hx with ⟨i, j, t, hc, hor⟩
  have hg := goodCoeff hA hc
  rcases TL_elem_props hA hy with ⟨v, hyv, hvc, hvm⟩
  rcases hor with h | h
  · left
    subst hyv
    subst h
    have hveq : v = negTerm t :=
      addE_single_nil hg.2.1 hvm (by rw [hg.1]; omega) hxy
    subst hveq
    exact ⟨hasNegOneLeaf_cell_pos hg.1 hg.2.1 hg.2.2,
      hasNegOneLeaf_cell_neg hg.1 hg.2.1 hg.2.2⟩
  · right
    subst hyv
    subst h
    have hveq : v = negTerm (negTerm t) := by
      apply addE_single_nil _ hvm _ hxy
      · exact hg.2.1
      · simp only [negTerm]
        rw [hg.1]
        omega
    rw [negTerm_negTerm] at hveq
    subst hveq
    exact ⟨hasNegOneLeaf_cell_neg hg.1 hg.2.1 hg.2.2,
      hasNegOneLeaf_cell_pos hg.1 hg.2.1 hg.2.2⟩

theorem count_matched {A : Mat} {states : List Nat} (hA : GoodMat A states)
    (x : Expr) :
    (findMatchingExpression (transList (pureTransitionToOdeAux A))).count x
      = if x ∈ transList (pureTransitionToOdeAux A) then 1 else 0 := by
  rw [findMatching_count _ (TL_nodup hA) (TL_self hA) (TL_uniq hA) x]
  by_cases hx : x ∈ transList (pureTransitionToOdeAux A)
  · rw [if_pos ⟨hx, TL_partner hA x hx⟩, if_pos hx]
  · rw [if_neg (fun h => hx h.1), if_neg hx]

theorem mem_matched_iff {A : Mat} {states : List Nat} (hA : GoodMat A states)
    (x : Expr) :
    x ∈ findMatchingExpression (transList (pureTransitionToOdeAux A))
      ↔ x ∈ transList (pureTransitionToOdeAux A) := by
  constructor
  · intro h
    by_contra hx
    have h1 := List.count_pos_iff.mpr h
    rw [count_matched hA, if_neg hx] at h1
    omega
  · intro h
    apply List.count_pos_iff.mp
    rw [count_matched hA, if_pos h]
    omega

theorem matched_nodup {A : Mat} {states : List Nat} (hA : GoodMat A states) :
    (findMatchingExpression (transList (pureTransitionToOdeAux A))).Nodup := by
  apply nodup_of_count_le_one_e
  intro x
  rw [count_matched hA]
  by_cases hx : x ∈ transList (pureTransitionToOdeAux A)
  · rw [if_pos hx]
  · rw [if_neg hx]
    omega

theorem unmatched_nil {A : Mat} {states : List Nat} (hA : GoodMat A states) :
    (transList (pureTransitionToOdeAux A)).filter
      (fun t => decide
        (¬ t ∈ findMatchingExpression (transList (pureTransitionToOdeAux A)))) = [] := by
  rw [List.filter_eq_nil_iff]
  intro x hx
  rw [decide_eq_true_eq]
  intro hnot
  exact hnot ((mem_matched_iff hA x).mpr hx)

theorem getUnmatched_eq {A : Mat} {states : List Nat} (hA : GoodMat A states) :
    getUnmatchedExpressionVector (pureTransitionToOdeAux A)
      = ([], transitionListToMatchedTuple
          (findMatchingExpression (transList (pureTransitionToOdeAux A)))) := by
  show (dedupFirst ((transList (pureTransitionToOdeAux A)).filter
        (fun t => decide
          (¬ t ∈ findMatchingExpression (transList (pureTransitionToOdeAux A))))),
      transitionListToMatchedTuple
        (findMatchingExpression (transList (pureTransitionToOdeAux A))))
    = ([], transitionListToMatchedTuple
        (findMatchingExpression (transList (pureTransitionToOdeAux A))))
  rw [unmatched_nil hA]
  rfl

theorem count_tuples {A : Mat} {states : List Nat} (hA : GoodMat A states)
    (ab : Expr × Expr) :
    (transitionListToMatchedTuple
        (findMatchingExpression (transList (pureTransitionToOdeAux A)))).count ab
      = if ab.1 ∈ transList (pureTransitionToOdeAux A)
          ∧ ab.2 ∈ transList (pureTransitionToOdeAux A)
          ∧ addE ab.1 ab.2 = [] ∧ hasNegOneLeaf ab.1 = false
        then 1 else 0 := by
  rw [matchedTuples_count _ (matched_nodup hA)
    (fun x hx => TL_self hA x ((mem_matched_iff hA x).mp hx))
    (fun x hx y1 h1 y2 h2 hA1 hA2 => TL_uniq hA x ((mem_matched_iff hA x).mp hx)
      y1 ((mem_matched_iff hA y1).mp h1) y2 ((mem_matched_iff hA y2).mp h2) hA1 hA2)
    (fun x hx y hy hxy => TL_orient hA x ((mem_matched_iff hA x).mp hx)
      y ((mem_matched_iff hA y).mp hy) hxy) ab]
  exact if_congr (and_congr (mem_matched_iff hA ab.1)
    (and_congr (mem_matched_iff hA ab.2) Iff.rfl)) rfl rfl

theorem count_tuples_cell {A : Mat} {states : List Nat} (hA : GoodMat A states)
    {i j : Nat} {t : Term} (hc : cell A i j = [t]) :
    (transitionListToMatchedTuple
        (findMatchingExpression (transList (pureTransitionToOdeAux A)))).count
      ([t], [negTerm t]) = 1 := by
  have hg := goodCoeff hA hc
  have hp : [t] ∈ transList (pureTransitionToOdeAux A) :=
    List.count_pos_iff.mp (by rw [count_TL_pos hA hc]; omega)
  have hn : [negTerm t] ∈ transList (pureTransitionToOdeAux A) :=
    List.count_pos_iff.mp (by rw [count_TL_neg hA hc]; omega)
  rw [count_tuples hA]
  rw [if_pos ⟨hp, hn, addE_single_neg t,
    hasNegOneLeaf_cell_pos hg.1 hg.2.1 hg.2.2⟩]

theorem mem_tuples_char {A : Mat} {states : List Nat} (hA : GoodMat A states)
    {ab : Expr × Expr}
    (hab : ab ∈ transitionListToMatchedTuple
      (findMatchingExpression (transList (pureTransitionToOdeAux A)))) :
    ∃ i j t, cell A i j = [t] ∧ ab = ([t], [negTerm t]) := by
  have hcount := List.count_pos_iff.mpr hab
  rw [count_tuples hA] at hcount
  by_cases hcond : ab.1 ∈ transList (pureTransitionToOdeAux A)
      ∧ ab.2 ∈ transList (pureTransitionToOdeAux A)
      ∧ addE ab.1 ab.2 = [] ∧ hasNegOneLeaf ab.1 = false
  · rcases hcond with ⟨h1, h2, h3, h4⟩
    rcases mem_TL_char hA h1 with ⟨i, j, t, hc, hor⟩
    have hg := goodCoeff hA hc
    rcases TL_elem_props hA h2 with ⟨v, hyv, hvc, hvm⟩
    rcases hor with h | h
    · refine ⟨i, j, t, hc, ?_⟩
      rw [h, hyv] at h3
      have hveq : v = negTerm t :=
        addE_single_nil hg.2.1 hvm (by rw [hg.1]; omega) h3
      rw [hveq] at hyv
      exact Prod.ext h hyv
    · exfalso
      rw [h, hasNegOneLeaf_cell_neg hg.1 hg.2.1 hg.2.2] at h4
      exact Bool.noConfusion h4
  · rw [if_neg hcond] at hcount
    omega

theorem mem_termFactors_short {w : Term} {e : Expr} (he : e ∈ termFactors w) :
    ∃ v : Term, e = [v] ∧ v.mono.length ≤ 1 := by
  unfold termFactors at he
  by_cases h1 : w.mono = []
  · rw [if_pos h1] at he
    cases he
  · rw [if_neg h1] at he
    by_cases h2 : w.coeff = 1 ∧ w.mono.length = 1
    · rw [if_pos h2] at he
      cases hmono : w.mono with
      | nil => exact absurd hmono h1
      | cons f rest =>
        cases rest with
        | nil =>
          obtain ⟨s, k⟩ := f
          rw [hmono] at he
          have he2 : e ∈ (if k = 1 then ([] : List Expr)
              else [symE s, intE (Int.ofNat k)]) := he
          by_cases hk : k = 1
          · rw [if_pos hk] at he2
            cases he2
          · rw [if_neg hk] at he2
            rcases List.mem_cons.mp he2 with h3 | h3
            · exact ⟨⟨1, [(s, 1)]⟩, h3, by simp⟩
            · have h4 : e = intE (Int.ofNat k) := List.mem_singleton.mp h3
              exact ⟨⟨Int.ofNat k, []⟩, h4, by simp⟩
        | cons g rest2 =>
          rw [hmono, List.length_cons, List.length_cons] at h2
          omega
    · rw [if_neg h2] at he
      rcases List.mem_append.mp he with hl | hr
      · by_cases h3 : w.coeff = 1
        · rw [if_pos h3] at hl
          cases hl
        · rw [if_neg h3] at hl
          have h4 : e = intE w.coeff := List.mem_singleton.mp hl
          exact ⟨⟨w.coeff, []⟩, h4, by simp⟩
      · rcases List.mem_map.mp hr with ⟨f, hf, hfe⟩
        exact ⟨⟨1, [f]⟩, hfe.symm, by simp⟩

theorem hasExpr_pos {A : Mat} {states : List Nat} (hA : GoodMat A states)
    {i j : Nat} {t : Term} (hc : cell A i j = [t]) (q : Nat) :
    hasExpression (reconRow A q) [t] = true ↔ q = j := by
  have hg := goodCoeff hA hc
  have hnt : norm [t] = [t] := norm_id (canon_single (by rw [hg.1]; omega) hg.2.1)
  have hco : coeffOf [t] t.mono = t.coeff := by
    rw [coeffOf_cons, coeffOf_nil, monoCanon_id hg.2.1, if_pos rfl, add_zero]
  unfold hasExpression
  rw [decide_eq_true_eq, hnt, norm_reconRow]
  constructor
  · intro hP
    rcases hP with hEq | hMem
    · rw [hEq] at hco
      have hval := coeffOf_reconRow hA hc q
      rw [hco, hg.1] at hval
      by_contra hqj
      rw [if_neg hqj] at hval
      by_cases hqi : q = i
      · rw [if_pos hqi] at hval
        omega
      · rw [if_neg hqi] at hval
        omega
    · unfold addArgs at hMem
      rw [norm_reconRow] at hMem
      cases hsh : reconRow A q with
      | nil =>
        rw [hsh] at hMem
        cases hMem
      | cons u ts =>
        cases ts with
        | nil =>
          rw [hsh] at hMem
          have hMem2 : [t] ∈ termFactors u := hMem
          rcases mem_termFactors_short hMem2 with ⟨v, hv, hvl⟩
          injection hv with hv1 hv2
          have h5 := hg.2.2
          rw [hv1] at h5
          omega
        | cons v ts2 =>
          rw [hsh] at hMem
          have hMem2 : [t] ∈ (u :: v :: ts2).map (fun w => [w]) := hMem
          rcases List.mem_map.mp hMem2 with ⟨w, hw, hwe⟩
          injection hwe with hw1 hw2
          rw [hw1] at hw
          rw [← hsh] at hw
          exact (pos_mem_iff hA hc q).mp hw
  · intro hq2
    subst hq2
    have hmem := pos_mem_reconRow hA hc
    unfold addArgs
    rw [norm_reconRow]
    cases hsh : reconRow A q with
    | nil =>
      rw [hsh] at hmem
      cases hmem
    | cons u ts =>
      cases ts with
      | nil =>
        left
        rw [hsh] at hmem
        have h5 : t = u := List.mem_singleton.mp hmem
        rw [h5]
      | cons v ts2 =>
        right
        apply List.mem_map.mpr
        refine ⟨t, ?_, rfl⟩
        rw [← hsh]
        exact hmem

theorem hasExpr_neg {A : Mat} {states : List Nat} (hA : GoodMat A states)
    {i j : Nat} {t : Term} (hc : cell A i j = [t]) (q : Nat) :
    hasExpression (reconRow A q) [negTerm t] = true ↔ q = i := by
  have hg := goodCoeff hA hc
  have hnt : norm [negTerm t] = [negTerm t] :=
    norm_id (canon_single (by rw [hg.1]; omega) hg.2.1)
  have hco : coeffOf [negTerm t] t.mono = -t.coeff := by
    rw [coeffOf_cons, coeffOf_nil]
    simp only [negTerm]
    rw [monoCanon_id hg.2.1, if_pos rfl, add_zero]
  unfold hasExpression
  rw [decide_eq_true_eq, hnt, norm_reconRow]
  constructor
  · intro hP
    rcases hP with hEq | hMem
    · rw [hEq] at hco
      have hval := coeffOf_reconRow hA hc q
      rw [hco, hg.1] at hval
      by_contra hqi
      rw [if_neg hqi] at hval
      by_cases hqj : q = j
      · rw [if_pos hqj] at hval
        omega
      · rw [if_neg hqj] at hval
        omega
    · unfold addArgs at hMem
      rw [norm_reconRow] at hMem
      cases hsh : reconRow A q with
      | nil =>
        rw [hsh] at hMem
        cases hMem
      | cons u ts =>
        cases ts with
        | nil =>
          rw [hsh] at hMem
          have hMem2 : [negTerm t] ∈ termFactors u := hMem
          rcases mem_termFactors_short hMem2 with ⟨v, hv, hvl⟩
          injection hv with hv1 hv2
          have h5 := hg.2.2
          have h6 : (negTerm t).mono = t.mono := rfl
          rw [← h6, hv1] at h5
          omega
        | cons v ts2 =>
          rw [hsh] at hMem
          have hMem2 : [negTerm t] ∈ (u :: v :: ts2).map (fun w => [w]) := hMem
          rcases List.mem_map.mp hMem2 with ⟨w, hw, hwe⟩
          injection hwe with hw1 hw2
          rw [hw1] at hw
          rw [← hsh] at hw
          exact (neg_mem_iff hA hc q).mp hw
  · intro hq2
    subst hq2
    have hmem := neg_mem_reconRow hA hc
    unfold addArgs
    rw [norm_reconRow]
    cases hsh : reconRow A q with
    | nil =>
      rw [hsh] at hmem
      cases hmem
    | cons u ts =>
      cases ts with
      | nil =>
        left
        rw [hsh] at hmem
        have h5 : negTerm t = u := List.mem_singleton.mp hmem
        rw [h5]
      | cons v ts2 =>
        right
        apply List.mem_map.mpr
        refine ⟨negTerm t, ?_, rfl⟩
        rw [← hsh]
        exact hmem

theorem stripBD_nil (A : Mat) :
    stripBDFromOde (pureTransitionToOdeAux A) [] = pureTransitionToOdeAux A := by
  unfold stripBDFromOde
  have h0 : ∀ l : List Expr, l.map (fun fxi => List.foldl
      (fun acc t => if norm t ∈ addArgs fxi then subE acc t else acc) fxi []) = l := by
    intro l
    induction l with
    | nil => rfl
    | cons x xs ih => rw [List.map_cons, List.foldl_nil, ih]
  rw [h0]
  have h1 : pureTransitionToOdeAux A
      = (List.range A.length).map (fun k => reconRow A k) := rfl
  rw [h1, List.map_map]
  apply List.map_congr_left
  intro k hk
  exact norm_reconRow A k

theorem dims_zeros (n : Nat) : Dims (zerosMat n) n := by
  constructor
  · exact List.length_replicate _ _
  · intro r hr
    unfold zerosMat
    rw [getD_replicate, if_pos hr, List.length_replicate]

theorem dims_matAdd {B : Mat} {n i j : Nat} {e : Expr} (h : Dims B n) :
    Dims (matAdd B i j e) n := by
  constructor
  · rw [length_matAdd]
    exact h.1
  · intro r hr
    rw [row_length_matAdd]
    exact h.2 r hr

theorem list_ext_getD {α : Type} (d : α) : ∀ (l1 l2 : List α),
    l1.length = l2.length →
    (∀ k, k < l1.length → l1.getD k d = l2.getD k d) → l1 = l2 := by
  intro l1
  induction l1 with
  | nil =>
    intro l2 hlen h
    cases l2 with
    | nil => rfl
    | cons y ys =>
      rw [List.length_nil, List.length_cons] at hlen
      omega
  | cons x xs ih =>
    intro l2 hlen h
    cases l2 with
    | nil =>
      rw [List.length_nil, List.length_cons] at hlen
      omega
    | cons y ys =>
      have hx : x = y := h 0 (by rw [List.length_cons]; omega)
      have htail : xs = ys := by
        apply ih
        · rw [List.length_cons, List.length_cons] at hlen
          omega
        · intro k hk
          exact h (k + 1) (by rw [List.length_cons]; omega)
      rw [hx, htail]

theorem mat_ext {B C : Mat} {n : Nat} (hB : Dims B n) (hC : Dims C n)
    (h : ∀ p q, cell B p q = cell C p q) : B = C := by
  apply list_ext_getD ([] : List Expr)
  · rw [hB.1, hC.1]
  · intro p hp
    have hpn : p < n := by rw [← hB.1]; exact hp
    apply list_ext_getD ([] : Expr)
    · rw [hB.2 p hpn, hC.2 p hpn]
    · intro q hq
      exact h p q

theorem fxv_len (A : Mat) : (pureTransitionToOdeAux A).length = A.length := by
  unfold pureTransitionToOdeAux
  rw [List.length_map, List.length_range]

theorem fxv_getD {A : Mat} {k : Nat} (hk : k < A.length) :
    (pureTransitionToOdeAux A).getD k [] = reconRow A k := getD_map_range hk

theorem enum_recon {A : Mat} {pp : Nat × Expr}
    (hpp : pp ∈ (pureTransitionToOdeAux A).enum) :
    pp.2 = reconRow A pp.1 ∧ pp.1 < A.length := by
  have h1 := mem_enum_getD hpp
  have h2 : pp.1 < A.length := by rw [← fxv_len]; exact h1.1
  have h3 : pp.2 = (pureTransitionToOdeAux A).getD pp.1 [] := h1.2.symm
  rw [fxv_getD h2] at h3
  exact ⟨h3, h2⟩

theorem step_dims {A : Mat} {states : List Nat} {n : Nat}
    {B : Mat} (hB : Dims B n) (tp : Expr × Expr) (r : List (Expr × Expr)) :
    Dims (singleOriginStep (pureTransitionToOdeAux A) states (B, r) tp).1 n := by
  unfold singleOriginStep
  by_cases hlen : (originCandidates states tp.1).length = 1
  · rw [if_pos hlen]
    exact foldl_inv (fun B2 => Dims B2 n)
      (fun b a hb2 => by
        by_cases hcnd : (originCandidates states tp.1).headD 0 ≠ a.1
            ∧ hasExpression a.2 tp.1 = true
        · rw [if_pos hcnd]
          exact dims_matAdd hb2
        · rw [if_neg hcnd]
          exact hb2) _ B hB
  · rw [if_neg hlen]
    exact hB

theorem step_cell_alpha {A : Mat} {states : List Nat} (hA : GoodMat A states)
    {i j : Nat} {t : Term} (hc : cell A i j = [t])
    (hor : originCandidates states [t] = [i])
    {B : Mat} (hB : Dims B A.length) (r : List (Expr × Expr)) :
    singleOriginStep (pureTransitionToOdeAux A) states (B, r) ([t], [negTerm t])
      = (matAdd B i j [t], r) := by
  have hb := cell_bounds (by rw [hc]; exact List.cons_ne_nil t [])
  have hj : j < A.length := by rw [← cellRow_len hA hb.1]; exact hb.2
  have hij : i ≠ j := cell_off_diag hA hc
  unfold singleOriginStep
  simp only []
  rw [hor, if_pos (List.length_singleton i)]
  simp only [List.headD_cons]
  have hnodup : (((pureTransitionToOdeAux A).enum).map Prod.fst).Nodup :=
    List.nodup_enum_map_fst _
  have ho : i < B.length := by
    rw [hB.1]
    exact hb.1
  have hrow : ∀ p ∈ (pureTransitionToOdeAux A).enum, p.1 < (B.getD i []).length := by
    intro p hp
    rw [hB.2 i hb.1]
    exact (enum_recon hp).2
  have hfold := fold_place_cell [t] i ((pureTransitionToOdeAux A).enum) B hnodup ho hrow
  have hDfold : Dims (((pureTransitionToOdeAux A).enum).foldl (fun B2 q =>
      if i ≠ q.1 ∧ hasExpression q.2 [t] = true then matAdd B2 i q.1 [t] else B2)
      B) A.length := by
    apply foldl_inv (fun B2 => Dims B2 A.length)
    · intro b a hb2
      by_cases hcnd : i ≠ a.1 ∧ hasExpression a.2 [t] = true
      · rw [if_pos hcnd]
        exact dims_matAdd hb2
      · rw [if_neg hcnd]
        exact hb2
    · exact hB
  have hmemE : ((j, reconRow A j) : Nat × Expr) ∈ (pureTransitionToOdeAux A).enum := by
    have h1 : ((j, (pureTransitionToOdeAux A).getD j []) : Nat × Expr)
        ∈ (pureTransitionToOdeAux A).enum := enum_mem_of_lt (by rw [fxv_len]; exact hj)
    rw [fxv_getD hj] at h1
    exact h1
  have hmat : (((pureTransitionToOdeAux A).enum).foldl (fun B2 q =>
      if i ≠ q.1 ∧ hasExpression q.2 [t] = true then matAdd B2 i q.1 [t] else B2) B)
      = matAdd B i j [t] := by
    apply mat_ext hDfold (dims_matAdd hB)
    intro p q
    rw [hfold p q]
    by_cases hpq : p = i ∧ q = j
    · rcases hpq with ⟨hp, hq⟩
      subst hp
      subst hq
      rw [if_pos ⟨rfl, ⟨(q, reconRow A q), hmemE, rfl, hij,
        (hasExpr_pos hA hc q).mpr rfl⟩⟩]
      rw [cell_matAdd_eq ho (by rw [hB.2 p hb.1]; exact hj)]
    · rw [if_neg, cell_matAdd_ne hpq]
      intro hh
      rcases hh with ⟨hp, pp, hppmem, hppq, hiq, hhas⟩
      apply hpq
      have her := enum_recon hppmem
      rw [her.1] at hhas
      have hppj : pp.1 = j := (hasExpr_pos hA hc pp.1).mp hhas
      exact ⟨hp, by rw [← hppq, hppj]⟩
  rw [hmat]

theorem step_cell_beta {A : Mat} {states : List Nat}
    {t : Term} (hor : ¬ (originCandidates states [t]).length = 1)
    (B : Mat) (r : List (Expr × Expr)) :
    singleOriginStep (pureTransitionToOdeAux A) states (B, r) ([t], [negTerm t])
      = (B, r ++ [([t], [negTerm t])]) := by
  unfold singleOriginStep
  simp only []
  rw [if_neg hor]

open Classical in
theorem pass1_run {A : Mat} {states : List Nat} (hA : GoodMat A states) :
    ∀ (T : List (Expr × Expr)) (B : Mat) (r : List (Expr × Expr)),
      Dims B A.length →
      (∀ ab ∈ T, ∃ i j t, cell A i j = [t] ∧ ab = ([t], [negTerm t])) →
      (∀ i j t, cell A i j = [t] → T.count ([t], [negTerm t]) ≤ 1) →
      Dims (T.foldl (singleOriginStep (pureTransitionToOdeAux A) states) (B, r)).1
          A.length
      ∧ (T.foldl (singleOriginStep (pureTransitionToOdeAux A) states) (B, r)).2
          = r ++ T.filter
              (fun ab => decide (¬ (originCandidates states ab.1).length = 1))
      ∧ ∀ p q,
          cell (T.foldl (singleOriginStep (pureTransitionToOdeAux A) states) (B, r)).1
            p q
          = if ∃ t, cell A p q = [t] ∧ ([t], [negTerm t]) ∈ T
                ∧ (originCandidates states [t]).length = 1
            then addE (cell B p q) (cell A p q) else cell B p q := by
  intro T
  induction T with
  | nil =>
    intro B r hB hmem hcount
    refine ⟨hB, by rw [List.foldl_nil, List.filter_nil, List.append_nil], ?_⟩
    intro p q
    rw [List.foldl_nil, if_neg]
    intro hh
    rcases hh with ⟨t, hct, hmemT, hlen⟩
    cases hmemT
  | cons ab rest ih =>
    intro B r hB hmem hcount
    rcases hmem ab (List.mem_cons_self ab rest) with ⟨i0, j0, t0, hc0, habeq⟩
    subst habeq
    rw [List.foldl_cons]
    have hcount2 : ∀ i j t, cell A i j = [t] → rest.count ([t], [negTerm t]) ≤ 1 := by
      intro i j t hcT
      have h1 := hcount i j t hcT
      rw [List.count_cons] at h1
      split_ifs at h1 <;> omega
    have hmem2 : ∀ ab2 ∈ rest, ∃ i j t, cell A i j = [t] ∧ ab2 = ([t], [negTerm t]) :=
      fun ab2 hab2 => hmem ab2 (List.mem_cons_of_mem _ hab2)
    rcases goodOrigin hA hc0 with hor | hor
    · -- the candidate-origin scan finds exactly the source row: place now
      rw [step_cell_alpha hA hc0 hor hB r]
      have hB2 : Dims (matAdd B i0 j0 [t0]) A.length := dims_matAdd hB
      have ihv := ih (matAdd B i0 j0 [t0]) r hB2 hmem2 hcount2
      refine ⟨ihv.1, ?_, ?_⟩
      · rw [ihv.2.1]
        have hcnd : (decide (¬ (originCandidates states
            ((([t0], [negTerm t0]) : Expr × Expr)).1).length = 1)) = false := by
          apply decide_eq_false
          intro hno
          apply hno
          rw [hor]
          exact List.length_singleton i0
        rw [List.filter_cons, hcnd, if_neg Bool.false_ne_true]
      · intro p q
        rw [ihv.2.2 p q]
        by_cases hpq : p = i0 ∧ q = j0
        · rcases hpq with ⟨hp, hq⟩
          subst hp
          subst hq
          have hb0 := cell_bounds (by rw [hc0]; exact List.cons_ne_nil t0 [])
          have hj0 : q < A.length := by rw [← cellRow_len hA hb0.1]; exact hb0.2
          have hnotin : (([t0], [negTerm t0]) : Expr × Expr) ∉ rest := by
            intro hmem3
            have h1 := hcount p q t0 hc0
            rw [List.count_cons_self] at h1
            have h2 := List.count_pos_iff.mpr hmem3
            omega
          rw [if_neg, if_pos ⟨t0, hc0, List.mem_cons_self _ _,
            by rw [hor]; exact List.length_singleton p⟩,
            cell_matAdd_eq (by rw [hB.1]; exact hb0.1)
              (by rw [hB.2 p hb0.1]; exact hj0), hc0]
          intro hh
          rcases hh with ⟨t, hct, hmemT, hlen⟩
          rw [hc0] at hct
          injection hct with h5
          subst h5
          exact hnotin hmemT
        · have hiff2 : (∃ t, cell A p q = [t] ∧ ([t], [negTerm t]) ∈ rest
                ∧ (originCandidates states [t]).length = 1)
              ↔ (∃ t, cell A p q = [t]
                ∧ ([t], [negTerm t]) ∈ ([t0], [negTerm t0]) :: rest
                ∧ (originCandidates states [t]).length = 1) := by
            constructor
            · rintro ⟨t, h1, h2, h3⟩
              exact ⟨t, h1, List.mem_cons_of_mem _ h2, h3⟩
            · rintro ⟨t, h1, h2, h3⟩
              rcases List.mem_cons.mp h2 with h4 | h4
              · exfalso
                injection h4 with h5 h6
                injection h5 with h7 h8
                subst h7
                have hor2 : p ≠ i0 ∨ q ≠ j0 := by
                  by_cases hp : p = i0
                  · exact Or.inr (fun hq2 => hpq ⟨hp, hq2⟩)
                  · exact Or.inl hp
                exact goodDistinct hA h1 hc0 hor2 rfl
              · exact ⟨t, h1, h4, h3⟩
          rw [cell_matAdd_ne hpq]
          by_cases hcnd2 : ∃ t, cell A p q = [t] ∧ ([t], [negTerm t]) ∈ rest
              ∧ (originCandidates states [t]).length = 1
          · rw [if_pos hcnd2, if_pos (hiff2.mp hcnd2)]
          · rw [if_neg hcnd2, if_neg (fun hh => hcnd2 (hiff2.mpr hh))]
    · -- no unique candidate origin: the tuple is deferred to pass 2
      rw [step_cell_beta hor B r]
      have ihv := ih B (r ++ [([t0], [negTerm t0])]) hB hmem2 hcount2
      refine ⟨ihv.1, ?_, ?_⟩
      · rw [ihv.2.1]
        have hcnd : (decide (¬ (originCandidates states
            ((([t0], [negTerm t0]) : Expr × Expr)).1).length = 1)) = true :=
          decide_eq_true hor
        rw [List.filter_cons, hcnd, if_pos rfl, List.append_assoc,
          List.singleton_append]
      · intro p q
        rw [ihv.2.2 p q]
        have hiff2 : (∃ t, cell A p q = [t] ∧ ([t], [negTerm t]) ∈ rest
              ∧ (originCandidates states [t]).length = 1)
            ↔ (∃ t, cell A p q = [t]
              ∧ ([t], [negTerm t]) ∈ ([t0], [negTerm t0]) :: rest
              ∧ (originCandidates states [t]).length = 1) := by
          constructor
          · rintro ⟨t, h1, h2, h3⟩
            exact ⟨t, h1, List.mem_cons_of_mem _ h2, h3⟩
          · rintro ⟨t, h1, h2, h3⟩
            rcases List.mem_cons.mp h2 with h4 | h4
            · exfalso
              injection h4 with h5 h6
              injection h5 with h7 h8
              subst h7
              exact hor h3
            · exact ⟨t, h1, h4, h3⟩
        by_cases hcnd2 : ∃ t, cell A p q = [t] ∧ ([t], [negTerm t]) ∈ rest
            ∧ (originCandidates states [t]).length = 1
        · rw [if_pos hcnd2, if_pos (hiff2.mp hcnd2)]
        · rw [if_neg hcnd2, if_neg (fun hh => hcnd2 (hiff2.mpr hh))]

theorem inner2_skip (t1 : Expr) (i0 : Nat) :
    ∀ (l : List (Nat × Expr)) (st : Mat × Bool),
    (∀ q ∈ l, ¬ hasExpression q.2 t1 = true) →
    l.foldl (fun st2 q => if hasExpression q.2 t1 then
      (matAdd st2.1 i0 q.1 t1, false) else st2) st = st := by
  intro l
  induction l with
  | nil =>
    intro st h
    rfl
  | cons a rest ih =>
    intro st h
    rw [List.foldl_cons, if_neg (h a (List.mem_cons_self a rest))]
    exact ih st (fun q hq => h q (List.mem_cons_of_mem a hq))

theorem inner2_fold (t1 : Expr) (i0 : Nat) (q0 : Nat × Expr) :
    ∀ (l : List (Nat × Expr)) (st : Mat × Bool),
    (∀ q ∈ l, hasExpression q.2 t1 = true ↔ q = q0) → l.count q0 = 1 →
    l.foldl (fun st2 q => if hasExpression q.2 t1 then
      (matAdd st2.1 i0 q.1 t1, false) else st2) st
      = (matAdd st.1 i0 q0.1 t1, false) := by
  intro l
  induction l with
  | nil =>
    intro st hiff hcount
    exfalso
    rw [List.count_nil] at hcount
    omega
  | cons a rest ih =>
    intro st hiff hcount
    rw [List.foldl_cons]
    by_cases ha : a = q0
    · subst ha
      rw [if_pos ((hiff a (List.mem_cons_self a rest)).mpr rfl)]
      rw [List.count_cons_self] at hcount
      apply inner2_skip
      intro q hq hhas
      have hqa := (hiff q (List.mem_cons_of_mem a hq)).mp hhas
      subst hqa
      have h2 := List.count_pos_iff.mpr hq
      omega
    · have hnot : ¬ hasExpression a.2 t1 = true := by
        intro hhas
        exact ha ((hiff a (List.mem_cons_self a rest)).mp hhas)
      rw [if_neg hnot]
      apply ih
      · intro q hq
        exact hiff q (List.mem_cons_of_mem a hq)
      · rw [List.count_cons] at hcount
        split_ifs at hcount with hqa
        · exact absurd (eq_of_beq hqa) ha
        · omega

theorem outer2_skip (fx2 : List Expr) (t1 t2 : Expr) :
    ∀ (l : List (Nat × Expr)) (st : Mat × Bool),
    (∀ p ∈ l, ¬ hasExpression p.2 t2 = true) →
    l.foldl (fun st p => if hasExpression p.2 t2 then
        fx2.enum.foldl (fun st2 q => if hasExpression q.2 t1 then
          (matAdd st2.1 p.1 q.1 t1, false) else st2) st
      else st) st = st := by
  intro l
  induction l with
  | nil =>
    intro st h
    rfl
  | cons a rest ih =>
    intro st h
    rw [List.foldl_cons, if_neg (h a (List.mem_cons_self a rest))]
    exact ih st (fun p hp => h p (List.mem_cons_of_mem a hp))

theorem outer2_fold (fx2 : List Expr) (t1 t2 : Expr) (j0v : Nat) (p0 : Nat × Expr)
    (hinner : ∀ st : Mat × Bool,
      fx2.enum.foldl (fun st2 q => if hasExpression q.2 t1 then
        (matAdd st2.1 p0.1 q.1 t1, false) else st2) st
        = (matAdd st.1 p0.1 j0v t1, false)) :
    ∀ (l : List (Nat × Expr)) (st : Mat × Bool),
    (∀ p ∈ l, hasExpression p.2 t2 = true ↔ p = p0) → l.count p0 = 1 →
    l.foldl (fun st p => if hasExpression p.2 t2 then
        fx2.enum.foldl (fun st2 q => if hasExpression q.2 t1 then
          (matAdd st2.1 p.1 q.1 t1, false) else st2) st
      else st) st = (matAdd st.1 p0.1 j0v t1, false) := by
  intro l
  induction l with
  | nil =>
    intro st hiff hcount
    exfalso
    rw [List.count_nil] at hcount
    omega
  | cons a rest ih =>
    intro st hiff hcount
    rw [List.foldl_cons]
    by_cases ha : a = p0
    · subst ha
      rw [if_pos ((hiff a (List.mem_cons_self a rest)).mpr rfl), hinner st]
      rw [List.count_cons_self] at hcount
      apply outer2_skip
      intro p hp hhas
      have hpa := (hiff p (List.mem_cons_of_mem a hp)).mp hhas
      subst hpa
      have h2 := List.count_pos_iff.mpr hp
      omega
    · have hnot : ¬ hasExpression a.2 t2 = true := by
        intro hhas
        exact ha ((hiff a (List.mem_cons_self a rest)).mp hhas)
      rw [if_neg hnot]
      apply ih
      · intro p hp
        exact hiff p (List.mem_cons_of_mem a hp)
      · rw [List.count_cons] at hcount
        split_ifs at hcount with hqa
        · exact absurd (eq_of_beq hqa) ha
        · omega

theorem count_eq_one_of_mem_p : ∀ {l : List (Nat × Expr)}, l.Nodup →
    ∀ {x : Nat × Expr}, x ∈ l → l.count x = 1 := by
  intro l
  induction l with
  | nil =>
    intro hnd x hx
    cases hx
  | cons a rest ih =>
    intro hnd x hx
    rw [List.nodup_cons] at hnd
    rcases List.mem_cons.mp hx with h | h
    · subst h
      rw [List.count_cons_self, List.count_eq_zero_of_not_mem hnd.1]
    · rw [List.count_cons, ih hnd.2 h]
      split_ifs with hxa
      · exact absurd (eq_of_beq hxa) (by
          intro hh
          rw [← hh] at h
          exact hnd.1 h)
      · omega

theorem enum_count_one {A : Mat} {k : Nat} (hk : k < A.length) :
    ((pureTransitionToOdeAux A).enum).count (k, reconRow A k) = 1 := by
  have hmemE : ((k, reconRow A k) : Nat × Expr) ∈ (pureTransitionToOdeAux A).enum := by
    have h1 : ((k, (pureTransitionToOdeAux A).getD k []) : Nat × Expr)
        ∈ (pureTransitionToOdeAux A).enum := enum_mem_of_lt (by rw [fxv_len]; exact hk)
    rw [fxv_getD hk] at h1
    exact h1
  have hnd : ((pureTransitionToOdeAux A).enum).Nodup :=
    (List.nodup_enum_map_fst _).of_map
  exact count_eq_one_of_mem_p hnd hmemE

theorem step2_cell {A : Mat} {states : List Nat} (hA : GoodMat A states)
    {i j : Nat} {t : Term} (hc : cell A i j = [t]) (B : Mat)
    (rm : List (Expr × Expr)) :
    pureTransitionStep (pureTransitionToOdeAux A) (B, rm) ([t], [negTerm t])
      = (matAdd B i j [t], rm) := by
  have hb := cell_bounds (by rw [hc]; exact List.cons_ne_nil t [])
  have hj : j < A.length := by rw [← cellRow_len hA hb.1]; exact hb.2
  have hiff1 : ∀ q ∈ (pureTransitionToOdeAux A).enum,
      hasExpression q.2 [t] = true ↔ q = ((j, reconRow A j) : Nat × Expr) := by
    intro q hq
    have her := enum_recon hq
    constructor
    · intro hhas
      rw [her.1] at hhas
      have hqj := (hasExpr_pos hA hc q.1).mp hhas
      refine Prod.ext hqj ?_
      rw [her.1, hqj]
    · intro hqe
      rw [her.1]
      apply (hasExpr_pos hA hc q.1).mpr
      rw [hqe]
  have hiff2 : ∀ p ∈ (pureTransitionToOdeAux A).enum,
      hasExpression p.2 [negTerm t] = true ↔ p = ((i, reconRow A i) : Nat × Expr) := by
    intro p hp
    have her := enum_recon hp
    constructor
    · intro hhas
      rw [her.1] at hhas
      have hpi := (hasExpr_neg hA hc p.1).mp hhas
      refine Prod.ext hpi ?_
      rw [her.1, hpi]
    · intro hpe
      rw [her.1]
      apply (hasExpr_neg hA hc p.1).mpr
      rw [hpe]
  have hinner : ∀ st : Mat × Bool,
      ((pureTransitionToOdeAux A).enum).foldl (fun st2 q =>
        if hasExpression q.2 [t] then (matAdd st2.1 i q.1 [t], false) else st2) st
        = (matAdd st.1 i j [t], false) := by
    intro st
    exact inner2_fold [t] i (j, reconRow A j) _ st hiff1 (enum_count_one hj)
  have houter := outer2_fold (pureTransitionToOdeAux A) [t] [negTerm t] j
    ((i, reconRow A i) : Nat × Expr) hinner ((pureTransitionToOdeAux A).enum)
    ((B, true) : Mat × Bool) hiff2 (enum_count_one hb.1)
  unfold pureTransitionStep
  simp only []
  rw [houter]
  rfl

theorem count_filter_le_p (p : Expr × Expr → Bool) :
    ∀ (l : List (Expr × Expr)) (x : Expr × Expr),
      (l.filter p).count x ≤ l.count x := by
  intro l
  induction l with
  | nil =>
    intro x
    exact Nat.le_refl _
  | cons a rest ih =>
    intro x
    rw [List.filter_cons]
    by_cases hpa : p a = true
    · rw [if_pos hpa, List.count_cons, List.count_cons]
      have h2 := ih x
      split_ifs <;> omega
    · rw [if_neg hpa, List.count_cons]
      have h2 := ih x
      split_ifs <;> omega

open Classical in
theorem pass2_run {A : Mat} {states : List Nat} (hA : GoodMat A states) :
    ∀ (T : List (Expr × Expr)) (B : Mat) (r : List (Expr × Expr)),
      Dims B A.length →
      (∀ ab ∈ T, ∃ i j t, cell A i j = [t] ∧ ab = ([t], [negTerm t])) →
      (∀ i j t, cell A i j = [t] → T.count ([t], [negTerm t]) ≤ 1) →
      Dims (T.foldl (pureTransitionStep (pureTransitionToOdeAux A)) (B, r)).1 A.length
      ∧ (T.foldl (pureTransitionStep (pureTransitionToOdeAux A)) (B, r)).2 = r
      ∧ ∀ p q,
          cell (T.foldl (pureTransitionStep (pureTransitionToOdeAux A)) (B, r)).1 p q
          = if ∃ t, cell A p q = [t] ∧ ([t], [negTerm t]) ∈ T
            then addE (cell B p q) (cell A p q) else cell B p q := by
  intro T
  induction T with
  | nil =>
    intro B r hB hmem hcount
    refine ⟨hB, rfl, ?_⟩
    intro p q
    rw [List.foldl_nil, if_neg]
    intro hh
    rcases hh with ⟨t, hct, hmemT⟩
    cases hmemT
  | cons ab rest ih =>
    intro B r hB hmem hcount
    rcases hmem ab (List.mem_cons_self ab rest) with ⟨i0, j0, t0, hc0, habeq⟩
    subst habeq
    rw [List.foldl_cons, step2_cell hA hc0 B r]
    have hcount2 : ∀ i j t, cell A i j = [t] → rest.count ([t], [negTerm t]) ≤ 1 := by
      intro i j t hcT
      have h1 := hcount i j t hcT
      rw [List.count_cons] at h1
      split_ifs at h1 <;> omega
    have hmem2 : ∀ ab2 ∈ rest, ∃ i j t, cell A i j = [t] ∧ ab2 = ([t], [negTerm t]) :=
      fun ab2 hab2 => hmem ab2 (List.mem_cons_of_mem _ hab2)
    have ihv := ih (matAdd B i0 j0 [t0]) r (dims_matAdd hB) hmem2 hcount2
    refine ⟨ihv.1, ihv.2.1, ?_⟩
    intro p q
    rw [ihv.2.2 p q]
    by_cases hpq : p = i0 ∧ q = j0
    · rcases hpq with ⟨hp, hq⟩
      subst hp
      subst hq
      have hb0 := cell_bounds (by rw [hc0]; exact List.cons_ne_nil t0 [])
      have hj0 : q < A.length := by rw [← cellRow_len hA hb0.1]; exact hb0.2
      have hnotin : (([t0], [negTerm t0]) : Expr × Expr) ∉ rest := by
        intro hmem3
        have h1 := hcount p q t0 hc0
        rw [List.count_cons_self] at h1
        have h2 := List.count_pos_iff.mpr hmem3
        omega
      rw [if_neg, if_pos ⟨t0, hc0, List.mem_cons_self _ _⟩,
        cell_matAdd_eq (by rw [hB.1]; exact hb0.1) (by rw [hB.2 p hb0.1]; exact hj0),
        hc0]
      intro hh
      rcases hh with ⟨t, hct, hmemT⟩
      rw [hc0] at hct
      injection hct with h5
      subst h5
      exact hnotin hmemT
    · have hiff2 : (∃ t, cell A p q = [t] ∧ ([t], [negTerm t]) ∈ rest)
          ↔ (∃ t, cell A p q = [t]
            ∧ ([t], [negTerm t]) ∈ ([t0], [negTerm t0]) :: rest) := by
        constructor
        · rintro ⟨t, h1, h2⟩
          exact ⟨t, h1, List.mem_cons_of_mem _ h2⟩
        · rintro ⟨t, h1, h2⟩
          rcases List.mem_cons.mp h2 with h4 | h4
          · exfalso
            injection h4 with h5 h6
            injection h5 with h7 h8
            subst h7
            have hor2 : p ≠ i0 ∨ q ≠ j0 := by
              by_cases hp : p = i0
              · exact Or.inr (fun hq2 => hpq ⟨hp, hq2⟩)
              · exact Or.inl hp
            exact goodDistinct hA h1 hc0 hor2 rfl
          · exact ⟨t, h1, h4⟩
      rw [cell_matAdd_ne hpq]
      by_cases hcnd2 : ∃ t, cell A p q = [t] ∧ ([t], [negTerm t]) ∈ rest
      · rw [if_pos hcnd2, if_pos (hiff2.mp hcnd2)]
      · rw [if_neg hcnd2, if_neg (fun hh => hcnd2 (hiff2.mpr hh))]

theorem decomposeStage_eval {A : Mat} {states : List Nat} (hA : GoodMat A states) :
    decomposeStage (pureTransitionToOdeAux A) states
      = (pureTransitionToOdeAux A, (A, [])) := by
  have hDA : Dims A A.length := ⟨rfl, fun r hr => cellRow_len hA hr⟩
  have hTmem : ∀ ab ∈ transitionListToMatchedTuple (findMatchingExpression
      (transList (pureTransitionToOdeAux A))),
      ∃ i j t, cell A i j = [t] ∧ ab = ([t], [negTerm t]) :=
    fun ab hab => mem_tuples_char hA hab
  have hTcount : ∀ i j t, cell A i j = [t] →
      (transitionListToMatchedTuple (findMatchingExpression
        (transList (pureTransitionToOdeAux A)))).count ([t], [negTerm t]) ≤ 1 :=
    fun i j t hc => le_of_eq (count_tuples_cell hA hc)
  have hp1 := pass1_run hA (transitionListToMatchedTuple (findMatchingExpression
      (transList (pureTransitionToOdeAux A)))) (zerosMat A.length) []
    (dims_zeros A.length) hTmem hTcount
  unfold decomposeStage
  simp only []
  rw [getUnmatched_eq hA]
  simp only []
  rw [stripBD_nil A]
  unfold singleOriginTransition odeToPureTransitionSub
  rw [fxv_len]
  refine Prod.ext rfl ?_
  have hβmem : ∀ ab ∈ ((transitionListToMatchedTuple (findMatchingExpression
      (transList (pureTransitionToOdeAux A)))).foldl
        (singleOriginStep (pureTransitionToOdeAux A) states)
        (zerosMat A.length, [])).2,
      ∃ i j t, cell A i j = [t] ∧ ab = ([t], [negTerm t]) := by
    intro ab hab
    rw [hp1.2.1, List.nil_append] at hab
    exact hTmem ab (List.mem_filter.mp hab).1
  have hβcount : ∀ i j t, cell A i j = [t] →
      (((transitionListToMatchedTuple (findMatchingExpression
        (transList (pureTransitionToOdeAux A)))).foldl
          (singleOriginStep (pureTransitionToOdeAux A) states)
          (zerosMat A.length, [])).2).count ([t], [negTerm t]) ≤ 1 := by
    intro i j t hc
    rw [hp1.2.1, List.nil_append]
    exact Nat.le_trans (count_filter_le_p _ _ _) (hTcount i j t hc)
  have hp2 := pass2_run hA _ _ [] hp1.1 hβmem hβcount
  have hcells : ∀ p q,
      cell ((((transitionListToMatchedTuple (findMatchingExpression
        (transList (pureTransitionToOdeAux A)))).foldl
          (singleOriginStep (pureTransitionToOdeAux A) states)
          (zerosMat A.length, [])).2).foldl
        (pureTransitionStep (pureTransitionToOdeAux A))
        ((((transitionListToMatchedTuple (findMatchingExpression
          (transList (pureTransitionToOdeAux A)))).foldl
            (singleOriginStep (pureTransitionToOdeAux A) states)
            (zerosMat A.length, [])).1), [])).1 p q
      = cell A p q := by
    intro p q
    rw [hp2.2.2 p q]
    have hcell1 := hp1.2.2 p q
    rw [cell_zerosMat] at hcell1
    rcases goodCellShape hA p q with hnil | ⟨t, hct, htc, htm, htl⟩
    · have hcnd2 : ¬ ∃ t, cell A p q = [t]
          ∧ ([t], [negTerm t]) ∈ ((transitionListToMatchedTuple (findMatchingExpression
            (transList (pureTransitionToOdeAux A)))).foldl
              (singleOriginStep (pureTransitionToOdeAux A) states)
              (zerosMat A.length, [])).2 := by
        rintro ⟨t, hct, hmemT⟩
        rw [hnil] at hct
        exact List.noConfusion hct
      have hcnd1 : ¬ ∃ t, cell A p q = [t]
          ∧ ([t], [negTerm t]) ∈ transitionListToMatchedTuple (findMatchingExpression
            (transList (pureTransitionToOdeAux A)))
          ∧ (originCandidates states [t]).length = 1 := by
        rintro ⟨t, hct, hmemT, hlen⟩
        rw [hnil] at hct
        exact List.noConfusion hct
      rw [if_neg hcnd2, hcell1, if_neg hcnd1, hnil]
    · have hmemtup : (([t], [negTerm t]) : Expr × Expr)
          ∈ transitionListToMatchedTuple (findMatchingExpression
            (transList (pureTransitionToOdeAux A))) :=
        List.count_pos_iff.mp (by rw [count_tuples_cell hA hct]; omega)
      have haddval : addE [] (cell A p q) = [t] := by
        rw [hct]
        unfold addE
        rw [List.nil_append]
        exact norm_id (canon_single (by rw [htc]; omega) htm)
      rcases goodOrigin hA hct with hor | hor
      · have hcnd1 : ∃ t2, cell A p q = [t2]
            ∧ ([t2], [negTerm t2]) ∈ transitionListToMatchedTuple (findMatchingExpression
              (transList (pureTransitionToOdeAux A)))
            ∧ (originCandidates states [t2]).length = 1 :=
          ⟨t, hct, hmemtup, by rw [hor]; exact List.length_singleton p⟩
        have hcnd2 : ¬ ∃ t2, cell A p q = [t2]
            ∧ ([t2], [negTerm t2]) ∈ ((transitionListToMatchedTuple (findMatchingExpression
              (transList (pureTransitionToOdeAux A)))).foldl
                (singleOriginStep (pureTransitionToOdeAux A) states)
                (zerosMat A.length, [])).2 := by
          rintro ⟨t2, hct2, hmem2⟩
          rw [hct] at hct2
          injection hct2 with h5
          subst h5
          rw [hp1.2.1, List.nil_append] at hmem2
          have hfil := (List.mem_filter.mp hmem2).2
          rw [decide_eq_true_eq] at hfil
          apply hfil
          rw [hor]
          exact List.length_singleton p
        rw [if_neg hcnd2, hcell1, if_pos hcnd1, haddval, hct]
      · have hcnd1 : ¬ ∃ t2, cell A p q = [t2]
            ∧ ([t2], [negTerm t2]) ∈ transitionListToMatchedTuple (findMatchingExpression
              (transList (pureTransitionToOdeAux A)))
            ∧ (originCandidates states [t2]).length = 1 := by
          rintro ⟨t2, hct2, hmem2, hlen2⟩
          rw [hct] at hct2
          injection hct2 with h5
          subst h5
          exact hor hlen2
        have hcnd2 : ∃ t2, cell A p q = [t2]
            ∧ ([t2], [negTerm t2]) ∈ ((transitionListToMatchedTuple (findMatchingExpression
              (transList (pureTransitionToOdeAux A)))).foldl
                (singleOriginStep (pureTransitionToOdeAux A) states)
                (zerosMat A.length, [])).2 := by
          refine ⟨t, hct, ?_⟩
          rw [hp1.2.1, List.nil_append]
          exact List.mem_filter.mpr ⟨hmemtup, decide_eq_true hor⟩
        rw [if_pos hcnd2, hcell1, if_neg hcnd1, haddval, hct]
  exact Prod.ext (mat_ext hp2.1 hDA hcells) hp2.2.1

/-- Counterexample to C2: `matC2 = [[0, x], [x, 0]]` is square with zero
diagonal, but the two opposite transitions cancel in the reconstructed ODE
(both equations are identically zero), so the decomposition returns the zero
matrix: the set of nonzero cells of the result (empty) differs from that of
the input (`(0,1)` and `(1,0)`). -/
theorem C2_roundtrip_counterexample :
    (∀ r ∈ matC2, r.length = matC2.length)
    ∧ cell matC2 0 0 = [] ∧ cell matC2 1 1 = []
    ∧ pureTransitionToOde matC2 = some (pureTransitionToOdeAux matC2)
    ∧ cell matC2 0 1 = [tX] ∧ cell matC2 1 0 = [tX]
    ∧ odeToPureTransition (pureTransitionToOdeAux matC2) [sS, sI] = (zerosMat 2, [])
    ∧ cell (zerosMat 2) 0 1 = [] ∧ cell (zerosMat 2) 1 0 = [] := by
  refine ⟨by decide, rfl, rfl, by decide, rfl, rfl, by decide, rfl, rfl⟩

/-- C2 amended: the round trip `decompose (reconstruct A)` returns `A` itself
(and an empty remainder) when `A` is square with zero diagonal, every cell
holds at most one term that is a product of at least two factors with
coefficient one, the cell monomials are pairwise distinct, the candidate-origin
scan of pass 1 finds exactly the source row or defers to pass 2, and no state
is isolated.  Without these extra hypotheses the claim fails
(`C2_roundtrip_counterexample`). -/
theorem C2_roundtrip_amended (A : Mat) (states : List Nat) (hA : GoodMat A states) :
    pureTransitionToOde A = some (pureTransitionToOdeAux A)
    ∧ odeToPureTransition (pureTransitionToOdeAux A) states = (A, []) := by
  constructor
  · have hcond : (A.all (fun row => decide (row.length = A.length))) = true := by
      rw [List.all_eq_true]
      intro r hr
      rw [decide_eq_true_eq]
      exact hA.1 r hr
    unfold pureTransitionToOde
    rw [if_pos hcond]
  · unfold odeToPureTransition
    simp only []
    rw [decomposeStage_eval hA]
    simp only []
    have hzipgen : ∀ l : List Expr, List.zipWith subE l l
        = l.map (fun e => subE e e) := by
      intro l
      induction l with
      | nil => rfl
      | cons x xs ih => rw [List.zipWith_cons_cons, List.map_cons, ih]
    have hsub : ∀ e : Expr, subE e e = [] := by
      intro e
      unfold subE
      rw [norm_nil_iff]
      intro m
      rw [coeffOf_append, coeffOf_map_negTerm]
      omega
    have hall : (residualOde (pureTransitionToOdeAux A) A).all
        (fun x => decide (x = [])) = true := by
      unfold residualOde
      rw [hzipgen, List.all_eq_true]
      intro x hx
      rcases List.mem_map.mp hx with ⟨e, he, hxe⟩
      rw [decide_eq_true_eq, ← hxe]
      exact hsub e
    rw [if_pos hall]

/-- Witness for the amended C2 at the SIR transition matrix with states
`[S, I, R]`. -/
theorem C2_roundtrip_amended_witness :
    GoodMat matSIR [sS, sI, sR]
    ∧ (pureTransitionToOde matSIR = some (pureTransitionToOdeAux matSIR)
      ∧ odeToPureTransition (pureTransitionToOdeAux matSIR) [sS, sI, sR]
          = (matSIR, [])) :=
  ⟨by decide, C2_roundtrip_amended matSIR [sS, sI, sR] (by decide)⟩

end Pygom
